import Mathlib

/-!
# kdeps: request-driven dependency resolution and execution engine

A shallow embedding of the resolver (`pkg/resolver`), the API front door
(`pkg/docker/api_server.go`), the schema version (`pkg/schema`), the template
checks (`pkg/enforcer`) and the configuration lookup (`pkg/environment`) of
kdeps, followed by theorems about them.

Conventions of the embedding:

* A Go `string` is a `Str`, a list of characters (the text is taken to be valid
  UTF-8, so that substring search on bytes and on characters agree).
* A Go `error` is an `Option String`: `none` is `nil`. Where the text of an
  error is reasoned about (`timestamps.go`, `enforcer.go`, the response
  descriptor), the error is its message as `Str`.
* The `afero.Fs` behind a resolver is the in-memory record `Fs`.
* Library routines of Go (`strings.Index`, `regexp.ReplaceAllString`,
  `filepath.Clean`, `filepath.Join`) are embedded by their documented behaviour.
* Collaborators that live outside the repository (the Pkl renderer, the
  directory walk, the resource parser) are parameters of the operations that
  call them.
-/

namespace Kdeps

/-- Go strings, as character sequences. -/
abbrev Str := List Char

/-! ## `strings` -/

namespace Strings

/-- Embedding of strings.HasPrefix. -/
def HasPrefix : Str → Str → Bool
  | _, [] => true
  | [], _ :: _ => false
  | c :: s, d :: p => c == d && HasPrefix s p

/-- Position of the first occurrence of `substr` in `s`, if any. -/
def indexOf : Str → Str → Option Nat
  | [], substr => if substr.isEmpty then some 0 else none
  | c :: t, substr =>
    if HasPrefix (c :: t) substr then some 0 else (indexOf t substr).map (· + 1)

/-- Embedding of strings.Index: the index of the first instance of `substr`
in `s`, or `-1` if `substr` is not present in `s`. -/
def Index (s substr : Str) : Int :=
  match indexOf s substr with
  | some i => (i : Int)
  | none => -1

/-- Embedding of strings.Contains, which Go defines as `Index(s, substr) >= 0`. -/
def Contains (s substr : Str) : Bool :=
  decide (Index s substr ≥ 0)

/-- Embedding of strings.TrimSuffix. -/
def TrimSuffix (s suffix : Str) : Str :=
  if HasPrefix s.reverse suffix.reverse then s.take (s.length - suffix.length) else s

/-- The white space of unicode.IsSpace. -/
def isSpace (c : Char) : Bool :=
  c == '\t' || c == '\n' || c.toNat == 0x0B || c.toNat == 0x0C || c == '\r' || c == ' ' ||
  c.toNat == 0x85 || c.toNat == 0xA0 || c.toNat == 0x1680 ||
  (0x2000 ≤ c.toNat && c.toNat ≤ 0x200A) || c.toNat == 0x2028 || c.toNat == 0x2029 ||
  c.toNat == 0x202F || c.toNat == 0x205F || c.toNat == 0x3000

/-- Embedding of strings.TrimSpace. -/
def TrimSpace (s : Str) : Str :=
  ((s.dropWhile isSpace).reverse.dropWhile isSpace).reverse

/-- Embedding of strings.Join. -/
def Join (elems : List Str) (sep : Str) : Str :=
  List.intercalate sep elems

/-- Go slice expression `s[:e]`. -/
def sliceTo (s : Str) (e : Int) : Str := s.take e.toNat

/-- Go slice expression `s[b:]`. -/
def sliceFrom (s : Str) (b : Int) : Str := s.drop b.toNat

end Strings

/-! ## `regexp` -/

namespace Regexp

/-- Offset of the last position of `line` at which `close` starts. -/
def lastStart (close : Str) : Str → Option Nat
  | [] => none
  | c :: t =>
    match lastStart close t with
    | some k => some (k + 1)
    | none => if Strings.HasPrefix (c :: t) close then some 0 else none

/-- One match attempt, at the start of `s`, of a regular expression of the
shape `open(.*)close` where `open` and `close` are literal texts: `.` matches
every character but the newline and `.*` is greedy, so the group extends to the
last `close` of the current line. The result is the text of the group and the
input left after the match. -/
def matchAt (opener close s : Str) : Option (Str × Str) :=
  if Strings.HasPrefix s opener then
    let rest := s.drop opener.length
    let line := rest.takeWhile (fun c => c != '\n')
    match lastStart close line with
    | some k => some (line.take k, rest.drop (k + close.length))
    | none => none
  else none

/-- Leftmost, non-overlapping replacement of every match of `open(.*)close` by
the template `\($1)`; `fuel` bounds the number of scanning steps. -/
def replaceAux (opener close : Str) : Nat → Str → Str
  | 0, s => s
  | _ + 1, [] => []
  | fuel + 1, c :: t =>
    match matchAt opener close (c :: t) with
    | some (group, after) =>
      '\\' :: '(' :: (group ++ ')' :: replaceAux opener close fuel after)
    | none => c :: replaceAux opener close fuel t

/-- Embedding of `re.ReplaceAllString(s, "\\($1)")` for `re` of the shape
`open(.*)close`. -/
def ReplaceAllString (opener close s : Str) : Str :=
  replaceAux opener close s.length s

/-- A text that the rewrite of `@(...)` leaves as it is wherever it occurs: no
`@` of it is followed by `(`, and it does not end in `@`. -/
def placeholderFree : Str → Bool
  | [] => true
  | c :: rest =>
    !(c == '@' && (rest.isEmpty || rest.head? == some '(')) && placeholderFree rest

/-- The texts that differ from `s` only in that some `@` standing before a `(`
have become a backslash. -/
inductive Rewrites : Str → Str → Prop where
  | done : Rewrites [] []
  | keep (c : Char) {s t : Str} : Rewrites s t → Rewrites (c :: s) (c :: t)
  | subst {s t : Str} : Rewrites ('(' :: s) t → Rewrites ('@' :: '(' :: s) ('\\' :: t)

end Regexp

/-! ## `path/filepath` -/

namespace Filepath

/-- The elements of a path between its separators (empty elements included). -/
def splitSlash : Str → List Str
  | [] => [[]]
  | c :: cs =>
    if c = '/' then [] :: splitSlash cs
    else
      match splitSlash cs with
      | [] => [[c]]
      | h :: t => (c :: h) :: t

/-- One step of Clean over the elements kept so far (innermost first). -/
def cleanPush (rooted : Bool) (kept : List Str) (elem : Str) : List Str :=
  if elem = [] ∨ elem = ['.'] then kept
  else if elem = ['.', '.'] then
    match kept with
    | top :: below => if top = ['.', '.'] then elem :: kept else below
    | [] => if rooted then [] else [elem]
  else elem :: kept

/-- Embedding of filepath.Clean (Unix): multiple separators collapse, `.`
elements disappear, an inner `..` removes the element before it, a `..` at the
start of a rooted path disappears, and the empty result is `.`. -/
def Clean (path : Str) : Str :=
  if path = [] then ['.']
  else
    let rooted := path.head? = some '/'
    let kept := (splitSlash path).foldl (cleanPush rooted) []
    let out := (if rooted then ['/'] else []) ++ List.intercalate ['/'] kept.reverse
    if out = [] then ['.'] else out

/-- Embedding of filepath.Join: empty elements are ignored, the rest is joined
by the separator and cleaned; the result is empty if every element is. -/
def Join (elems : List Str) : Str :=
  let parts := elems.filter (fun e => e ≠ [])
  if parts = [] then [] else Clean (List.intercalate ['/'] parts)

/-- Embedding of filepath.Base: the last element of the path, after removal of
the trailing separators; `.` for the empty path and `/` for a path of
separators only. -/
def Base (path : Str) : Str :=
  if path = [] then ['.']
  else
    let stripped := (path.reverse.dropWhile (fun c => c == '/')).reverse
    let last := (stripped.reverse.takeWhile (fun c => c != '/')).reverse
    if last = [] then ['/'] else last

/-- Embedding of filepath.Ext: the suffix beginning at the final dot of the
last element of the path, empty if there is no dot. -/
def Ext (path : Str) : Str :=
  let lastRev := path.reverse.takeWhile (fun c => c != '/')
  if '.' ∈ lastRev then '.' :: (lastRev.takeWhile (fun c => c != '.')).reverse else []

end Filepath

/-! ## `afero.Fs` -/

/-- An in-memory file system: the regular files with their contents, the paths
whose `Stat` fails with an error other than "does not exist", and whether
writes are refused. -/
structure Fs where
  files : List (Str × Str)
  statFails : List Str
  readOnly : Bool
deriving DecidableEq, Repr

namespace Afero

/-- Content of the file at `path`, if there is one. -/
def lookup (fs : Fs) (path : Str) : Option Str :=
  (fs.files.find? (fun e => e.1 = path)).map (fun e => e.2)

/-- Embedding of afero.Exists: `(true, nil)` if the file is there, `(false, nil)`
if it is not, `(false, err)` if `Stat` fails otherwise. -/
def Exists (fs : Fs) (path : Str) : Bool × Option String :=
  if path ∈ fs.statFails then (false, some "stat failed")
  else ((lookup fs path).isSome, none)

/-- Embedding of afero.ReadFile. -/
def ReadFile (fs : Fs) (path : Str) : Except String Str :=
  match lookup fs path with
  | some content => .ok content
  | none => .error "file does not exist"

/-- Embedding of `fs.Stat(path)` as far as its error goes: nil exactly when the
file is there and can be inspected. -/
def StatOk (fs : Fs) (path : Str) : Bool :=
  decide (path ∉ fs.statFails) && (lookup fs path).isSome

/-- Embedding of `fs.RemoveAll(path)` on a file. -/
def RemoveAll (fs : Fs) (path : Str) : Except String Fs :=
  if fs.readOnly then .error "operation not permitted"
  else .ok { fs with files := fs.files.filter (fun e => e.1 ≠ path) }

/-- Embedding of afero.WriteFile: the file is created or truncated, then
written. -/
def WriteFile (fs : Fs) (path content : Str) : Except String Fs :=
  if fs.readOnly then .error "operation not permitted"
  else .ok { fs with files := (path, content) :: fs.files.filter (fun e => e.1 ≠ path) }

end Afero

/-! ## `pkg/schema` -/

namespace Schema

/-- The default specified version. -/
def specifiedVersion : Str := "0.1.46".toList

/-- Embedding of schema.SchemaVersion: the cached latest release when
`UseLatest` is set, the specified version otherwise. -/
def SchemaVersion (UseLatest : Bool) (cachedVersion : Str) : Str :=
  if UseLatest then cachedVersion else specifiedVersion

end Schema

/-! ## Go maps -/

namespace GoMap

/-- Assignment `m[k] = v` on a Go map kept as an association list. -/
def mapAssign {V : Type} (m : List (Str × V)) (k : Str) (v : V) : List (Str × V) :=
  match m with
  | [] => [(k, v)]
  | (k1, v1) :: rest => if k1 = k then (k, v) :: rest else (k1, v1) :: mapAssign rest k v

/-- A Go map literal: the key/value pairs are assigned in source order, so a
later pair replaces an earlier one with the same key. -/
def mapLiteral {V : Type} (pairs : List (Str × V)) : List (Str × V) :=
  pairs.foldl (fun m e => mapAssign m e.1 e.2) []

/-- Lookup `m[k]` with the comma-ok result. -/
def mapGet {V : Type} (m : List (Str × V)) (k : Str) : Option V :=
  match m with
  | [] => none
  | (k1, v1) :: rest => if k1 = k then some v1 else mapGet rest k

/-- The order in which `range` visits a map is not specified by Go: `rank`
orders the keys, and every iteration order of a map is given by some `rank`. -/
def rangeOver {V : Type} (rank : Str → Nat) (m : List (Str × V)) : List (Str × V) :=
  m.insertionSort (fun a b => rank a.1 ≤ rank b.1)

/-- The value a key has after a sequence of assignments: the one of the last
pair with that key, `start` if there is none. -/
def lastValue {V : Type} (k : Str) (pairs : List (Str × V)) (start : Option V) : Option V :=
  pairs.foldl (fun acc e => if e.1 = k then some e.2 else acc) start

end GoMap

/-! ## `pkg/resolver`: the resolver record -/

/-- One entry of the resource catalog. -/
structure ResourceNodeEntry where
  Id : Str
  File : Str
deriving DecidableEq, Repr

/-- The fields of resolver.DependencyResolver that the operations below read
or write. `UseLatest` and `cachedVersion` stand for the package-level
variables of `pkg/schema`, `WorkflowAction` for `dr.Workflow.Action`. -/
structure DependencyResolver where
  Fs : Fs
  Resources : List ResourceNodeEntry
  ResourceDependencies : List (Str × List Str)
  WorkflowAction : Str
  RequestId : Str
  RequestPklFile : Str
  ResponsePklFile : Str
  ResponseTargetFile : Str
  ResponseFlag : Str
  ResponseType : Str
  ProjectDir : Str
  AgentDir : Str
  ActionDir : Str
  UseLatest : Bool
  cachedVersion : Str
deriving DecidableEq, Repr

/-! ## `pkg/resolver/imports.go` -/

namespace Imports

/-- The local type ImportConfig of PrependDynamicImports. -/
structure ImportConfig where
  Alias : Str
  Check : Bool
deriving DecidableEq, Repr

/-- The key `package://schema.kdeps.com/core@<version>#/<file>`. -/
def schemaModule (dr : DependencyResolver) (file : Str) : Str :=
  "package://schema.kdeps.com/core@".toList ++
    Schema.SchemaVersion dr.UseLatest dr.cachedVersion ++ "#/".toList ++ file

/-- The key `filepath.Join(dr.ActionDir, "/<kind>/"+dr.RequestId+"__<kind>_output.pkl")`. -/
def outputFile (dr : DependencyResolver) (kind : Str) : Str :=
  Filepath.Join [dr.ActionDir,
    "/".toList ++ kind ++ "/".toList ++ dr.RequestId ++ "__".toList ++ kind ++ "_output.pkl".toList]

/-- The pairs of the map literal `importCheck` with `Check: false`, in source
order. -/
def alwaysOnPairs (dr : DependencyResolver) : List (Str × ImportConfig) :=
  [ ("pkl:json".toList, ⟨[], false⟩),
    ("pkl:test".toList, ⟨[], false⟩),
    ("pkl:math".toList, ⟨[], false⟩),
    ("pkl:platform".toList, ⟨[], false⟩),
    ("pkl:semver".toList, ⟨[], false⟩),
    ("pkl:shell".toList, ⟨[], false⟩),
    ("pkl:xml".toList, ⟨[], false⟩),
    ("pkl:yaml".toList, ⟨[], false⟩),
    (schemaModule dr "Document.pkl".toList, ⟨"document".toList, false⟩),
    (schemaModule dr "Skip.pkl".toList, ⟨"skip".toList, false⟩),
    (schemaModule dr "Utils.pkl".toList, ⟨"utils".toList, false⟩) ]

/-- The pairs of the map literal `importCheck` with `Check: true`, which follow
the others in the source. -/
def gatedPairs (dr : DependencyResolver) : List (Str × ImportConfig) :=
  [ (outputFile dr "llm".toList, ⟨"llm".toList, true⟩),
    (outputFile dr "client".toList, ⟨"client".toList, true⟩),
    (outputFile dr "exec".toList, ⟨"exec".toList, true⟩),
    (outputFile dr "python".toList, ⟨"python".toList, true⟩),
    (outputFile dr "data".toList, ⟨"data".toList, true⟩),
    (dr.RequestPklFile, ⟨"request".toList, true⟩) ]

/-- The pairs of the map literal `importCheck`, in source order. -/
def importPairs (dr : DependencyResolver) : List (Str × ImportConfig) :=
  alwaysOnPairs dr ++ gatedPairs dr

/-- The six paths whose import is gated by existence: the per-kind output
files and the request descriptor. -/
def gatedPaths (dr : DependencyResolver) : List Str :=
  (gatedPairs dr).map Prod.fst

/-- The map `importCheck`. -/
def importCheck (dr : DependencyResolver) : List (Str × ImportConfig) :=
  GoMap.mapLiteral (importPairs dr)

/-- The helper `fileExists`: the error of afero.Exists is dropped. -/
def fileExists (dr : DependencyResolver) (file : Str) : Bool :=
  (Afero.Exists dr.Fs file).1

/-- The helper `generateImportLine`. -/
def generateImportLine (file aliasName : Str) : Str :=
  if aliasName = [] then "import \"".toList ++ file ++ "\"".toList
  else "import \"".toList ++ file ++ "\" as ".toList ++ aliasName

/-- The loop over `importCheck`: the entries whose import line is written to
the builder, in the order of the writes. -/
def writtenEntries (dr : DependencyResolver) (contentStr : Str) :
    List (Str × ImportConfig) → List (Str × ImportConfig)
  | [] => []
  | (file, config) :: rest =>
    if config.Check && !fileExists dr file then writtenEntries dr contentStr rest
    else
      let importLine := generateImportLine file config.Alias
      if !Strings.Contains contentStr importLine then
        (file, config) :: writtenEntries dr contentStr rest
      else writtenEntries dr contentStr rest

/-- The content of `importBuilder` after the loop: every written import line,
each followed by a newline. -/
def importBuilder (dr : DependencyResolver) (contentStr : Str)
    (entries : List (Str × ImportConfig)) : Str :=
  ((writtenEntries dr contentStr entries).map
    (fun e => generateImportLine e.1 e.2.Alias ++ ['\n'])).flatten

/-- The header keyword searched by PrependDynamicImports. -/
def amends : Str := "amends".toList

/-- The text `l` does not run into the keyword `kw`: no proper end of `l`
starts `kw` or is the start of `kw`. -/
def overlapFree (kw l : Str) : Bool :=
  (List.range l.length).all
    (fun k => k == 0 || !(Strings.HasPrefix kw (l.drop k) || Strings.HasPrefix (l.drop k) kw))

/-- The text that PrependDynamicImports writes when the keyword is found at
`amendsIndex`: the batch `importFiles` spliced in at `amendsLineEnd`, then the
placeholder rewrite over the whole text. -/
def spliced (contentStr importFiles : Str) (amendsIndex : Int) : Str :=
  let amendsLineEnd :=
    Strings.Index (Strings.sliceFrom contentStr amendsIndex) ['\n'] + amendsIndex + 1
  let newContent :=
    Strings.sliceTo contentStr amendsLineEnd ++ importFiles ++
      Strings.sliceFrom contentStr amendsLineEnd
  Regexp.ReplaceAllString "@(".toList ")".toList newContent

/-- Embedding of `(dr *DependencyResolver) PrependDynamicImports(pklFile)` in
the file imports.go. The result is the returned error and the file system
afterwards. -/
def PrependDynamicImports (dr : DependencyResolver) (rank : Str → Nat) (pklFile : Str) :
    Option String × Fs :=
  match Afero.ReadFile dr.Fs pklFile with
  | .error err => (some err, dr.Fs)
  | .ok contentStr =>
    let importFiles := importBuilder dr contentStr (GoMap.rangeOver rank (importCheck dr))
    if importFiles = [] then (none, dr.Fs)
    else
      let amendsIndex := Strings.Index contentStr amends
      if amendsIndex ≠ -1 then
        match Afero.WriteFile dr.Fs pklFile (spliced contentStr importFiles amendsIndex) with
        | .error err => (some err, dr.Fs)
        | .ok fs => (none, fs)
      else (none, dr.Fs)

end Imports

/-! ## `pkg/resolver/resolver.go` -/

namespace Resolver

/-- The map literal `importCheck` of the PrependDynamicImports of resolver.go:
file to the name of its local variable. -/
def importCheck (dr : DependencyResolver) : List (Str × Str) :=
  GoMap.mapLiteral
    [ (dr.RequestPklFile, []),
      (Filepath.Join [dr.ActionDir, "/llm/llm_responses.pkl".toList], "llm".toList),
      (Filepath.Join [dr.ActionDir, "/client/client_responses.pkl".toList], "client".toList) ]

/-- The text `import "<file>"`. -/
def importLine (file : Str) : Str :=
  "import \"".toList ++ file ++ "\"".toList

/-- The text `local <variable> = <importName>_responses` with its newline,
where importName is `strings.TrimSuffix(filepath.Base(variable), ".pkl")`. -/
def localVarLine (varName : Str) : Str :=
  "local ".toList ++ varName ++ " = ".toList ++
    Strings.TrimSuffix (Filepath.Base varName) ".pkl".toList ++ "_responses\n".toList

/-- The loop over `importCheck`: the values of `importFiles` and
`localVariables` after it. -/
def collect (fs : Fs) (content : Str) : List (Str × Str) → Str × Str → Str × Str
  | [], acc => acc
  | (file, varName) :: rest, (importFiles, localVariables) =>
    if (Afero.Exists fs file).1 then
      let importFiles1 :=
        if !Strings.Contains content (importLine file) then
          importFiles ++ (importLine file ++ ['\n'])
        else importFiles
      let localVariables1 :=
        if varName ≠ [] then
          if !Strings.Contains content (localVarLine varName) then
            localVariables ++ localVarLine varName
          else localVariables
        else localVariables
      collect fs content rest (importFiles1, localVariables1)
    else collect fs content rest (importFiles, localVariables)

/-- The text written when the keyword is found at `amendsIndex`. -/
def spliced (contentStr importFiles : Str) (amendsIndex : Int) : Str :=
  let amendsLineEnd :=
    Strings.Index (Strings.sliceFrom contentStr amendsIndex) ['\n'] + amendsIndex + 1
  let newContent :=
    Strings.sliceTo contentStr amendsLineEnd ++ importFiles ++
      Strings.sliceFrom contentStr amendsLineEnd
  Regexp.ReplaceAllString "\x7b\x7b".toList "\x7d\x7d".toList newContent

/-- Embedding of `(dr *DependencyResolver) PrependDynamicImports(res)` of
resolver.go. The result is the returned error and the file system afterwards. -/
def PrependDynamicImports (dr : DependencyResolver) (rank : Str → Nat)
    (res : ResourceNodeEntry) : Option String × Fs :=
  match Afero.ReadFile dr.Fs res.File with
  | .error err => (some err, dr.Fs)
  | .ok content =>
    let (importFiles, localVariables) :=
      collect dr.Fs content (GoMap.rangeOver rank (importCheck dr)) ([], [])
    if importFiles ≠ [] ∨ localVariables ≠ [] then
      let importFiles1 := importFiles ++ (['\n'] ++ localVariables ++ ['\n'])
      let amendsIndex := Strings.Index content Imports.amends
      if amendsIndex ≠ -1 then
        match Afero.WriteFile dr.Fs res.File (spliced content importFiles1 amendsIndex) with
        | .error err => (some err, dr.Fs)
        | .ok fs => (none, fs)
      else (none, dr.Fs)
    else (none, dr.Fs)

/-- The table `responseFiles` of GetResponseFlag: Flag, Ext, PklResponseFormat. -/
def responseFiles : List (Str × Str × Str) :=
  [ ("response-jsonnet".toList, ".json".toList, "jsonnet".toList),
    ("response-txtpb".toList, ".txtpb".toList, "textproto".toList),
    ("response-yaml".toList, ".yaml".toList, "yaml".toList),
    ("response-plist".toList, ".plist".toList, "plist".toList),
    ("response-xml".toList, ".xml".toList, "xml".toList),
    ("response-pcf".toList, ".pcf".toList, "pcf".toList),
    ("response-json".toList, ".json".toList, "json".toList) ]

/-- The path `filepath.Join(dr.ActionDir, "/api/"+flag)` of a sentinel. -/
def flagPath (dr : DependencyResolver) (flag : Str) : Str :=
  Filepath.Join [dr.ActionDir, "/api/".toList ++ flag]

/-- The path `filepath.Join(dr.ActionDir, "/api/response"+ext)` of the target. -/
def targetPath (dr : DependencyResolver) (ext : Str) : Str :=
  Filepath.Join [dr.ActionDir, "/api/response".toList ++ ext]

/-- The loop of GetResponseFlag over the rest of the table. -/
def scanFlags (dr : DependencyResolver) :
    List (Str × Str × Str) → DependencyResolver × Option String
  | [] => (dr, some ("no valid response flag file found in " ++ String.mk dr.ActionDir))
  | (flag, ext, format) :: rest =>
    let dr1 := { dr with ResponseFlag := flagPath dr flag }
    match Afero.Exists dr1.Fs dr1.ResponseFlag with
    | (_, some err) => (dr1, some ("error checking file existence: " ++ err))
    | (true, none) =>
      ({ dr1 with ResponseType := format, ResponseTargetFile := targetPath dr1 ext }, none)
    | (false, none) => scanFlags dr1 rest

/-- Embedding of `(dr *DependencyResolver) GetResponseFlag()`: the resolver
afterwards and the returned error. -/
def GetResponseFlag (dr : DependencyResolver) : DependencyResolver × Option String :=
  scanFlags dr responseFiles

/-- What a Go call leaves behind: a nil error, an error, or a run-time panic. -/
inductive Outcome where
  | nil
  | error (msg : String)
  | panic
deriving DecidableEq, Repr

/-- One visit of afero.Walk: the path, whether it is a directory, and the
error handed to the callback. -/
structure WalkItem where
  path : Str
  isDir : Bool
  err : Option String
deriving DecidableEq, Repr

/-- The fields of a parsed resource that the loader reads. -/
structure Resource where
  Id : Str
  Requires : Option (List Str)
deriving DecidableEq, Repr

/-- The collaborators of the execution driver that live outside the repository
sources at hand: the visits of afero.Walk below a directory, the parser
resource.LoadResource (the pointer it returns, nil or not, and its error), the
ordering routine of the dependency graph called with a fresh visited set, and
the renderer pklRes.LoadFromPath with its effect on the file system. -/
structure Collaborators where
  Walk : Fs → Str → List WalkItem
  LoadResource : Fs → Str → Option Resource × Option String
  BuildDependencyStack : List (Str × List Str) → Str → List Str
  LoadFromPath : Fs → Str → Option String × Fs

/-- The callback of LoadResourceEntries over the visits of the walk. A nil
resource pointer is dereferenced by `pklRes.Id`, which panics. -/
def loadEntries (c : Collaborators) :
    List WalkItem → DependencyResolver → Outcome × DependencyResolver
  | [], dr => (.nil, dr)
  | item :: rest, dr =>
    match item.err with
    | some err => (.error err, dr)
    | none =>
      if !item.isDir && Filepath.Ext item.path = ".pkl".toList then
        match (c.LoadResource dr.Fs item.path).1 with
        | none => (.panic, dr)
        | some pklRes =>
          loadEntries c rest
            { dr with
              Resources := dr.Resources ++ [⟨pklRes.Id, item.path⟩]
              ResourceDependencies :=
                GoMap.mapAssign dr.ResourceDependencies pklRes.Id (pklRes.Requires.getD []) }
      else loadEntries c rest dr

/-- Embedding of `(dr *DependencyResolver) LoadResourceEntries()`. -/
def LoadResourceEntries (c : Collaborators) (dr : DependencyResolver) :
    Outcome × DependencyResolver :=
  loadEntries c (c.Walk dr.Fs (Filepath.Join [dr.AgentDir, "resources".toList])) dr

/-- The two calls HandleRunAction makes for a resource. -/
inductive Call where
  | inject
  | evaluate
deriving DecidableEq, Repr

/-- One call made by HandleRunAction, with the error it returned. -/
structure Step where
  res : ResourceNodeEntry
  call : Call
  err : Option String
deriving DecidableEq, Repr

/-- The body of the inner loop of HandleRunAction for a matching resource:
the error that ends the run (if any), the file system and the calls made. -/
def runResource (c : Collaborators) (rank : Str → Nat) (dr : DependencyResolver)
    (res : ResourceNodeEntry) : Option String × DependencyResolver × List Step :=
  match PrependDynamicImports dr rank res with
  | (some err, fs1) => (some err, { dr with Fs := fs1 }, [⟨res, .inject, some err⟩])
  | (none, fs1) =>
    match c.LoadFromPath fs1 res.File with
    | (some err, fs2) =>
      (some err, { dr with Fs := fs2 }, [⟨res, .inject, none⟩, ⟨res, .evaluate, some err⟩])
    | (none, fs2) =>
      (none, { dr with Fs := fs2 }, [⟨res, .inject, none⟩, ⟨res, .evaluate, none⟩])

/-- The inner loop of HandleRunAction: `for _, res := range dr.Resources`. -/
def runNode (c : Collaborators) (rank : Str → Nat) (resNode : Str) :
    List ResourceNodeEntry → DependencyResolver → Option String × DependencyResolver × List Step
  | [], dr => (none, dr, [])
  | res :: rest, dr =>
    if res.Id = resNode then
      match runResource c rank dr res with
      | (some err, dr1, steps) => (some err, dr1, steps)
      | (none, dr1, steps) =>
        match runNode c rank resNode rest dr1 with
        | (r, dr2, steps2) => (r, dr2, steps ++ steps2)
    else runNode c rank resNode rest dr

/-- The outer loop of HandleRunAction: `for _, resNode := range stack`. The
slice `dr.Resources` ranged over by the inner loop is the one loaded before. -/
def runStack (c : Collaborators) (rank : Str → Nat) (resources : List ResourceNodeEntry) :
    List Str → DependencyResolver → Option String × DependencyResolver × List Step
  | [], dr => (none, dr, [])
  | resNode :: rest, dr =>
    match runNode c rank resNode resources dr with
    | (some err, dr1, steps) => (some err, dr1, steps)
    | (none, dr1, steps) =>
      match runStack c rank resources rest dr1 with
      | (r, dr2, steps2) => (r, dr2, steps ++ steps2)

/-- Embedding of `(dr *DependencyResolver) HandleRunAction()`: the outcome, the
resolver afterwards and the injection and evaluation calls made, in order. -/
def HandleRunAction (c : Collaborators) (rank : Str → Nat) (dr : DependencyResolver) :
    Outcome × DependencyResolver × List Step :=
  let actionId := dr.WorkflowAction
  match LoadResourceEntries c dr with
  | (.error err, dr1) => (.error err, dr1, [])
  | (.panic, dr1) => (.panic, dr1, [])
  | (.nil, dr1) =>
    let stack := c.BuildDependencyStack dr1.ResourceDependencies actionId
    match runStack c rank dr1.Resources stack dr1 with
    | (some err, dr2, steps) => (.error err, dr2, steps)
    | (none, dr2, steps) => (.nil, dr2, steps)

/-- What holds of the calls of a finished part of a run: if it ends without
error every call succeeded, and if it ends with an error the last call failed
with that error and every call before it succeeded. -/
def Halting (r : Option String × DependencyResolver × List Step) : Prop :=
  (r.1 = none → ∀ s ∈ r.2.2, s.err = none) ∧
  (∀ e, r.1 = some e → ∃ front s, r.2.2 = front ++ [s] ∧ s.err = some e ∧
    ∀ s1 ∈ front, s1.err = none)

end Resolver

/-! ## `pkg/resolver/timestamps.go` -/

namespace Timestamps

/-- The field of a resource of an output record that the waits read: the
timestamp, a `*uint32` that may be nil. -/
structure ResourceRecord where
  Timestamp : Option Nat
deriving DecidableEq, Repr

/-- The value behind the `interface` that loadPKLFile returns: the output
record of the exec, llm or http kind with its map of resources by identifier
(the map and its entries are taken to be non-nil), or something else. -/
inductive PklResult where
  | exec (resources : List (Str × ResourceRecord))
  | llm (resources : List (Str × ResourceRecord))
  | http (resources : List (Str × ResourceRecord))
  | other
deriving DecidableEq, Repr

/-- The map literal `files` of getResourceFilePath. -/
def files (dr : DependencyResolver) : List (Str × Str) :=
  GoMap.mapLiteral
    [ ("llm".toList,
        Filepath.Join [dr.ActionDir, "llm".toList, dr.RequestId ++ "__llm_output.pkl".toList]),
      ("client".toList,
        Filepath.Join [dr.ActionDir, "client".toList,
          dr.RequestId ++ "__client_output.pkl".toList]),
      ("exec".toList,
        Filepath.Join [dr.ActionDir, "exec".toList, dr.RequestId ++ "__exec_output.pkl".toList]) ]

/-- Embedding of `(dr *DependencyResolver) getResourceFilePath(resourceType)`. -/
def getResourceFilePath (dr : DependencyResolver) (resourceType : Str) : Except Str Str :=
  match GoMap.mapGet (files dr) resourceType with
  | some pklPath => .ok pklPath
  | none => .error ("invalid resourceType ".toList ++ resourceType ++ " provided".toList)

/-- Embedding of `(dr *DependencyResolver) loadPKLFile(resourceType, pklPath)`:
`loaded` is what the generated loader of the kind (pklExec, pklLLM or pklHttp
`LoadFromPath`, outside the repository) returns for the path at this moment. -/
def loadPKLFile (resourceType : Str) (loaded : PklResult × Option Str) :
    PklResult × Option Str :=
  if resourceType = "exec".toList then loaded
  else if resourceType = "llm".toList then loaded
  else if resourceType = "client".toList then loaded
  else (.other, some ("unsupported resourceType ".toList ++ resourceType ++ " provided".toList))

/-- The error of a resource whose timestamp is nil. -/
def nilTimestampError (resourceId : Str) : Str :=
  "timestamp for resource ID ".toList ++ resourceId ++ " is nil".toList

/-- The error of a resource that the record does not hold. -/
def missingResourceError (resourceId : Str) : Str :=
  "resource ID ".toList ++ resourceId ++ " does not exist in the file".toList

/-- The lookup that the three cases of getResourceTimestamp share. -/
def lookupTimestamp (resourceId : Str) (resources : List (Str × ResourceRecord)) :
    Except Str Nat :=
  match GoMap.mapGet resources resourceId with
  | some resource =>
    match resource.Timestamp with
    | none => .error (nilTimestampError resourceId)
    | some timestamp => .ok timestamp
  | none => .error (missingResourceError resourceId)

/-- Embedding of `getResourceTimestamp(resourceId, pklRes)`. -/
def getResourceTimestamp (resourceId : Str) (pklRes : PklResult) : Except Str Nat :=
  match pklRes with
  | .exec resources => lookupTimestamp resourceId resources
  | .llm resources => lookupTimestamp resourceId resources
  | .http resources => lookupTimestamp resourceId resources
  | .other => .error "unknown PKL result type".toList

/-- Embedding of `(dr *DependencyResolver) GetCurrentTimestamp(resourceId,
resourceType)`, given what the loader returns. -/
def GetCurrentTimestamp (dr : DependencyResolver) (resourceId resourceType : Str)
    (loaded : PklResult × Option Str) : Nat × Option Str :=
  match getResourceFilePath dr resourceType with
  | .error err => (0, some err)
  | .ok _ =>
    match loadPKLFile resourceType loaded with
    | (_, some err) =>
      (0, some ("failed to load ".toList ++ resourceType ++ " PKL file: ".toList ++ err))
    | (pklRes, none) =>
      match getResourceTimestamp resourceId pklRes with
      | .error err => (0, some err)
      | .ok timestamp => (timestamp, none)

/-- One cycle of the loop of WaitForTimestampChange as the outside world gives
it: the value of `time.Since(startTime)` at the check of the cycle, in
nanoseconds, and what the loader returns in the cycle. -/
structure Poll where
  elapsed : Int
  loaded : PklResult × Option Str
deriving DecidableEq, Repr

/-- What a wait has done after a number of cycles: it is still in its loop, or
it has returned an error (nil or not). -/
inductive Wait where
  | waiting
  | returned (err : Option Str)
deriving DecidableEq, Repr

/-- The error of a wait whose deadline has passed. -/
def timeoutError (resourceId : Str) : Str :=
  "timeout exceeded while waiting for timestamp change for resource ID ".toList ++ resourceId

/-- The loop of WaitForTimestampChange over the cycles that the outside world
gives it. -/
def waitLoop (resourceId : Str) (previousTimestamp : Nat) (timeout : Int) (resourceType : Str) :
    List Poll → Wait
  | [] => .waiting
  | poll :: rest =>
    if timeout > 0 ∧ poll.elapsed > timeout then .returned (some (timeoutError resourceId))
    else
      match loadPKLFile resourceType poll.loaded with
      | (_, some err) =>
        .returned (some ("failed to reload ".toList ++ resourceType ++
          " PKL file: ".toList ++ err))
      | (pklRes, none) =>
        match getResourceTimestamp resourceId pklRes with
        | .error err => .returned (some err)
        | .ok timestamp =>
          if timestamp ≠ previousTimestamp then .returned none
          else waitLoop resourceId previousTimestamp timeout resourceType rest

/-- Embedding of `(dr *DependencyResolver) WaitForTimestampChange(resourceId,
previousTimestamp, timeout, resourceType)` over a sequence of cycles. -/
def WaitForTimestampChange (dr : DependencyResolver) (resourceId : Str)
    (previousTimestamp : Nat) (timeout : Int) (resourceType : Str) (polls : List Poll) : Wait :=
  match getResourceFilePath dr resourceType with
  | .error err => .returned (some err)
  | .ok _ => waitLoop resourceId previousTimestamp timeout resourceType polls

/-- A cycle that lets the loop go on: the deadline has not passed, the record
loads, and the resource still has the previous timestamp. -/
def quiet (resourceId : Str) (previousTimestamp : Nat) (timeout : Int) (poll : Poll) : Prop :=
  ¬ (timeout > 0 ∧ poll.elapsed > timeout) ∧ poll.loaded.2 = none ∧
    getResourceTimestamp resourceId poll.loaded.1 = .ok previousTimestamp

end Timestamps

/-! ## `pkg/docker/api_server.go` -/

namespace Docker

/-- The fields of resolver.ResponseFileInfo that ApiServerHandler sets. -/
structure ResponseFileInfo where
  ResponseFlagFile : Str
  ResponseFileExt : Str
  ContentType : Str
  ResponseType : Str
deriving DecidableEq, Repr

/-- The `switch route.ResponseType` at the start of ApiServerHandler. -/
def responseFile (responseType : Str) : ResponseFileInfo :=
  if responseType = "jsonnet".toList then
    ⟨"response-jsonnet".toList, ".json".toList, "application/json".toList, "jsonnet".toList⟩
  else if responseType = "textproto".toList then
    ⟨"response-txtpb".toList, ".txtpb".toList, "application/protobuf".toList,
      "textproto".toList⟩
  else if responseType = "yaml".toList then
    ⟨"response-yaml".toList, ".yaml".toList, "application/yaml".toList, "yaml".toList⟩
  else if responseType = "plist".toList then
    ⟨"response-plist".toList, ".plist".toList, "application/yaml".toList, "plist".toList⟩
  else if responseType = "xml".toList then
    ⟨"response-xml".toList, ".xml".toList, "application/yaml".toList, "xml".toList⟩
  else if responseType = "pcf".toList then
    ⟨"response-pcf".toList, ".pcf".toList, "application/yaml".toList, "pcf".toList⟩
  else
    ⟨"response-json".toList, ".json".toList, "application/json".toList, "json".toList⟩

/-- The response kinds that a route can declare. -/
def responseKinds : List Str :=
  ["jsonnet".toList, "textproto".toList, "yaml".toList, "plist".toList, "xml".toList,
    "pcf".toList, "json".toList]

/-- What the handler reads of an `*http.Request`: the method, `r.URL.Path`, the
header and the query values (in the order `range` visits them) and the result
of reading the body. -/
structure Request where
  Method : Str
  Path : Str
  Header : List (Str × List Str)
  Query : List (Str × List Str)
  Body : Except String Str

/-- The variables that ApiServerHandler declares before it returns the
handler closure; the closure captures them, so they live as long as the route. -/
structure Captured where
  paramSection : Str
  headerSection : Str
  dataSection : Str
  url : Str
  method : Str
deriving DecidableEq, Repr

/-- The captured variables when the handler is returned: all empty. -/
def Captured.initial : Captured := ⟨[], [], [], [], []⟩

/-- What one call of the handler does for its client: it returns without
writing a response, it answers through http.Error, or it hands the sections of
the request descriptor to evaluator.CreateAndProcessPklFile for
`dr.RequestPklFile` and goes on with the run. -/
inductive Reply where
  | silent
  | httpError (status : Nat) (message : Str)
  | descriptor (sections : List Str)
deriving DecidableEq, Repr

/-- The loop `for _, allowedMethod := range allowedMethods` with its break. -/
def matchMethod (requestMethod : Str) : List Str → Str → Str
  | [], method => method
  | allowedMethod :: rest, method =>
    if allowedMethod = requestMethod then
      "method = \"".toList ++ allowedMethod ++ "\"".toList
    else matchMethod requestMethod rest method

/-- The lines `["<name>"] = "<value>"` built from a multi-valued map. -/
def valueLines (entries : List (Str × List Str)) : List Str :=
  entries.flatMap (fun e => e.2.map (fun value =>
    "[\"".toList ++ e.1 ++ "\"] = \"".toList ++ Strings.TrimSpace value ++ "\"".toList))

/-- Removal of a stale file at the start of the handler: `none` when the
removal fails and the handler returns. -/
def removeStale (fs : Fs) (path : Str) : Option Fs :=
  if Afero.StatOk fs path then
    match Afero.RemoveAll fs path with
    | .error _ => none
    | .ok fs1 => some fs1
  else some fs

/-- Embedding of the closure returned by ApiServerHandler, up to its call of
evaluator.CreateAndProcessPklFile: the captured variables and the file system
after the call, and the reply. -/
def serve (allowedMethods : List Str) (dr : DependencyResolver) (v : Captured) (r : Request) :
    Captured × Fs × Reply :=
  match removeStale dr.Fs dr.ResponseTargetFile with
  | none => (v, dr.Fs, .silent)
  | some fs1 =>
    match removeStale fs1 dr.ResponseFlag with
    | none => (v, fs1, .silent)
    | some fs2 =>
      let v1 := { v with url := "url = \"".toList ++ r.Path ++ "\"".toList }
      let requestMethod := if r.Method = [] then "GET".toList else r.Method
      let v2 := { v1 with method := matchMethod requestMethod allowedMethods v1.method }
      if v2.method = [] then
        (v2, fs2, .httpError 400
          ("HTTP method \"".toList ++ requestMethod ++ "\" not allowed!".toList))
      else
        match r.Body with
        | .error _ => (v2, fs2, .httpError 400 "Failed to read request body".toList)
        | .ok body =>
          let v3 := { v2 with dataSection := "data = \"".toList ++ body ++ "\"".toList }
          let paramsLines := valueLines r.Query
          let headersLines := valueLines r.Header
          let v4 := { v3 with
            paramSection :=
              "params \x7b\n".toList ++ Strings.Join paramsLines ['\n'] ++ "\n\x7d".toList }
          let v5 := { v4 with
            headerSection :=
              "headers \x7b\n".toList ++ Strings.Join headersLines ['\n'] ++ "\n\x7d".toList }
          (v5, fs2,
            .descriptor [v5.url, v5.method, v5.headerSection, v5.dataSection, v5.paramSection])

/-- A sequence of requests served by one handler: the file system seen by each
request is given with it (the run between two requests changes it), the
captured variables are carried from one request to the next. -/
def serveAll (allowedMethods : List Str) (dr : DependencyResolver) :
    Captured → List (Fs × Request) → List Reply
  | _, [] => []
  | v, (fs, r) :: rest =>
    match serve allowedMethods { dr with Fs := fs } v r with
    | (v1, _, reply) => reply :: serveAll allowedMethods dr v1 rest

/-- Following the words of the specification: the (name, value) pairs of a
multi-valued map, every value of a key paired with the name of the key. -/
def namedValues (entries : List (Str × List Str)) : List (Str × Str) :=
  entries.flatMap (fun e => e.2.map (fun value => (e.1, value)))

/-- Following the words of the specification: the line `["<name>"] = "<value>"`. -/
def pairLine (name value : Str) : Str :=
  "[\"".toList ++ name ++ "\"] = \"".toList ++ value ++ "\"".toList

/-- Following the words of the specification: the lines wrapped as a block,
the keyword, an opening brace, a line break, the lines, a line break and the
closing brace. -/
def block (keyword : Str) (lines : List Str) : Str :=
  keyword ++ " \x7b\n".toList ++ Strings.Join lines "\n".toList ++ "\n\x7d".toList

/-- Following the words of the specification: `t` is `s` trimmed of leading
and trailing white space. -/
def Trimmed (s t : Str) : Prop :=
  ∃ front back, s = front ++ t ++ back ∧
    (∀ c ∈ front, Strings.isSpace c = true) ∧ (∀ c ∈ back, Strings.isSpace c = true) ∧
    (∀ c, t.head? = some c → Strings.isSpace c = false) ∧
    (∀ c, t.getLast? = some c → Strings.isSpace c = false)

end Docker

/-! ## The dependency graph (external collaborator) -/

namespace Graph

/-- The identifiers that `id` requires: `deps[id]`, nil for a missing key. -/
def requiredBy (deps : List (Str × List Str)) (id : Str) : List Str :=
  (GoMap.mapGet deps id).getD []

/-- Modelled from the spec: the ordering routine of the dependency graph, an
external collaborator whose code is not under src/ (only its call in
HandleRunAction is). Section 4.2 gives it a dependency map, a root identifier
and a mutable visited set, has it skip what the visited set already holds, and
has it return the root and everything the root transitively requires, each
identifier after all identifiers it depends on: a depth-first walk that emits
an identifier once its requirements are emitted. The result is the emitted
order and the visited set afterwards; `fuel` bounds the depth of the walk. -/
def visit (deps : List (Str × List Str)) : Nat → Str → List Str → List Str × List Str
  | 0, _, visited => ([], visited)
  | fuel + 1, node, visited =>
    if node ∈ visited then ([], visited)
    else
      let below := (requiredBy deps node).foldl
        (fun acc dep => ((acc.1 ++ (visit deps fuel dep acc.2).1), (visit deps fuel dep acc.2).2))
        ([], node :: visited)
      (below.1 ++ [node], below.2)

/-- Modelled from the spec: `BuildDependencyStack(root, visited)` of the graph
collaborator, the execution order of section 4.2 for `root`. -/
def BuildDependencyStack (deps : List (Str × List Str)) (fuel : Nat) (root : Str)
    (visited : List Str) : List Str :=
  (visit deps fuel root visited).1

/-- The relation "`a` transitively requires `b`" (in zero or more steps). -/
inductive Requires (deps : List (Str × List Str)) : Str → Str → Prop where
  | refl (a : Str) : Requires deps a a
  | step (a b c : Str) : b ∈ requiredBy deps a → Requires deps b c → Requires deps a c

/-- A dependency map is acyclic when its identifiers can be ranked so that
every identifier ranks above the identifiers it requires. -/
def Acyclic (deps : List (Str × List Str)) : Prop :=
  ∃ rank : Str → Nat, ∀ a b, b ∈ requiredBy deps a → rank b < rank a

/-- Identifier `a` stands before identifier `b` in `order`. -/
def Before (order : List Str) (a b : Str) : Prop :=
  ∃ front back, order = front ++ b :: back ∧ a ∈ front

end Graph

/-! ## `strconv`, `bufio` and further `strings` routines -/

namespace Strings

/-- Embedding of `strings.Split(s, sep)` for a separator of one character: the
pieces between the separators, one piece more than there are separators. -/
def Split : Str → Char → List Str
  | [], _ => [[]]
  | c :: cs, sep =>
    if c = sep then [] :: Split cs sep
    else
      match Split cs sep with
      | [] => [[c]]
      | h :: t => (c :: h) :: t

/-- Embedding of `strings.Trim(s, cutset)`: the leading and trailing characters
of the cutset are removed. -/
def Trim (s cutset : Str) : Str :=
  ((s.dropWhile (fun c => decide (c ∈ cutset))).reverse.dropWhile
    (fun c => decide (c ∈ cutset))).reverse

/-- Embedding of unicode.ToLower: the letters `A` to `Z` of ASCII are mapped
by the code itself, other characters by the case tables of the `unicode`
package, which are the parameter `caseTable`. -/
def lowerRune (caseTable : Char → Char) (c : Char) : Char :=
  if c.toNat < 128 then
    if 65 ≤ c.toNat ∧ c.toNat ≤ 90 then Char.ofNat (c.toNat + 32) else c
  else caseTable c

/-- Embedding of strings.ToLower: every character is mapped by unicode.ToLower. -/
def ToLower (caseTable : Char → Char) (s : Str) : Str :=
  s.map (lowerRune caseTable)

/-- The length of a string in bytes (UTF-8), Go's `len(s)`. -/
def byteLen (s : Str) : Nat :=
  (s.map (fun c => c.utf8Size)).sum

end Strings

namespace Strconv

/-- The loop of strconv.Atoi over the digits: the number read so far, or
`none` at a character that is not a decimal digit. -/
def parseDigits : Str → Nat → Option Nat
  | [], n => some n
  | c :: cs, n =>
    if 48 ≤ c.toNat ∧ c.toNat ≤ 57 then parseDigits cs (n * 10 + (c.toNat - 48)) else none

/-- Embedding of strconv.Atoi on a 64-bit platform: an optional sign, then at
least one decimal digit and nothing else; `none` (an error) for any other
text and for a number outside the range of `int`. -/
def Atoi (s : Str) : Option Int :=
  let signed : Bool × Str :=
    if s.head? = some '-' then (true, s.tail)
    else if s.head? = some '+' then (false, s.tail)
    else (false, s)
  if signed.2 = [] then none
  else
    match parseDigits signed.2 0 with
    | none => none
    | some n =>
      if signed.1 then (if n ≤ 2 ^ 63 then some (-(n : Int)) else none)
      else (if n < 2 ^ 63 then some (n : Int) else none)

/-- Embedding of strconv.Itoa and of the verbs `%d` and `%v` on an integer. -/
def Itoa (n : Int) : Str :=
  if n < 0 then '-' :: Nat.toDigits 10 n.natAbs else Nat.toDigits 10 n.natAbs

/-- The `width` lower-case hexadecimal digits of `n`, as strconv.Quote writes
them. -/
def hexDigits (width n : Nat) : Str :=
  (List.range width).reverse.map
    (fun i => "0123456789abcdef".toList.getD ((n / 16 ^ i) % 16) '0')

/-- Embedding of strconv.IsPrint: Latin-1 is decided by the code itself, other
characters by the tables of the package, which are the parameter `printTable`. -/
def IsPrint (printTable : Char → Bool) (c : Char) : Bool :=
  if c.toNat ≤ 0xFF then
    (0x20 ≤ c.toNat && c.toNat ≤ 0x7E) || (0xA1 ≤ c.toNat && c.toNat != 0xAD)
  else printTable c

/-- What strconv.Quote writes for one character. -/
def escapeRune (printTable : Char → Bool) (c : Char) : Str :=
  if c = '"' ∨ c = '\\' then ['\\', c]
  else if IsPrint printTable c then [c]
  else if c.toNat = 7 then "\\a".toList
  else if c.toNat = 8 then "\\b".toList
  else if c.toNat = 12 then "\\f".toList
  else if c.toNat = 10 then "\\n".toList
  else if c.toNat = 13 then "\\r".toList
  else if c.toNat = 9 then "\\t".toList
  else if c.toNat = 11 then "\\v".toList
  else if c.toNat < 0x20 ∨ c.toNat = 0x7F then "\\x".toList ++ hexDigits 2 c.toNat
  else if c.toNat < 0x10000 then "\\u".toList ++ hexDigits 4 c.toNat
  else "\\U".toList ++ hexDigits 8 c.toNat

/-- Embedding of strconv.Quote and of the verb `%q` on a string. -/
def Quote (printTable : Char → Bool) (s : Str) : Str :=
  '"' :: s.flatMap (escapeRune printTable) ++ ['"']

end Strconv

namespace Bufio

/-- The constant bufio.MaxScanTokenSize. -/
def MaxScanTokenSize : Nat := 64 * 1024

/-- The message of bufio.ErrTooLong. -/
def ErrTooLong : Str := "bufio.Scanner: token too long".toList

/-- The helper dropCR of bufio.ScanLines. -/
def dropCR (data : Str) : Str :=
  if data.getLast? = some '\r' then data.dropLast else data

/-- The pieces of a text that bufio.ScanLines delimits, before dropCR: the
text between the line ends; a last piece that is empty is not a line. -/
def pieces (content : Str) : List Str :=
  if (Strings.Split content '\n').getLast? = some [] then
    (Strings.Split content '\n').dropLast
  else Strings.Split content '\n'

end Bufio

/-! ## `pkg/enforcer/enforcer.go` -/

namespace Enforcer

/-- The loop of compareVersions over the parts of the two versions. -/
def compareParts : List Str → List Str → Int × Option Str
  | v1Part :: rest1, v2Part :: rest2 =>
    match Strconv.Atoi v1Part, Strconv.Atoi v2Part with
    | some a, some b =>
      if a < b then (-1, none)
      else if a > b then (1, none)
      else compareParts rest1 rest2
    | _, _ => (0, some "invalid version format".toList)
  | _, _ => (0, none)

/-- Embedding of compareVersions: the result and the error. -/
def compareVersions (v1 v2 : Str) : Int × Option Str :=
  compareParts (Strings.Split v1 '.') (Strings.Split v2 '.')

/-- Embedding of EnforceSchemaURL. -/
def EnforceSchemaURL (line : Str) : Option Str :=
  if !Strings.HasPrefix line "amends".toList then
    some "the pkl file does not start with 'amends'".toList
  else if !Strings.Contains line "schema.kdeps.com/core".toList then
    some "the pkl file does not contain 'schema.kdeps.com/core'".toList
  else none

/-- Embedding of EnforcePklVersion. -/
def EnforcePklVersion (line schemaVersion : Str) : Option Str :=
  let start := Strings.Index line "@".toList
  let finish := Strings.Index line "#".toList
  if start = -1 ∨ finish = -1 ∨ start ≥ finish then
    some "invalid version format in the amends line".toList
  else
    let version := (line.take finish.toNat).drop (start + 1).toNat
    match (compareVersions version schemaVersion).2 with
    | some err => some err
    | none => none

/-- Embedding of EnforcePklFilename; `caseTable` is the case table behind
strings.ToLower. -/
def EnforcePklFilename (caseTable : Char → Char) (line filePath : Str) : Option Str :=
  let filename := Strings.ToLower caseTable (Filepath.Base filePath)
  let start := Strings.Index line "#/".toList
  if start = -1 then some "invalid format: could not extract .pkl filename".toList
  else
    let pklFilename := Strings.Trim (line.drop (start + 2).toNat) "\"".toList
    if pklFilename = "Resource.pkl".toList ∧
        (filename = ".kdeps.pkl".toList ∨ filename = "workflow.pkl".toList) then
      some "invalid filename for Resource.pkl".toList
    else if ¬(pklFilename = "Kdeps.pkl".toList ∨ pklFilename = "Workflow.pkl".toList ∨
        pklFilename = "Resource.pkl".toList) then
      some "invalid .pkl file in amends line".toList
    else
      let expected : Str × Str :=
        if pklFilename = "Kdeps.pkl".toList then
          (".kdeps.pkl".toList, "configuration file".toList)
        else if pklFilename = "Workflow.pkl".toList then
          ("workflow.pkl".toList, "workflow file".toList)
        else ([], [])
      if expected.1 ≠ filename ∧ pklFilename ≠ "Resource.pkl".toList then
        some ("invalid .pkl filename for a ".toList ++ expected.2)
      else none

/-- The validations of EnforcePklTemplateAmendsRules on the first line that is
not blank. -/
def checkLine (caseTable : Char → Char) (schemaVersion filePath line : Str) : Option Str :=
  if Filepath.Ext filePath ≠ ".pkl".toList then
    some ("unexpected file type: ".toList ++ filePath)
  else
    match EnforceSchemaURL line with
    | some err => some err
    | none =>
      match EnforcePklVersion line schemaVersion with
      | some err => some err
      | none =>
        match EnforcePklFilename caseTable line filePath with
        | some err => some err
        | none => none

/-- The loop `for scanner.Scan()` of EnforcePklTemplateAmendsRules over the
pieces of the file, with what follows the loop: a piece of MaxScanTokenSize
bytes or more stops the scanner with ErrTooLong. -/
def scanLoop (caseTable : Char → Char) (schemaVersion filePath : Str) : List Str → Option Str
  | [] => some "no valid 'amends' line found".toList
  | piece :: rest =>
    if Strings.byteLen piece ≥ Bufio.MaxScanTokenSize then some Bufio.ErrTooLong
    else
      let line := Strings.TrimSpace (Bufio.dropCR piece)
      if line = [] then scanLoop caseTable schemaVersion filePath rest
      else checkLine caseTable schemaVersion filePath line

/-- Embedding of EnforcePklTemplateAmendsRules; `schemaVersion` is the value of
`schema.SchemaVersion` and the name of the opened file is `filePath`. -/
def EnforcePklTemplateAmendsRules (caseTable : Char → Char) (schemaVersion : Str) (fs : Fs)
    (filePath : Str) : Option Str :=
  match Afero.ReadFile fs filePath with
  | .error err => some err.toList
  | .ok content => scanLoop caseTable schemaVersion filePath (Bufio.pieces content)

/-- Following the words of the specification: the order of versions, component
by component, in which a version that is a proper start of another is the
smaller; `-1`, `0` or `1`. -/
def versionOrder : List Int → List Int → Int
  | [], [] => 0
  | [], _ :: _ => -1
  | _ :: _, [] => 1
  | a :: rest1, b :: rest2 =>
    if a < b then -1 else if a > b then 1 else versionOrder rest1 rest2

/-- Following the words of the specification: `back` is the text of `line`
after the first occurrence of `sep`. -/
def AfterFirst (line sep back : Str) : Prop :=
  ∃ front, line = front ++ sep ++ back ∧
    ∀ front2 back2, line = front2 ++ sep ++ back2 → front.length ≤ front2.length

/-- Following the words of the specification: the header line
`amends "package://schema.kdeps.com/core@<version>#/<module>"`. -/
def amendsLine (version module : Str) : Str :=
  "amends \"package://schema.kdeps.com/core@".toList ++ version ++ "#/".toList ++ module ++
    "\"".toList

/-- Following the words of the specification: a decimal integer that fits the
type `int`, a text of decimal digits. -/
def Numeral (s : Str) : Prop :=
  s ≠ [] ∧ ∃ n, Strconv.parseDigits s 0 = some n ∧ n < 2 ^ 63

end Enforcer

/-! ## `fmt` with a format and no operands -/

namespace Fmt

/-- The flags that may follow the `%` of a verb. -/
def isFlag (c : Char) : Bool :=
  c == '#' || c == '0' || c == '+' || c == '-' || c == ' '

/-- The helper parsenum of `fmt`: the format behind the digits of a width or
a precision; `none` when the number grows beyond a million, in which case the
rest of the format is skipped. -/
def parsenum : Str → Nat → Option Str
  | [], _ => some []
  | c :: cs, num =>
    if 48 ≤ c.toNat ∧ c.toNat ≤ 57 then
      if num > 1000000 then none else parsenum cs (num * 10 + (c.toNat - 48))
    else some (c :: cs)

/-- The loop of doPrintf when there is no operand, for a format without `*`
and `[`: text is copied, `%%` gives `%`, a format that ends inside a verb
gives `%!(NOVERB)`, and every other verb gives `%!<verb>(MISSING)`. -/
def scan : Nat → Str → Str
  | 0, _ => []
  | _ + 1, [] => []
  | fuel + 1, c :: cs =>
    if c ≠ '%' then c :: scan fuel cs
    else
      match parsenum (cs.dropWhile isFlag) 0 with
      | none => "%!(NOVERB)".toList
      | some afterWidth =>
        match (if afterWidth.head? = some '.' then parsenum afterWidth.tail 0
            else some afterWidth) with
        | none => "%!(NOVERB)".toList
        | some [] => "%!(NOVERB)".toList
        | some (verb :: rest) =>
          (if verb = '%' then ['%'] else "%!".toList ++ verb :: "(MISSING)".toList) ++
            scan fuel rest

/-- Embedding of `fmt.Sprintf(format)` and of the text of `fmt.Errorf(format)`,
called with a format and no operand. A format without `%` is the result; what
`fmt` makes of a format with `*` or `[` (widths and indices taken from
operands) is the parameter `indexed`. -/
def Sprintf0 (indexed : Str → Str) (format : Str) : Str :=
  if '%' ∉ format then format
  else if '*' ∈ format ∨ '[' ∈ format then indexed format
  else scan (format.length + 1) format

end Fmt

/-! ## `pkg/environment/environment.go` -/

namespace Environment

/-- The constant SystemConfigFileName. -/
def SystemConfigFileName : Str := ".kdeps.pkl".toList

/-- Embedding of checkConfig: the path of the configuration file and the
error. -/
def checkConfig (fs : Fs) (baseDir : Str) : Str × Option String :=
  match Afero.Exists fs (Filepath.Join [baseDir, SystemConfigFileName]) with
  | (true, none) => (Filepath.Join [baseDir, SystemConfigFileName], none)
  | (_, err) => ([], err)

/-- Embedding of findKdepsConfig. -/
def findKdepsConfig (fs : Fs) (pwd home : Str) : Str :=
  if (checkConfig fs pwd).1 ≠ [] then (checkConfig fs pwd).1
  else if (checkConfig fs home).1 ≠ [] then (checkConfig fs home).1
  else []

end Environment

/-! ## `pkg/resolver/resolver.go`: the response descriptor -/

namespace Resolver

/-- The line `fmt.Sprintf("success = %v", success)`. -/
def successLine (success : Bool) : Str :=
  "success = ".toList ++ (if success then "true".toList else "false".toList)

/-- The response section, which holds the time of the call. -/
def responseBlock (now : Int) : Str :=
  "\nresponse \x7b\n  data \x7b\n    \"".toList ++ Strconv.Itoa now ++
    "\"\n  \x7d\n\x7d\n".toList

/-- The section `fmt.Sprintf("errors {\n  code = %d\n  message = %q\n}", ...)`. -/
def errorsBlock (printTable : Char → Bool) (code : Int) (message : Str) : Str :=
  "errors \x7b\n  code = ".toList ++ Strconv.Itoa code ++ "\n  message = ".toList ++
    Strconv.Quote printTable message ++ "\n\x7d".toList

/-- The variables `success`, `errors.code` and `errors.message` of
CreateResponsePklFile after the sentinel lookup. -/
def afterLookup (success : Bool) (lookup : Option String) : Bool × Int × Str :=
  match lookup with
  | some err => (false, 500, err.toList)
  | none => (success, 0, [])

/-- The same variables and the file system after the removal of a stale
response descriptor. -/
def afterRemoval (dr : DependencyResolver) (state : Bool × Int × Str) :
    Fs × Bool × Int × Str :=
  if Afero.StatOk dr.Fs dr.ResponsePklFile then
    match Afero.RemoveAll dr.Fs dr.ResponsePklFile with
    | .error err => (dr.Fs, false, 500, err.toList)
    | .ok fs1 => (fs1, state)
  else (dr.Fs, state)

/-- Embedding of `(dr *DependencyResolver) CreateResponsePklFile(success)` up
to its call of evaluator.CreateAndProcessPklFile: the resolver afterwards and
the sections handed to that call; `now` is `time.Now().UnixNano()`. -/
def CreateResponsePklFile (printTable : Char → Bool) (dr : DependencyResolver)
    (success : Bool) (now : Int) : DependencyResolver × List Str :=
  let flagged := GetResponseFlag dr
  let removed := afterRemoval flagged.1 (afterLookup success flagged.2)
  ({ flagged.1 with Fs := removed.1 },
    [successLine removed.2.1, responseBlock now,
      errorsBlock printTable removed.2.2.1 removed.2.2.2])

/-- The fields of the result of `cmd.Execute` that the resolver reads. -/
structure ExecResult where
  Stdout : Str
  Stderr : Str
  ExitCode : Int
deriving DecidableEq, Repr

/-- The renderer behind EvalPklFormattedResponseFile, which lives outside the
repository sources at hand: the check evaluator.EnsurePklBinaryExists and the
run of the `pkl` command with its arguments on a file system, which gives a
result or an error and the file system afterwards. -/
structure Renderer where
  EnsurePklBinaryExists : Option String
  Execute : Fs → List Str → Except String ExecResult × Fs

/-- The removal of a stale response target file in
EvalPklFormattedResponseFile. -/
def removeTarget (dr : DependencyResolver) : Except String Fs :=
  if Afero.StatOk dr.Fs dr.ResponseTargetFile then Afero.RemoveAll dr.Fs dr.ResponseTargetFile
  else .ok dr.Fs

/-- The arguments of the `pkl` command. -/
def renderArgs (dr : DependencyResolver) : List Str :=
  ["eval".toList, "--format".toList, dr.ResponseType, "--output-path".toList,
    dr.ResponseTargetFile, dr.ResponsePklFile]

/-- Embedding of `(dr *DependencyResolver) EvalPklFormattedResponseFile()`: the
returned text and error, the file system afterwards, and the runs of the
renderer, each with the file system it started on and its arguments. -/
def EvalPklFormattedResponseFile (indexed : Str → Str) (r : Renderer) (dr : DependencyResolver) :
    (Str × Option Str) × Fs × List (Fs × List Str) :=
  if Filepath.Ext dr.ResponsePklFile ≠ ".pkl".toList then
    (([], some (Fmt.Sprintf0 indexed
      ("file '".toList ++ dr.ResponsePklFile ++ "' must have a .pkl extension".toList))),
      dr.Fs, [])
  else
    match removeTarget dr with
    | .error err => (([], some err.toList), dr.Fs, [])
    | .ok fs1 =>
      match r.EnsurePklBinaryExists with
      | some err => (([], some err.toList), fs1, [])
      | none =>
        match r.Execute fs1 (renderArgs dr) with
        | (.error err, fs2) =>
          (([], some ("command execution failed: ".toList ++ err.toList)), fs2,
            [(fs1, renderArgs dr)])
        | (.ok result, fs2) =>
          if result.ExitCode ≠ 0 then
            (([], some (Fmt.Sprintf0 indexed
              ("command failed with exit code ".toList ++ Strconv.Itoa result.ExitCode ++
                ": ".toList ++ result.Stderr))), fs2, [(fs1, renderArgs dr)])
          else ((result.Stdout, none), fs2, [(fs1, renderArgs dr)])

end Resolver

/-! ## Concrete inputs -/

namespace Sample

/-- A resolver as NewGraphResolver builds it inside the container, over the
given file system and for request `r1`. -/
def resolver (fs : Fs) : DependencyResolver :=
  { Fs := fs, Resources := [], ResourceDependencies := [], WorkflowAction := "C".toList,
    RequestId := "r1".toList,
    RequestPklFile := "/agent/actions/api/request.pkl".toList,
    ResponsePklFile := "/agent/actions/api/response.pkl".toList,
    ResponseTargetFile := [], ResponseFlag := [], ResponseType := [],
    ProjectDir := "/agent/project".toList, AgentDir := "/agent/workflow".toList,
    ActionDir := "/agent/actions".toList, UseLatest := false, cachedVersion := [] }

/-- The path of a definition file. -/
def defFile : Str := "/agent/workflow/resources/a.pkl".toList

/-- A file system that holds one definition file with the given text. -/
def fsWith (text : Str) : Fs := ⟨[(defFile, text)], [], false⟩

/-- The llm output file of request `r1`. -/
def llmOutput : Str := "/agent/actions/llm/r1__llm_output.pkl".toList

/-- A file system that holds a definition file with the given text and the llm
output file. -/
def fsWithLlm (text : Str) : Fs := ⟨[(defFile, text), (llmOutput, [])], [], false⟩

/-- A definition text without header. -/
def headless : Str := "id = \"a\"\n".toList

/-- A definition text with a header line. -/
def headed : Str := "amends \"package://schema.kdeps.com/core@0.1.46#/Resource.pkl\"\n\nid = \"a\"\n".toList

/-- A file system in which the yaml and the json sentinel are both present. -/
def fsYamlJson : Fs :=
  ⟨[("/agent/actions/api/response-json".toList, []),
    ("/agent/actions/api/response-yaml".toList, [])], [], false⟩

/-- A request of the given method, without header, query or body. -/
def request (method : Str) : Docker.Request :=
  ⟨method, "/api/v1/ask".toList, [], [], .ok []⟩

/-- A header line that no newline ends. -/
def unterminated : Str := "amends \"x\"".toList

/-- A file system that holds a definition file with the given text and the
request descriptor. -/
def fsWithRequest (text : Str) : Fs :=
  ⟨[(defFile, text), ("/agent/actions/api/request.pkl".toList, [])], [], false⟩

/-- The data output file of request `r1`. -/
def dataOutput : Str := "/agent/actions/data/r1__data_output.pkl".toList

/-- A text without newline in which the import of the data output file runs
into the keyword: its final `a` starts `amends`. -/
def overlapping : Str := "import \"/agent/actions/data/r1__data_output.pkl\" as datamends".toList

/-- The resolver over a file system that holds the overlapping text and the
data output file. -/
def overlappingResolver : DependencyResolver :=
  resolver ⟨[(defFile, overlapping), (dataOutput, [])], [], false⟩

/-- A resolver whose action directory has a name of the shape of a
placeholder, over a file system that holds a definition file with a header line
and the llm output file. -/
def placeholderResolver : DependencyResolver :=
  { resolver ⟨[(defFile, headed), ("/agent/@(x)/llm/r1__llm_output.pkl".toList, [])], [], false⟩
    with ActionDir := "/agent/@(x)".toList }

/-- A text whose header line ends inside the import of an llm output file that
lies below a directory with a newline in its name. -/
def broken : Str := "amends \"x\" import \"/a\nb/llm/r1__llm_output.pkl\" as llm\n".toList

/-- The resolver for the directory with a newline in its name. -/
def brokenResolver : DependencyResolver :=
  { resolver ⟨[(defFile, broken), ("/a\nb/llm/r1__llm_output.pkl".toList, [])], [], false⟩
    with ActionDir := "/a\nb".toList }

/-- Whether the definition file of the file system holds the given line. -/
def holds (fs : Fs) (line : Str) : Bool :=
  match Afero.lookup fs defFile with
  | some text => Strings.Contains text line
  | none => false

/-- A resolver whose request descriptor path is the name of an always-on
module, over a file system that holds a definition file with a header line. -/
def shadowingResolver : DependencyResolver :=
  { resolver (fsWith headed) with RequestPklFile := "pkl:json".toList }

/-- A resolver that uses a latest schema release whose version has the shape of
a placeholder, over a file system that holds a definition file with a header
line. -/
def latestResolver : DependencyResolver :=
  { resolver (fsWith headed) with UseLatest := true, cachedVersion := "(1)".toList }

/-- Collaborators for a catalog directory that holds the one definition file
of resource `C`, which requires nothing: the walk visits the directory and the
file, the parser and the renderer succeed, and the graph orders by the walk of
section 4.2. -/
def collaborators : Resolver.Collaborators :=
  { Walk := fun _ _ =>
      [⟨"/agent/workflow/resources".toList, true, none⟩, ⟨defFile, false, none⟩]
    LoadResource := fun _ _ => (some ⟨"C".toList, none⟩, none)
    BuildDependencyStack := fun deps root => Graph.BuildDependencyStack deps 8 root []
    LoadFromPath := fun fs _ => (none, fs) }

/-- The catalog entry of resource `C`. -/
def entryC : ResourceNodeEntry := ⟨"C".toList, defFile⟩

/-- The dependency map `A: [], B: [A], C: [B]`. -/
def catalog : List (Str × List Str) :=
  [("A".toList, []), ("B".toList, ["A".toList]), ("C".toList, ["B".toList])]

/-- A ranking of the identifiers of the catalog. -/
def catalogRank (id : Str) : Nat :=
  if id = "C".toList then 2 else if id = "B".toList then 1 else 0

/-- A resolver whose action directory has a name with double braces, over a
file system that holds a definition file with a header line and the llm
responses file of resolver.go. -/
def bracesResolver : DependencyResolver :=
  { resolver ⟨[(defFile, headed),
      ("/agent/\x7b\x7bx\x7d\x7d/llm/llm_responses.pkl".toList, [])], [], false⟩
    with ActionDir := "/agent/\x7b\x7bx\x7d\x7d".toList }

/-- An exec output record in which resource `a` has the given timestamp and
resource `b` has none. -/
def execRecord (timestamp : Nat) : Timestamps.PklResult :=
  .exec [("a".toList, ⟨some timestamp⟩), ("b".toList, ⟨none⟩)]

/-- A cycle at the given elapsed time (in milliseconds) in which the exec
record loads with the given timestamp for resource `a`. -/
def pollAt (milliseconds : Int) (timestamp : Nat) : Timestamps.Poll :=
  ⟨milliseconds * 1000000, (execRecord timestamp, none)⟩

/-- A timeout of five seconds, in nanoseconds. -/
def fiveSeconds : Int := 5000000000

/-- The visits of a walk of a catalog directory that holds the definition
files a.pkl, bad.pkl and c.pkl and the file notes.txt. -/
def mixedWalk : List Resolver.WalkItem :=
  [ ⟨"/agent/workflow/resources".toList, true, none⟩,
    ⟨"/agent/workflow/resources/a.pkl".toList, false, none⟩,
    ⟨"/agent/workflow/resources/bad.pkl".toList, false, none⟩,
    ⟨"/agent/workflow/resources/c.pkl".toList, false, none⟩,
    ⟨"/agent/workflow/resources/notes.txt".toList, false, none⟩ ]

/-- A parser for the mixed catalog: a.pkl is resource `A`, c.pkl is resource
`C` and requires `A`, and bad.pkl does not parse, for which the parser returns
`onFailure` together with its error. -/
def mixedParser (onFailure : Option Resolver.Resource) (path : Str) :
    Option Resolver.Resource × Option String :=
  if path = "/agent/workflow/resources/a.pkl".toList then (some ⟨"A".toList, none⟩, none)
  else if path = "/agent/workflow/resources/c.pkl".toList then
    (some ⟨"C".toList, some ["A".toList]⟩, none)
  else (onFailure, some "cannot parse module")

/-- Collaborators for the mixed catalog. -/
def mixedCollaborators (onFailure : Option Resolver.Resource) : Resolver.Collaborators :=
  { Walk := fun _ _ => mixedWalk
    LoadResource := fun _ path => mixedParser onFailure path
    BuildDependencyStack := fun deps root => Graph.BuildDependencyStack deps 8 root []
    LoadFromPath := fun fs _ => (none, fs) }

/-- A file system in which the yaml sentinel alone is present. -/
def fsYaml : Fs := ⟨[("/agent/actions/api/response-yaml".toList, [])], [], false⟩

/-- A request with two values of the query key `q`, one value of the key `n`,
one header and a body. -/
def queryRequest : Docker.Request :=
  ⟨"POST".toList, "/api/v1/ask".toList,
    [("Accept".toList, ["text/plain ".toList])],
    [("q".toList, [" a b ".toList, "c".toList]), ("n".toList, ["1".toList])],
    .ok "hello".toList⟩

/-- A file system that holds one file. -/
def fsFile (path content : Str) : Fs := ⟨[(path, content)], [], false⟩

/-- The path of a workflow file. -/
def workflowPath : Str := "/agent/workflow/workflow.pkl".toList

/-- A workflow file whose header line follows a blank line. -/
def validWorkflow : Str :=
  "\namends \"package://schema.kdeps.com/core@0.1.46#/Workflow.pkl\"\n\nname = \"agent\"\n".toList

/-- The text of workflow1.pkl in the test thePklFilesIsInvalid. -/
def invalidWorkflow : Str :=
  ("\nname = \"invalid agent\"\ndescription = \"a not valid configuration\"\n" ++
    "version = \"five\"\naction = \"hello World\"\n").toList

/-- A workflow file whose version has a component beyond the range of `int`. -/
def wideVersionWorkflow : Str :=
  "amends \"package://schema.kdeps.com/core@0.1.9223372036854775808#/Workflow.pkl\"\n".toList

/-- Collaborators for a catalog of the one definition file of resource `C`,
which requires a resource `B` that has no definition file. -/
def danglingCollaborators : Resolver.Collaborators :=
  { Walk := fun _ dir => [⟨dir, true, none⟩, ⟨defFile, false, none⟩]
    LoadResource := fun _ _ => (some ⟨"C".toList, some ["B".toList]⟩, none)
    BuildDependencyStack := fun deps root => Graph.BuildDependencyStack deps 8 root []
    LoadFromPath := fun fs _ => (none, fs) }

/-- A header line that no newline ends and that holds a placeholder of the
form `@(expr)`. -/
def unterminatedAt : Str := "amends \"@(x)\"".toList

/-- A header line that no newline ends and that holds a placeholder in braces. -/
def unterminatedBraces : Str := "amends \"\x7b\x7bx\x7d\x7d\"".toList

/-- A resolver as NewGraphResolver builds it where `/.dockerenv` does not
exist: the agent directory is the one passed in, and the action directory, the
project directory and the descriptor paths stay empty. -/
def outsideDocker : DependencyResolver :=
  { Fs := ⟨[], [], false⟩, Resources := [], ResourceDependencies := [],
    WorkflowAction := "C".toList, RequestId := "r1".toList,
    RequestPklFile := [], ResponsePklFile := [],
    ResponseTargetFile := [], ResponseFlag := [], ResponseType := [],
    ProjectDir := [], AgentDir := "/agent".toList,
    ActionDir := [], UseLatest := false, cachedVersion := [] }

/-- A definition text with two placeholders on one line. -/
def twoPlaceholders : Str := "amends \"x\"\ncmd = \"@(a) and @(b)\"\n".toList

/-- A renderer that writes the text `ok` to the response target file
`/agent/actions/api/response.json` and prints `done`. -/
def renderer : Resolver.Renderer :=
  { EnsurePklBinaryExists := none
    Execute := fun fs _ =>
      (.ok ⟨"done".toList, [], 0⟩,
        { fs with files := ("/agent/actions/api/response.json".toList, "ok".toList) ::
          fs.files.filter (fun e => e.1 ≠ "/agent/actions/api/response.json".toList) }) }

/-- A resolver whose response descriptor has a name that was URL-encoded and
has no `.pkl` extension, with a stale response target file. -/
def encodedResolver : DependencyResolver :=
  { resolver ⟨[("/agent/actions/api/response.json".toList, "old".toList)], [], false⟩ with
    ResponsePklFile := "/agent/actions/api/response%20file.txt".toList
    ResponseTargetFile := "/agent/actions/api/response.json".toList
    ResponseType := "json".toList }

/-- A resolver after a sentinel lookup that found json, with a stale response
target file. -/
def staleResolver : DependencyResolver :=
  { resolver ⟨[("/agent/actions/api/response.json".toList, "old".toList)], [], false⟩ with
    ResponseTargetFile := "/agent/actions/api/response.json".toList
    ResponseType := "json".toList }

/-- An iteration order of the maps: the order of insertion. -/
def anyRank : Str → Nat := fun _ => 0

end Sample

end Kdeps

/-! ## Lemmas: `strings` -/

namespace Kdeps

namespace Strings

theorem hasPrefix_iff (s p : Str) : HasPrefix s p = true ↔ p <+: s := by
  induction s generalizing p with
  | nil =>
    cases p with
    | nil => simp [HasPrefix]
    | cons d p => simp [HasPrefix]
  | cons c s ih =>
    cases p with
    | nil => simp [HasPrefix]
    | cons d p =>
      simp only [HasPrefix, Bool.and_eq_true, beq_iff_eq, ih, List.cons_prefix_cons]
      constructor
      · rintro ⟨h1, h2⟩
        exact ⟨h1.symm, h2⟩
      · rintro ⟨h1, h2⟩
        exact ⟨h1.symm, h2⟩

theorem indexOf_none_iff (s substr : Str) : indexOf s substr = none ↔ ¬ substr <:+: s := by
  induction s with
  | nil =>
    cases substr with
    | nil => simp [indexOf]
    | cons d p => simp [indexOf]
  | cons c s ih =>
    unfold indexOf
    by_cases hp : HasPrefix (c :: s) substr = true
    · rw [if_pos hp]
      have := (hasPrefix_iff _ _).1 hp
      simp [this.isInfix]
    · have h2 : ¬ substr <+: c :: s := fun h => hp ((hasPrefix_iff _ _).2 h)
      rw [if_neg hp, Option.map_eq_none', ih, List.infix_cons_iff]
      simp [h2]

/-- The decomposition of a text at the first occurrence of `substr`. -/
theorem indexOf_some (s substr : Str) (i : Nat) (h : indexOf s substr = some i) :
    substr <+: s.drop i ∧ i ≤ s.length ∧ ∀ j, j < i → ¬ substr <+: s.drop j := by
  induction s generalizing i with
  | nil =>
    cases substr with
    | nil =>
      simp [indexOf] at h
      subst h
      simp
    | cons d p => simp [indexOf] at h
  | cons c s ih =>
    unfold indexOf at h
    by_cases hp : HasPrefix (c :: s) substr = true
    · rw [if_pos hp, Option.some.injEq] at h
      subst h
      exact ⟨by simpa using (hasPrefix_iff _ _).1 hp, by simp, by simp⟩
    · rw [if_neg hp, Option.map_eq_some'] at h
      obtain ⟨k, hk, rfl⟩ := h
      obtain ⟨h1, h2, h3⟩ := ih k hk
      refine ⟨by simpa using h1, by simpa using h2, ?_⟩
      intro j hj
      cases j with
      | zero =>
        intro hpre
        exact hp ((hasPrefix_iff _ _).2 (by simpa using hpre))
      | succ j =>
        simpa using h3 j (by omega)

theorem index_eq_neg_one_iff (s substr : Str) : Index s substr = -1 ↔ ¬ substr <:+: s := by
  unfold Index
  cases h : indexOf s substr with
  | none => simp [(indexOf_none_iff s substr).1 h]
  | some i =>
    have : ¬ indexOf s substr = none := by simp [h]
    rw [indexOf_none_iff] at this
    simp only [not_not] at this
    simp only [this, not_true_eq_false, iff_false]
    omega

theorem contains_iff (s substr : Str) : Contains s substr = true ↔ substr <:+: s := by
  unfold Contains
  rw [decide_eq_true_iff]
  by_cases h : substr <:+: s
  · simp only [h, iff_true]
    have := (index_eq_neg_one_iff s substr).not.2 (not_not.2 h)
    unfold Index at this ⊢
    cases hi : indexOf s substr with
    | none => simp [hi] at this
    | some i => simp
  · simp only [h, iff_false]
    rw [(index_eq_neg_one_iff s substr).2 h]
    decide

end Strings

end Kdeps

/-! ## Lemmas: Go maps -/

namespace Kdeps

namespace GoMap

variable {V : Type}

theorem mapGet_mapAssign (m : List (Str × V)) (k : Str) (v : V) (k' : Str) :
    mapGet (mapAssign m k v) k' = if k = k' then some v else mapGet m k' := by
  induction m with
  | nil => simp [mapAssign, mapGet]
  | cons e rest ih =>
    obtain ⟨k1, v1⟩ := e
    unfold mapAssign
    by_cases h1 : k1 = k
    · subst h1
      by_cases h2 : k1 = k' <;> simp [mapGet, h2]
    · rw [if_neg h1]
      by_cases h2 : k1 = k'
      · subst h2
        simp [mapGet, Ne.symm h1]
      · simp [mapGet, h2, ih]

theorem mapGet_foldl (pairs : List (Str × V)) (m : List (Str × V)) (k : Str) :
    mapGet (pairs.foldl (fun m e => mapAssign m e.1 e.2) m) k = lastValue k pairs (mapGet m k) := by
  induction pairs generalizing m with
  | nil => rfl
  | cons e rest ih =>
    simp only [List.foldl_cons, lastValue]
    rw [ih, mapGet_mapAssign]
    rfl

theorem mapGet_mapLiteral (pairs : List (Str × V)) (k : Str) :
    mapGet (mapLiteral pairs) k = lastValue k pairs none := by
  unfold mapLiteral
  rw [mapGet_foldl]
  rfl

theorem keys_mapAssign (m : List (Str × V)) (k : Str) (v : V) :
    (mapAssign m k v).map Prod.fst =
      if k ∈ m.map Prod.fst then m.map Prod.fst else m.map Prod.fst ++ [k] := by
  induction m with
  | nil => simp [mapAssign]
  | cons e rest ih =>
    obtain ⟨k1, v1⟩ := e
    unfold mapAssign
    by_cases h1 : k1 = k
    · subst h1
      simp only [if_true, List.map_cons, List.mem_cons, true_or]
    · rw [if_neg h1]
      simp only [List.map_cons, ih, List.mem_cons]
      by_cases h2 : k ∈ rest.map Prod.fst
      · simp [h2]
      · simp [h2, Ne.symm h1]

theorem keys_nodup_mapAssign (m : List (Str × V)) (k : Str) (v : V)
    (h : (m.map Prod.fst).Nodup) : ((mapAssign m k v).map Prod.fst).Nodup := by
  rw [keys_mapAssign]
  by_cases h2 : k ∈ m.map Prod.fst
  · rw [if_pos h2]
    exact h
  · rw [if_neg h2]
    rw [List.nodup_append]
    refine ⟨h, List.nodup_singleton k, ?_⟩
    intro a ha hb
    rw [List.mem_singleton] at hb
    exact h2 (hb ▸ ha)

theorem keys_nodup_foldl (pairs : List (Str × V)) (m : List (Str × V))
    (h : (m.map Prod.fst).Nodup) :
    ((pairs.foldl (fun m e => mapAssign m e.1 e.2) m).map Prod.fst).Nodup := by
  induction pairs generalizing m with
  | nil => exact h
  | cons e rest ih => exact ih _ (keys_nodup_mapAssign m e.1 e.2 h)

theorem keys_nodup_mapLiteral (pairs : List (Str × V)) :
    ((mapLiteral pairs).map Prod.fst).Nodup :=
  keys_nodup_foldl pairs [] List.nodup_nil

theorem mapGet_of_mem (m : List (Str × V)) (h : (m.map Prod.fst).Nodup) (k : Str) (v : V)
    (hmem : (k, v) ∈ m) : mapGet m k = some v := by
  induction m with
  | nil => simp at hmem
  | cons e rest ih =>
    obtain ⟨k1, v1⟩ := e
    simp only [List.map_cons, List.nodup_cons] at h
    rcases List.mem_cons.1 hmem with heq | hin
    · cases heq
      simp [mapGet]
    · have hne : k1 ≠ k := by
        intro hk
        subst hk
        exact h.1 (List.mem_map.2 ⟨(k1, v), hin, rfl⟩)
      simp [mapGet, hne, ih h.2 hin]

theorem mem_of_mapGet (m : List (Str × V)) (k : Str) (v : V)
    (h : mapGet m k = some v) : (k, v) ∈ m := by
  induction m with
  | nil => simp [mapGet] at h
  | cons e rest ih =>
    obtain ⟨k1, v1⟩ := e
    unfold mapGet at h
    by_cases h1 : k1 = k
    · rw [if_pos h1] at h
      cases h
      subst h1
      simp
    · rw [if_neg h1] at h
      exact List.mem_cons_of_mem _ (ih h)

/-- After a run of assignments the key holds either what it held before (no
pair names it) or the value of one of the pairs that name it. -/
theorem lastValue_cases (k : Str) (pairs : List (Str × V)) (start : Option V) :
    (lastValue k pairs start = start ∧ k ∉ pairs.map Prod.fst) ∨
      ∃ e ∈ pairs, e.1 = k ∧ lastValue k pairs start = some e.2 := by
  induction pairs generalizing start with
  | nil => exact Or.inl ⟨rfl, by simp⟩
  | cons e rest ih =>
    have hstep : lastValue k (e :: rest) start =
        lastValue k rest (if e.1 = k then some e.2 else start) := rfl
    rw [hstep]
    rcases ih (if e.1 = k then some e.2 else start) with ⟨h1, h2⟩ | ⟨e', he', hk, hv⟩
    · by_cases hk : e.1 = k
      · right
        exact ⟨e, List.mem_cons_self _ _, hk, by rw [h1, if_pos hk]⟩
      · left
        rw [if_neg hk] at h1 ⊢
        refine ⟨h1, ?_⟩
        simp only [List.map_cons, List.mem_cons, not_or]
        exact ⟨fun h => hk h.symm, h2⟩
    · right
      exact ⟨e', List.mem_cons_of_mem _ he', hk, hv⟩

theorem lastValue_append (k : Str) (front back : List (Str × V)) (start : Option V) :
    lastValue k (front ++ back) start = lastValue k back (lastValue k front start) := by
  unfold lastValue
  rw [List.foldl_append]

theorem mem_rangeOver (rank : Str → Nat) (m : List (Str × V)) (e : Str × V) :
    e ∈ rangeOver rank m ↔ e ∈ m := by
  unfold rangeOver
  exact ((List.perm_insertionSort _ m).mem_iff)

end GoMap

end Kdeps

/-! ## Import injection: existence gating and the missing header -/

namespace Kdeps

namespace Imports

theorem mem_writtenEntries (dr : DependencyResolver) (contentStr : Str)
    (entries : List (Str × ImportConfig)) (e : Str × ImportConfig) :
    e ∈ writtenEntries dr contentStr entries ↔
      e ∈ entries ∧ (e.2.Check = false ∨ fileExists dr e.1 = true) ∧
        Strings.Contains contentStr (generateImportLine e.1 e.2.Alias) = false := by
  induction entries with
  | nil => simp [writtenEntries]
  | cons e1 rest ih =>
    obtain ⟨file, config⟩ := e1
    unfold writtenEntries
    by_cases hgate : (config.Check && !fileExists dr file) = true
    · rw [if_pos hgate, ih]
      constructor
      · rintro ⟨h1, h2, h3⟩
        exact ⟨List.mem_cons_of_mem _ h1, h2, h3⟩
      · rintro ⟨h1, h2, h3⟩
        rcases List.mem_cons.1 h1 with heq | hin
        · subst heq
          simp only [Bool.and_eq_true, Bool.not_eq_true'] at hgate
          rcases h2 with h2 | h2
          · rw [hgate.1] at h2
            cases h2
          · rw [hgate.2] at h2
            cases h2
        · exact ⟨hin, h2, h3⟩
    · rw [if_neg hgate]
      have hpass : config.Check = false ∨ fileExists dr file = true := by
        cases hc : config.Check
        · exact Or.inl rfl
        · cases hx : fileExists dr file
          · simp [hc, hx] at hgate
          · exact Or.inr rfl
      by_cases hcont : (!Strings.Contains contentStr (generateImportLine file config.Alias)) = true
      · simp only [hcont, if_true, List.mem_cons, ih]
        simp only [Bool.not_eq_true'] at hcont
        constructor
        · rintro (heq | ⟨h1, h2, h3⟩)
          · subst heq
            exact ⟨Or.inl rfl, hpass, hcont⟩
          · exact ⟨Or.inr h1, h2, h3⟩
        · rintro ⟨h1 | h1, h2, h3⟩
          · exact Or.inl h1
          · exact Or.inr ⟨h1, h2, h3⟩
      · simp only [hcont, if_false, ih, List.mem_cons, Bool.false_eq_true]
        simp only [Bool.not_eq_true', Bool.not_eq_false] at hcont
        constructor
        · rintro ⟨h1, h2, h3⟩
          exact ⟨Or.inr h1, h2, h3⟩
        · rintro ⟨h1 | h1, h2, h3⟩
          · subst h1
            rw [hcont] at h3
            cases h3
          · exact ⟨h1, h2, h3⟩

/-- Every entry of `importCheck` keyed by one of the six gated paths carries
`Check: true`, also when the request descriptor path repeats another key. -/
theorem gated_check (dr : DependencyResolver) (e : Str × ImportConfig)
    (he : e ∈ importCheck dr) (hg : e.1 ∈ gatedPaths dr) : e.2.Check = true := by
  obtain ⟨k, v⟩ := e
  have hget := GoMap.mapGet_of_mem _ (GoMap.keys_nodup_mapLiteral (importPairs dr)) k v he
  unfold importCheck at hget
  rw [GoMap.mapGet_mapLiteral] at hget
  unfold importPairs at hget
  rw [GoMap.lastValue_append] at hget
  rcases GoMap.lastValue_cases k (gatedPairs dr)
      (GoMap.lastValue k (alwaysOnPairs dr) none) with ⟨_, hnot⟩ | ⟨e', he', _, hv⟩
  · exact absurd hg hnot
  · rw [hv] at hget
    cases hget
    simp only [gatedPairs, List.mem_cons, List.mem_singleton, List.not_mem_nil, or_false] at he'
    rcases he' with h | h | h | h | h | h <;> rw [h]

end Imports

/-- C7: for every definition text, file system and iteration order of the
map, an entry of importCheck whose import line PrependDynamicImports adds to
the batch and whose path is one of the six gated paths (the llm, client, exec,
python and data output files and the request descriptor) names a file that
exists at injection time. -/
theorem C7_gated_import_names_existing_file (dr : DependencyResolver) (rank : Str → Nat)
    (contentStr : Str) (e : Str × Imports.ImportConfig)
    (hadded : e ∈ Imports.writtenEntries dr contentStr
      (GoMap.rangeOver rank (Imports.importCheck dr)))
    (hgated : e.1 ∈ Imports.gatedPaths dr) :
    (Afero.Exists dr.Fs e.1).1 = true := by
  rw [Imports.mem_writtenEntries] at hadded
  obtain ⟨hmem, hpass, _⟩ := hadded
  rw [GoMap.mem_rangeOver] at hmem
  have hcheck := Imports.gated_check dr e hmem hgated
  rcases hpass with h | h
  · rw [hcheck] at h
    cases h
  · exact h

/-- C10: a definition text without the keyword `amends` is left as it is, and
PrependDynamicImports returns nil, whatever import lines were computed. -/
theorem C10_missing_header_is_noop (dr : DependencyResolver) (rank : Str → Nat)
    (pklFile contentStr : Str)
    (hread : Afero.ReadFile dr.Fs pklFile = .ok contentStr)
    (hno : Strings.Contains contentStr Imports.amends = false) :
    Imports.PrependDynamicImports dr rank pklFile = (none, dr.Fs) := by
  have hidx : Strings.Index contentStr Imports.amends = -1 := by
    rw [Strings.index_eq_neg_one_iff]
    intro h
    rw [(Strings.contains_iff _ _).2 h] at hno
    cases hno
  unfold Imports.PrependDynamicImports
  rw [hread]
  simp only [hidx, ne_eq, not_true_eq_false, if_false, ite_self]

end Kdeps

namespace Kdeps

set_option maxRecDepth 1000000 in
/-- C7 at a resolver whose llm output file exists: its import line is added. -/
theorem C7_gated_import_names_existing_file_witness :
    (Sample.llmOutput, (⟨"llm".toList, true⟩ : Imports.ImportConfig)) ∈
        Imports.writtenEntries (Sample.resolver (Sample.fsWithLlm Sample.headed)) Sample.headed
          (GoMap.rangeOver Sample.anyRank
            (Imports.importCheck (Sample.resolver (Sample.fsWithLlm Sample.headed)))) ∧
      Sample.llmOutput ∈ Imports.gatedPaths (Sample.resolver (Sample.fsWithLlm Sample.headed)) ∧
      (Afero.Exists (Sample.resolver (Sample.fsWithLlm Sample.headed)).Fs Sample.llmOutput).1
        = true :=
  ⟨by decide, by decide,
    C7_gated_import_names_existing_file (Sample.resolver (Sample.fsWithLlm Sample.headed))
      Sample.anyRank Sample.headed (Sample.llmOutput, ⟨"llm".toList, true⟩)
      (by decide) (by decide)⟩

set_option maxRecDepth 1000000 in
/-- C10 at a text without header for which eleven import lines are computed. -/
theorem C10_missing_header_is_noop_witness :
    Afero.ReadFile (Sample.resolver (Sample.fsWith Sample.headless)).Fs Sample.defFile
        = .ok Sample.headless ∧
      Strings.Contains Sample.headless Imports.amends = false ∧
      (Imports.writtenEntries (Sample.resolver (Sample.fsWith Sample.headless)) Sample.headless
        (GoMap.rangeOver Sample.anyRank
          (Imports.importCheck (Sample.resolver (Sample.fsWith Sample.headless))))).length = 11 ∧
      Imports.PrependDynamicImports (Sample.resolver (Sample.fsWith Sample.headless))
        Sample.anyRank Sample.defFile = (none, Sample.fsWith Sample.headless) :=
  ⟨rfl, by decide, by decide,
    C10_missing_header_is_noop (Sample.resolver (Sample.fsWith Sample.headless)) Sample.anyRank
      Sample.defFile Sample.headless rfl (by decide)⟩

end Kdeps

/-! ## Response format detection -/

namespace Kdeps

namespace Resolver

theorem scanFlags_first (dr : DependencyResolver) (front back : List (Str × Str × Str))
    (flag ext format : Str)
    (habsent : ∀ e ∈ front, Afero.Exists dr.Fs (flagPath dr e.1) = (false, none))
    (hpresent : Afero.Exists dr.Fs (flagPath dr flag) = (true, none)) :
    scanFlags dr (front ++ (flag, ext, format) :: back) =
      ({ dr with
          ResponseFlag := flagPath dr flag
          ResponseType := format
          ResponseTargetFile := targetPath dr ext }, none) := by
  induction front generalizing dr with
  | nil =>
    simp only [List.nil_append, scanFlags]
    have h : Afero.Exists dr.Fs (flagPath dr flag) = (true, none) := hpresent
    rw [h]
    rfl
  | cons e rest ih =>
    obtain ⟨f1, e1, m1⟩ := e
    simp only [List.cons_append, scanFlags]
    have h : Afero.Exists dr.Fs (flagPath dr f1) = (false, none) :=
      habsent (f1, e1, m1) (List.mem_cons_self _ _)
    rw [h]
    have hrec := ih { dr with ResponseFlag := flagPath dr f1 }
      (fun e he => habsent e (List.mem_cons_of_mem _ he)) hpresent
    exact hrec

end Resolver

/-- C3: GetResponseFlag selects the first sentinel of its table (jsonnet,
txtpb, yaml, plist, xml, pcf, json) that is present under `<actionDir>/api`:
when the sentinels before it in the table are absent, it sets ResponseType to
the format of that sentinel and ResponseTargetFile to
`<actionDir>/api/response<ext>` for its extension, and returns nil, whatever
sentinels after it in the table are present. -/
theorem C3_first_present_sentinel_wins (dr : DependencyResolver)
    (front back : List (Str × Str × Str)) (flag ext format : Str)
    (htable : Resolver.responseFiles = front ++ (flag, ext, format) :: back)
    (habsent : ∀ e ∈ front, Afero.Exists dr.Fs (Resolver.flagPath dr e.1) = (false, none))
    (hpresent : Afero.Exists dr.Fs (Resolver.flagPath dr flag) = (true, none)) :
    Resolver.GetResponseFlag dr =
      ({ dr with
          ResponseFlag := Filepath.Join [dr.ActionDir, "/api/".toList ++ flag]
          ResponseType := format
          ResponseTargetFile := Filepath.Join [dr.ActionDir, "/api/response".toList ++ ext] },
        none) := by
  unfold Resolver.GetResponseFlag
  rw [htable]
  exact Resolver.scanFlags_first dr front back flag ext format habsent hpresent

set_option maxRecDepth 1000000 in
/-- C3 with the yaml and the json sentinel both present: yaml is selected. -/
theorem C3_first_present_sentinel_wins_witness :
    Resolver.GetResponseFlag (Sample.resolver Sample.fsYamlJson) =
      ({ Sample.resolver Sample.fsYamlJson with
          ResponseFlag := "/agent/actions/api/response-yaml".toList
          ResponseType := "yaml".toList
          ResponseTargetFile := "/agent/actions/api/response.yaml".toList }, none) :=
  C3_first_present_sentinel_wins (Sample.resolver Sample.fsYamlJson)
    [("response-jsonnet".toList, ".json".toList, "jsonnet".toList),
      ("response-txtpb".toList, ".txtpb".toList, "textproto".toList)]
    [("response-plist".toList, ".plist".toList, "plist".toList),
      ("response-xml".toList, ".xml".toList, "xml".toList),
      ("response-pcf".toList, ".pcf".toList, "pcf".toList),
      ("response-json".toList, ".json".toList, "json".toList)]
    "response-yaml".toList ".yaml".toList "yaml".toList (by decide) (by decide) (by decide)

end Kdeps

/-! ## The API front door: method validation -/

namespace Kdeps

namespace Docker

theorem matchMethod_not_allowed (requestMethod : Str) (allowedMethods : List Str) (method : Str)
    (h : requestMethod ∉ allowedMethods) :
    matchMethod requestMethod allowedMethods method = method := by
  induction allowedMethods with
  | nil => rfl
  | cons a rest ih =>
    unfold matchMethod
    have hne : a ≠ requestMethod := fun heq => h (heq ▸ List.mem_cons_self _ _)
    rw [if_neg hne]
    exact ih (fun hin => h (List.mem_cons_of_mem _ hin))

/-- A handler that has not yet accepted a request answers a method outside the
allow-list with status 400 and the message naming the method. -/
theorem serve_rejects_before_first_accept (allowedMethods : List Str) (dr : DependencyResolver)
    (v : Captured) (r : Request) (fs1 fs2 : Fs)
    (hfresh : v.method = [])
    (htarget : removeStale dr.Fs dr.ResponseTargetFile = some fs1)
    (hflag : removeStale fs1 dr.ResponseFlag = some fs2)
    (hnot : (if r.Method = [] then "GET".toList else r.Method) ∉ allowedMethods) :
    (serve allowedMethods dr v r).2.2 =
      .httpError 400 ("HTTP method \"".toList ++
        (if r.Method = [] then "GET".toList else r.Method) ++ "\" not allowed!".toList) := by
  unfold serve
  rw [htarget]
  simp only [hflag]
  rw [matchMethod_not_allowed _ _ _ hnot]
  simp only [hfresh, if_true]

end Docker

set_option maxRecDepth 1000000 in
/-- C2 at its failing input: on a route that allows only GET, a POST request
that follows a GET request on the same handler is not answered with status 400;
the handler writes a request descriptor whose method line is the one of the
earlier GET request. -/
theorem C2_post_after_get_is_served :
    Docker.serveAll ["GET".toList] (Sample.resolver ⟨[], [], false⟩) Docker.Captured.initial
        [(⟨[], [], false⟩, Sample.request "GET".toList),
         (⟨[], [], false⟩, Sample.request "POST".toList)] =
      [ .descriptor ["url = \"/api/v1/ask\"".toList, "method = \"GET\"".toList,
          "headers \x7b\n\n\x7d".toList, "data = \"\"".toList, "params \x7b\n\n\x7d".toList],
        .descriptor ["url = \"/api/v1/ask\"".toList, "method = \"GET\"".toList,
          "headers \x7b\n\n\x7d".toList, "data = \"\"".toList, "params \x7b\n\n\x7d".toList] ] := by
  decide

/-! ## Import injection: a header line without newline -/

set_option maxRecDepth 1000000 in
/-- C9 at its failing input: for the text `amends "x"` that no newline ends,
both versions of PrependDynamicImports write the batch of new import lines
before the header line: the file begins with an import line and ends with the
original text. -/
theorem C9_batch_lands_before_unterminated_header :
    (Afero.lookup (Imports.PrependDynamicImports
        (Sample.resolver (Sample.fsWithRequest Sample.unterminated)) Sample.anyRank
        Sample.defFile).2 Sample.defFile =
      some (Imports.importBuilder (Sample.resolver (Sample.fsWithRequest Sample.unterminated))
        Sample.unterminated (GoMap.rangeOver Sample.anyRank
          (Imports.importCheck (Sample.resolver (Sample.fsWithRequest Sample.unterminated))))
        ++ "amends \"x\"".toList)) ∧
    Strings.HasPrefix (Imports.importBuilder
        (Sample.resolver (Sample.fsWithRequest Sample.unterminated))
        Sample.unterminated (GoMap.rangeOver Sample.anyRank
          (Imports.importCheck (Sample.resolver (Sample.fsWithRequest Sample.unterminated)))))
      "import \"pkl:json\"\n".toList = true ∧
    Afero.lookup (Resolver.PrependDynamicImports
        (Sample.resolver (Sample.fsWithRequest Sample.unterminated)) Sample.anyRank
        ⟨"a".toList, Sample.defFile⟩).2 Sample.defFile =
      some "import \"/agent/actions/api/request.pkl\"\n\n\namends \"x\"".toList := by
  decide

end Kdeps

/-! ## Lemmas: the placeholder rewrite -/

namespace Kdeps

namespace Regexp

theorem lastStart_some (close line : Str) (k : Nat) (h : lastStart close line = some k) :
    close <+: line.drop k ∧ k ≤ line.length := by
  induction line generalizing k with
  | nil => simp [lastStart] at h
  | cons c t ih =>
    unfold lastStart at h
    cases hrec : lastStart close t with
    | some k1 =>
      rw [hrec] at h
      simp only [Option.some.injEq] at h
      subst h
      obtain ⟨h1, h2⟩ := ih k1 hrec
      exact ⟨by simpa using h1, by simpa using h2⟩
    | none =>
      rw [hrec] at h
      simp only at h
      by_cases hp : Strings.HasPrefix (c :: t) close = true
      · rw [if_pos hp] at h
        simp only [Option.some.injEq] at h
        subst h
        exact ⟨by simpa using (Strings.hasPrefix_iff _ _).1 hp, by simp⟩
      · rw [if_neg hp] at h
        cases h

/-- A match consumes the opener, the group and the closer, and leaves the rest. -/
theorem matchAt_some (opener close s group after : Str)
    (h : matchAt opener close s = some (group, after)) :
    s = opener ++ group ++ close ++ after := by
  unfold matchAt at h
  by_cases hp : Strings.HasPrefix s opener = true
  · rw [if_pos hp] at h
    simp only at h
    have hs : opener ++ s.drop opener.length = s :=
      List.prefix_iff_eq_append.1 ((Strings.hasPrefix_iff _ _).1 hp)
    generalize hrest : s.drop opener.length = rest at h hs
    cases hk : lastStart close (rest.takeWhile (fun c => c != '\n')) with
    | none =>
      rw [hk] at h
      cases h
    | some k =>
      rw [hk] at h
      simp only [Option.some.injEq, Prod.mk.injEq] at h
      obtain ⟨hg, ha⟩ := h
      obtain ⟨hpre, hle⟩ := lastStart_some _ _ _ hk
      generalize hline : rest.takeWhile (fun c => c != '\n') = line at hg hpre hle
      have hsplit : rest = line ++ rest.dropWhile (fun c => c != '\n') := by
        rw [← hline]
        exact (List.takeWhile_append_dropWhile _ rest).symm
      have hdrop : close ++ (line.drop k).drop close.length = line.drop k :=
        List.prefix_iff_eq_append.1 hpre
      have hline2 : line = line.take k ++ (close ++ (line.drop k).drop close.length) := by
        rw [hdrop]
        exact (List.take_append_drop k line).symm
      have hrest2 : rest = (group ++ close) ++
          ((line.drop k).drop close.length ++ rest.dropWhile (fun c => c != '\n')) := by
        rw [← hg]
        calc rest = line ++ rest.dropWhile (fun c => c != '\n') := hsplit
          _ = (line.take k ++ (close ++ (line.drop k).drop close.length)) ++
                rest.dropWhile (fun c => c != '\n') := by rw [← hline2]
          _ = _ := by simp only [List.append_assoc]
      have hlen : (group ++ close).length = k + close.length := by
        rw [← hg, List.length_append, List.length_take, Nat.min_eq_left hle]
      have hafter : after = (line.drop k).drop close.length ++
          rest.dropWhile (fun c => c != '\n') := by
        rw [← ha]
        conv_lhs => rw [hrest2]
        rw [← hlen, List.drop_left]
      rw [← hs, hafter]
      conv_lhs => rw [hrest2]
      simp only [List.append_assoc]
  · rw [if_neg hp] at h
    cases h

theorem rewrites_refl (s : Str) : Rewrites s s := by
  induction s with
  | nil => exact .done
  | cons c t ih => exact .keep c ih

theorem rewrites_append_left (a : Str) {s t : Str} (h : Rewrites s t) :
    Rewrites (a ++ s) (a ++ t) := by
  induction a with
  | nil => exact h
  | cons c a ih => exact .keep c ih

/-- The rewrite of `@(...)` only turns `@` before `(` into a backslash. -/
theorem rewrites_replaceAux (fuel : Nat) (s : Str) :
    Rewrites s (replaceAux "@(".toList ")".toList fuel s) := by
  induction fuel generalizing s with
  | zero =>
    unfold replaceAux
    exact rewrites_refl s
  | succ n ih =>
    cases s with
    | nil =>
      unfold replaceAux
      exact .done
    | cons c t =>
      unfold replaceAux
      cases hm : matchAt "@(".toList ")".toList (c :: t) with
      | none =>
        simp only
        exact .keep c (ih t)
      | some ga =>
        obtain ⟨group, after⟩ := ga
        simp only
        have hs := matchAt_some _ _ _ _ _ hm
        have heq : "@(".toList ++ group ++ ")".toList ++ after =
            '@' :: '(' :: (group ++ ')' :: after) := by
          simp only [String.toList, List.cons_append, List.nil_append, List.append_assoc]
        rw [hs, heq]
        exact .subst (.keep '(' (rewrites_append_left group (.keep ')' (ih after))))

theorem placeholderFree_tail (c : Char) (l : Str) (h : placeholderFree (c :: l) = true) :
    placeholderFree l = true := by
  unfold placeholderFree at h
  simp only [Bool.and_eq_true] at h
  exact h.2

theorem rewrites_head {s t : Str} (h : Rewrites s t) (l : Str)
    (hfree : placeholderFree l = true) (hpre : l <+: s) : l <+: t := by
  induction h generalizing l with
  | done =>
    exact hpre
  | keep c hst ih =>
    cases l with
    | nil => exact List.nil_prefix
    | cons d l1 =>
      rw [List.cons_prefix_cons] at hpre ⊢
      exact ⟨hpre.1, ih l1 (placeholderFree_tail d l1 hfree) hpre.2⟩
  | subst hst ih =>
    cases l with
    | nil => exact List.nil_prefix
    | cons d l1 =>
      rw [List.cons_prefix_cons] at hpre
      obtain ⟨hd, htl⟩ := hpre
      subst hd
      exfalso
      cases l1 with
      | nil => simp [placeholderFree] at hfree
      | cons d2 l2 =>
        rw [List.cons_prefix_cons] at htl
        obtain ⟨hd2, _⟩ := htl
        subst hd2
        simp [placeholderFree] at hfree

/-- A text free of placeholders that occurs in `s` occurs in every rewrite of `s`. -/
theorem rewrites_infix {s t : Str} (h : Rewrites s t) (l : Str)
    (hfree : placeholderFree l = true) (hin : l <:+: s) : l <:+: t := by
  induction h with
  | done => exact hin
  | keep c hst ih =>
    rcases List.infix_cons_iff.1 hin with hpre | hin1
    · exact (rewrites_head (.keep c hst) l hfree hpre).isInfix
    · exact List.infix_cons_iff.2 (Or.inr (ih hin1))
  | subst hst ih =>
    rcases List.infix_cons_iff.1 hin with hpre | hin1
    · exact (rewrites_head (.subst hst) l hfree hpre).isInfix
    · exact List.infix_cons_iff.2 (Or.inr (ih hin1))

theorem replaceAll_keeps (s l : Str) (hfree : placeholderFree l = true) (hin : l <:+: s) :
    l <:+: ReplaceAllString "@(".toList ")".toList s :=
  rewrites_infix (rewrites_replaceAux s.length s) l hfree hin

end Regexp

end Kdeps

/-! ## Lemmas: splicing a batch into a text -/

namespace Kdeps

namespace Splice

theorem prefix_append_cases {α : Type} (l x y : List α) (h : l <+: x ++ y) :
    l <+: x ∨ ∃ b, l = x ++ b ∧ b <+: y := by
  obtain ⟨r, hr⟩ := h
  rcases List.append_eq_append_iff.1 hr with ⟨a, hx, _⟩ | ⟨c, hl, hy⟩
  · exact Or.inl ⟨a, hx.symm⟩
  · exact Or.inr ⟨c, hl, ⟨r, hy.symm⟩⟩

/-- An occurrence of `l` in `front ++ back` lies in `front`, lies in `back`, or
straddles the seam. -/
theorem infix_append_cases {α : Type} (l front back : List α) (h : l <:+: front ++ back) :
    l <:+: front ∨ l <:+: back ∨
      ∃ a b, l = a ++ b ∧ a ≠ [] ∧ b ≠ [] ∧ a <:+ front ∧ b <+: back := by
  induction front with
  | nil => exact Or.inr (Or.inl h)
  | cons c p ih =>
    rcases List.infix_cons_iff.1 h with hpre | hin
    · rcases prefix_append_cases l (c :: p) back hpre with h1 | ⟨b, hl, hb⟩
      · exact Or.inl h1.isInfix
      · by_cases hbnil : b = []
        · subst hbnil
          rw [List.append_nil] at hl
          subst hl
          exact Or.inl List.infix_rfl
        · exact Or.inr (Or.inr ⟨c :: p, b, hl, List.cons_ne_nil _ _, hbnil,
            List.suffix_rfl, hb⟩)
    · rcases ih hin with h1 | h2 | ⟨a, b, hl, ha, hb, hsuf, hpre⟩
      · exact Or.inl (List.infix_cons_iff.2 (Or.inr h1))
      · exact Or.inr (Or.inl h2)
      · exact Or.inr (Or.inr ⟨a, b, hl, ha, hb,
          hsuf.trans (List.suffix_cons c p), hpre⟩)

theorem infix_insert_of_side {α : Type} (l front mid back : List α)
    (h : l <:+: front ∨ l <:+: back ∨ l <:+: mid) : l <:+: front ++ mid ++ back := by
  rcases h with h | h | h
  · obtain ⟨s, t, hst⟩ := h
    exact ⟨s, t ++ (mid ++ back), by rw [← hst]; simp only [List.append_assoc]⟩
  · obtain ⟨s, t, hst⟩ := h
    exact ⟨front ++ mid ++ s, t, by rw [← hst]; simp only [List.append_assoc]⟩
  · obtain ⟨s, t, hst⟩ := h
    exact ⟨front ++ s, t ++ back, by rw [← hst]; simp only [List.append_assoc]⟩

theorem last_of_suffix {α : Type} (a p : List α) (c : α) (ha : a ≠ [])
    (hsuf : a <:+ p ++ [c]) : c ∈ a := by
  obtain ⟨x, hx⟩ := hsuf
  have hsplit : a = a.dropLast ++ [a.getLast ha] := (List.dropLast_append_getLast ha).symm
  rw [hsplit, ← List.append_assoc] at hx
  have := List.append_inj_right' hx rfl
  simp only [List.cons.injEq, and_true] at this
  rw [← this]
  exact List.getLast_mem ha

/-- A line without newline that occurs in a text still occurs in it after a
batch is inserted behind a newline of the text. -/
theorem infix_insert_after_newline (l front mid back : Str)
    (hnl : '\n' ∉ l) (hfront : ∃ p, front = p ++ ['\n']) (h : l <:+: front ++ back) :
    l <:+: front ++ mid ++ back := by
  rcases infix_append_cases l front back h with h1 | h2 | ⟨a, b, hl, ha, _, hsuf, _⟩
  · exact infix_insert_of_side l front mid back (Or.inl h1)
  · exact infix_insert_of_side l front mid back (Or.inr (Or.inl h2))
  · exfalso
    obtain ⟨p, hp⟩ := hfront
    rw [hp] at hsuf
    have hmem := last_of_suffix a p '\n' ha hsuf
    exact hnl (hl ▸ List.mem_append_left b hmem)

end Splice

namespace Afero

theorem readFile_ok_iff (fs : Fs) (path content : Str) :
    ReadFile fs path = .ok content ↔ lookup fs path = some content := by
  unfold ReadFile
  cases h : lookup fs path with
  | none => simp
  | some c => simp

theorem lookup_after_write (fs fs1 : Fs) (path content : Str)
    (h : WriteFile fs path content = .ok fs1) : lookup fs1 path = some content := by
  unfold WriteFile at h
  by_cases hro : fs.readOnly = true
  · rw [if_pos hro] at h
    cases h
  · rw [if_neg hro] at h
    cases h
    simp [lookup]

theorem lookup_isSome_iff (fs : Fs) (path : Str) :
    (lookup fs path).isSome = true ↔ path ∈ fs.files.map Prod.fst := by
  unfold lookup
  rw [Option.isSome_map', List.find?_isSome]
  simp only [decide_eq_true_eq, List.mem_map]

/-- Rewriting a file that exists changes no answer of afero.Exists. -/
theorem exists_after_write (fs fs1 : Fs) (path content : Str)
    (h : WriteFile fs path content = .ok fs1) (hthere : (lookup fs path).isSome = true)
    (q : Str) : Exists fs1 q = Exists fs q := by
  unfold WriteFile at h
  by_cases hro : fs.readOnly = true
  · rw [if_pos hro] at h
    cases h
  · rw [if_neg hro] at h
    cases h
    unfold Exists
    simp only
    have hsome : (lookup { fs with
        files := ((path, content) :: (fs.files.filter (fun e => e.1 ≠ path))) } q).isSome =
          (lookup fs q).isSome := by
      rw [Bool.eq_iff_iff, lookup_isSome_iff, lookup_isSome_iff]
      rw [lookup_isSome_iff] at hthere
      simp only [List.map_cons, List.mem_cons, List.mem_map, List.mem_filter, ne_eq,
        decide_not, Bool.not_eq_true', decide_eq_false_iff_not]
      constructor
      · rintro (hq | ⟨e, ⟨he, _⟩, hk⟩)
        · subst hq
          simpa using hthere
        · exact ⟨e, he, hk⟩
      · rintro ⟨e, he, hk⟩
        by_cases hqp : q = path
        · exact Or.inl hqp
        · exact Or.inr ⟨e, ⟨he, fun hep => hqp (hk ▸ hep)⟩, hk⟩
    rw [hsome]

end Afero

end Kdeps

/-! ## Import injection: where the batch goes -/

namespace Kdeps

namespace Imports

theorem index_of_indexOf (s substr : Str) (i : Nat) (h : Strings.indexOf s substr = some i) :
    Strings.Index s substr = (i : Int) := by
  unfold Strings.Index
  rw [h]

theorem index_of_indexOf_none (s substr : Str) (h : Strings.indexOf s substr = none) :
    Strings.Index s substr = -1 := by
  unfold Strings.Index
  rw [h]

theorem take_succ_of_drop (s rest : Str) (n : Nat) (c : Char) (h : s.drop n = c :: rest) :
    s.take (n + 1) = s.take n ++ [c] := by
  have hs : s = s.take n ++ c :: rest := by
    rw [← h]
    exact (List.take_append_drop n s).symm
  have hlen : (s.take n).length = n := by
    rw [List.length_take]
    apply Nat.min_eq_left
    by_contra hlt
    have : s.drop n = [] := List.drop_eq_nil_of_le (by omega)
    rw [this] at h
    cases h
  have h2 : (s.take n ++ [c]).length = n + 1 := by
    rw [List.length_append, hlen]
    rfl
  conv_lhs => rw [hs]
  have h3 : s.take n ++ c :: rest = (s.take n ++ [c]) ++ rest := by
    simp only [List.append_assoc, List.singleton_append]
  rw [h3, List.take_left' h2]

/-- The text written when the keyword is found at `i` and a newline follows:
the batch stands right behind that newline. -/
theorem spliced_with_newline (contentStr importFiles : Str) (i j : Nat)
    (hj : Strings.indexOf (contentStr.drop i) ['\n'] = some j) :
    spliced contentStr importFiles (i : Int) =
        Regexp.ReplaceAllString "@(".toList ")".toList
          (contentStr.take (i + j + 1) ++ importFiles ++ contentStr.drop (i + j + 1)) ∧
      ∃ p, contentStr.take (i + j + 1) = p ++ ['\n'] := by
  constructor
  · unfold spliced Strings.sliceFrom Strings.sliceTo
    simp only [Int.toNat_ofNat]
    rw [index_of_indexOf _ _ _ hj]
    have he : ((j : Int) + (i : Int) + 1).toNat = i + j + 1 := by omega
    rw [he]
  · obtain ⟨hpre, _, _⟩ := Strings.indexOf_some _ _ _ hj
    rw [List.drop_drop] at hpre
    obtain ⟨rest, hrest⟩ := hpre
    have hd : contentStr.drop (i + j) = '\n' :: rest := by
      rw [← hrest]
      rfl
    exact ⟨contentStr.take (i + j), take_succ_of_drop contentStr rest (i + j) '\n' hd⟩

/-- The text written when the keyword is found at `i` and no newline follows:
the batch stands right before the keyword. -/
theorem spliced_without_newline (contentStr importFiles : Str) (i : Nat)
    (hj : Strings.indexOf (contentStr.drop i) ['\n'] = none) :
    spliced contentStr importFiles (i : Int) =
      Regexp.ReplaceAllString "@(".toList ")".toList
        (contentStr.take i ++ importFiles ++ contentStr.drop i) := by
  unfold spliced Strings.sliceFrom Strings.sliceTo
  simp only [Int.toNat_ofNat]
  rw [index_of_indexOf_none _ _ hj]
  have he : ((-1 : Int) + (i : Int) + 1).toNat = i := by omega
  rw [he]

theorem line_in_builder (dr : DependencyResolver) (contentStr : Str)
    (entries : List (Str × ImportConfig)) (e : Str × ImportConfig)
    (he : e ∈ writtenEntries dr contentStr entries) :
    generateImportLine e.1 e.2.Alias <:+: importBuilder dr contentStr entries := by
  unfold importBuilder
  have hchunk : generateImportLine e.1 e.2.Alias ++ ['\n'] ∈
      (writtenEntries dr contentStr entries).map
        (fun e => generateImportLine e.1 e.2.Alias ++ ['\n']) :=
    List.mem_map.2 ⟨e, he, rfl⟩
  exact (List.prefix_append _ _).isInfix.trans (List.infix_of_mem_flatten hchunk)

theorem importBuilder_eq_nil_iff (dr : DependencyResolver) (contentStr : Str)
    (entries : List (Str × ImportConfig)) :
    importBuilder dr contentStr entries = [] ↔ writtenEntries dr contentStr entries = [] := by
  unfold importBuilder
  rw [List.flatten_eq_nil_iff]
  constructor
  · intro h
    cases hw : writtenEntries dr contentStr entries with
    | nil => rfl
    | cons e rest =>
      exfalso
      have := h (generateImportLine e.1 e.2.Alias ++ ['\n'])
        (List.mem_map.2 ⟨e, by rw [hw]; exact List.mem_cons_self _ _, rfl⟩)
      simp at this
  · intro h l hl
    rw [h] at hl
    simp at hl

/-- Whether the batch is empty does not depend on the iteration order. -/
theorem written_eq_nil_iff (dr : DependencyResolver) (contentStr : Str) (rank : Str → Nat) :
    writtenEntries dr contentStr (GoMap.rangeOver rank (importCheck dr)) = [] ↔
      ∀ e ∈ importCheck dr, (e.2.Check = false ∨ fileExists dr e.1 = true) →
        Strings.Contains contentStr (generateImportLine e.1 e.2.Alias) = true := by
  rw [List.eq_nil_iff_forall_not_mem]
  constructor
  · intro h e he hpass
    by_contra hc
    simp only [Bool.not_eq_true] at hc
    exact h e ((mem_writtenEntries _ _ _ _).2 ⟨(GoMap.mem_rangeOver _ _ _).2 he, hpass, hc⟩)
  · intro h e he
    obtain ⟨hmem, hpass, hc⟩ := (mem_writtenEntries _ _ _ _).1 he
    rw [h e ((GoMap.mem_rangeOver _ _ _).1 hmem) hpass] at hc
    cases hc

theorem writtenEntries_congr (dr1 dr2 : DependencyResolver) (contentStr : Str)
    (entries : List (Str × ImportConfig))
    (h : ∀ q, fileExists dr1 q = fileExists dr2 q) :
    writtenEntries dr1 contentStr entries = writtenEntries dr2 contentStr entries := by
  induction entries with
  | nil => rfl
  | cons e rest ih =>
    obtain ⟨file, config⟩ := e
    unfold writtenEntries
    rw [h file, ih]

end Imports

end Kdeps

/-! ## Import injection: idempotence -/

namespace Kdeps

namespace Imports

/-- The file system after PrependDynamicImports, by cases. -/
theorem injected_fs (dr : DependencyResolver) (rank : Str → Nat) (pklFile contentStr : Str)
    (hread : Afero.ReadFile dr.Fs pklFile = .ok contentStr) :
    (PrependDynamicImports dr rank pklFile).2 =
      if importBuilder dr contentStr (GoMap.rangeOver rank (importCheck dr)) = [] then dr.Fs
      else if Strings.Index contentStr amends ≠ -1 then
        match Afero.WriteFile dr.Fs pklFile
          (spliced contentStr (importBuilder dr contentStr (GoMap.rangeOver rank (importCheck dr)))
            (Strings.Index contentStr amends)) with
        | .error _ => dr.Fs
        | .ok fs => fs
      else dr.Fs := by
  unfold PrependDynamicImports
  rw [hread]
  simp only
  split_ifs with h1 h2
  · rfl
  · split <;> simp_all
  · rfl

theorem builder_nil_order (dr : DependencyResolver) (contentStr : Str) (rank1 rank2 : Str → Nat) :
    importBuilder dr contentStr (GoMap.rangeOver rank1 (importCheck dr)) = [] ↔
      importBuilder dr contentStr (GoMap.rangeOver rank2 (importCheck dr)) = [] := by
  rw [importBuilder_eq_nil_iff, importBuilder_eq_nil_iff, written_eq_nil_iff, written_eq_nil_iff]

/-- Where a newline follows the keyword, every candidate line that is free of
newlines and placeholders occurs in the text that is written. -/
theorem line_kept_after_newline (dr : DependencyResolver) (rank : Str → Nat)
    (contentStr : Str) (i j : Nat) (e : Str × ImportConfig)
    (hj : Strings.indexOf (contentStr.drop i) ['\n'] = some j)
    (hmem : e ∈ importCheck dr)
    (hpass : e.2.Check = false ∨ fileExists dr e.1 = true)
    (hnl : '\n' ∉ generateImportLine e.1 e.2.Alias)
    (hfree : Regexp.placeholderFree (generateImportLine e.1 e.2.Alias) = true) :
    generateImportLine e.1 e.2.Alias <:+:
      spliced contentStr (importBuilder dr contentStr (GoMap.rangeOver rank (importCheck dr)))
        (i : Int) := by
  obtain ⟨hform, hfront⟩ := spliced_with_newline contentStr
    (importBuilder dr contentStr (GoMap.rangeOver rank (importCheck dr))) i j hj
  rw [hform]
  apply Regexp.replaceAll_keeps _ _ hfree
  by_cases hc : Strings.Contains contentStr (generateImportLine e.1 e.2.Alias) = true
  · apply Splice.infix_insert_after_newline _ _ _ _ hnl hfront
    rw [List.take_append_drop]
    exact (Strings.contains_iff _ _).1 hc
  · apply Splice.infix_insert_of_side
    right
    right
    apply line_in_builder
    rw [mem_writtenEntries]
    exact ⟨(GoMap.mem_rangeOver _ _ _).2 hmem, hpass, by simpa using hc⟩

end Imports

end Kdeps

namespace Kdeps

namespace Imports

theorem indexOf_of_contains (s substr : Str) (h : Strings.Contains s substr = true) :
    ∃ i, Strings.indexOf s substr = some i := by
  cases hi : Strings.indexOf s substr with
  | some i => exact ⟨i, rfl⟩
  | none =>
    exfalso
    rw [Strings.contains_iff] at h
    exact (Strings.indexOf_none_iff s substr).1 hi h

theorem indexOf_of_index_ne (s substr : Str) (h : Strings.Index s substr ≠ -1) :
    ∃ i, Strings.indexOf s substr = some i := by
  cases hi : Strings.indexOf s substr with
  | some i => exact ⟨i, rfl⟩
  | none => exact absurd (index_of_indexOf_none s substr hi) h

theorem write_fails_always (fs : Fs) (path c1 c2 : Str) (err : String)
    (h : Afero.WriteFile fs path c1 = .error err) :
    Afero.WriteFile fs path c2 = .error err := by
  unfold Afero.WriteFile at h ⊢
  by_cases hro : fs.readOnly = true
  · rw [if_pos hro] at h ⊢
    exact h
  · rw [if_neg hro] at h
    cases h

/-- Idempotence of the PrependDynamicImports of imports.go. -/
theorem injection_idempotent (dr : DependencyResolver) (rank1 rank2 : Str → Nat)
    (pklFile contentStr : Str)
    (hread : Afero.ReadFile dr.Fs pklFile = .ok contentStr)
    (hheader : Strings.Contains contentStr Imports.amends = true →
      Strings.Contains
        (Strings.sliceFrom contentStr (Strings.Index contentStr Imports.amends)) ['\n'] = true)
    (hlines : ∀ e ∈ Imports.importCheck dr,
      '\n' ∉ Imports.generateImportLine e.1 e.2.Alias ∧
        Regexp.placeholderFree (Imports.generateImportLine e.1 e.2.Alias) = true) :
    (Imports.PrependDynamicImports
        { dr with Fs := (Imports.PrependDynamicImports dr rank1 pklFile).2 } rank2 pklFile).2 =
      (Imports.PrependDynamicImports dr rank1 pklFile).2 := by
  have hfs := Imports.injected_fs dr rank1 pklFile contentStr hread
  have hfs2 := Imports.injected_fs dr rank2 pklFile contentStr hread
  by_cases hb : Imports.importBuilder dr contentStr
      (GoMap.rangeOver rank1 (Imports.importCheck dr)) = []
  · rw [if_pos hb] at hfs
    rw [if_pos ((Imports.builder_nil_order dr contentStr rank1 rank2).1 hb)] at hfs2
    rw [hfs]
    exact hfs2
  · have hb2 : ¬ Imports.importBuilder dr contentStr
        (GoMap.rangeOver rank2 (Imports.importCheck dr)) = [] :=
      fun h => hb ((Imports.builder_nil_order dr contentStr rank1 rank2).2 h)
    rw [if_neg hb] at hfs
    rw [if_neg hb2] at hfs2
    by_cases hidx : Strings.Index contentStr Imports.amends ≠ -1
    · rw [if_pos hidx] at hfs hfs2
      obtain ⟨i, hi⟩ := Imports.indexOf_of_index_ne _ _ hidx
      have hI := Imports.index_of_indexOf _ _ _ hi
      cases hw : Afero.WriteFile dr.Fs pklFile
          (Imports.spliced contentStr (Imports.importBuilder dr contentStr
            (GoMap.rangeOver rank1 (Imports.importCheck dr)))
            (Strings.Index contentStr Imports.amends)) with
      | error err =>
        rw [hw] at hfs
        rw [Imports.write_fails_always _ _ _ _ _ hw] at hfs2
        rw [hfs]
        exact hfs2
      | ok fs1 =>
        rw [hw] at hfs
        simp only at hfs
        rw [hfs]
        have hcont : Strings.Contains contentStr Imports.amends = true := by
          rw [Strings.contains_iff]
          by_contra hno
          exact hidx ((Strings.index_eq_neg_one_iff _ _).2 hno)
        have hnl := hheader hcont
        rw [hI] at hnl hw
        obtain ⟨j, hj⟩ := Imports.indexOf_of_contains _ _ hnl
        have hj2 : Strings.indexOf (contentStr.drop i) ['\n'] = some j := hj
        have hthere : (Afero.lookup dr.Fs pklFile).isSome = true := by
          rw [(Afero.readFile_ok_iff _ _ _).1 hread]
          rfl
        have hread1 : Afero.ReadFile fs1 pklFile = .ok
            (Imports.spliced contentStr (Imports.importBuilder dr contentStr
              (GoMap.rangeOver rank1 (Imports.importCheck dr))) (i : Int)) :=
          (Afero.readFile_ok_iff _ _ _).2 (Afero.lookup_after_write _ _ _ _ hw)
        have hfs3 := Imports.injected_fs { dr with Fs := fs1 } rank2 pklFile _ hread1
        have hempty : Imports.importBuilder { dr with Fs := fs1 }
            (Imports.spliced contentStr (Imports.importBuilder dr contentStr
              (GoMap.rangeOver rank1 (Imports.importCheck dr))) (i : Int))
            (GoMap.rangeOver rank2 (Imports.importCheck { dr with Fs := fs1 })) = [] := by
          rw [Imports.importBuilder_eq_nil_iff, Imports.written_eq_nil_iff]
          intro e he hpass
          have he1 : e ∈ Imports.importCheck dr := he
          have hpass1 : e.2.Check = false ∨ Imports.fileExists dr e.1 = true := by
            rcases hpass with h | h
            · exact Or.inl h
            · right
              unfold Imports.fileExists at h ⊢
              rw [← Afero.exists_after_write _ _ _ _ hw hthere e.1]
              exact h
          rw [Strings.contains_iff]
          exact Imports.line_kept_after_newline dr rank1 contentStr i j e hj2 he1 hpass1
            (hlines e he1).1 (hlines e he1).2
        rw [if_pos hempty] at hfs3
        exact hfs3
    · rw [if_neg hidx] at hfs hfs2
      rw [hfs]
      exact hfs2

end Imports

end Kdeps

/-! ## Lemmas: `filepath.Join` keeps the end of its last element -/

namespace Kdeps

namespace Filepath

theorem splitSlash_ne_nil (s : Str) : splitSlash s ≠ [] := by
  cases s with
  | nil => simp [splitSlash]
  | cons c cs =>
    unfold splitSlash
    by_cases hc : c = '/'
    · rw [if_pos hc]
      exact List.cons_ne_nil _ _
    · rw [if_neg hc]
      cases splitSlash cs <;> simp

theorem splitSlash_of_no_slash (t : Str) (ht : '/' ∉ t) : splitSlash t = [t] := by
  induction t with
  | nil => rfl
  | cons c cs ih =>
    unfold splitSlash
    have hc : c ≠ '/' := fun h => ht (h ▸ List.mem_cons_self _ _)
    rw [if_neg hc, ih (fun h => ht (List.mem_cons_of_mem _ h))]

/-- Appending a text without separator extends the last element of a path. -/
theorem splitSlash_append (m t : Str) (ht : '/' ∉ t) :
    ∃ front last, splitSlash (m ++ t) = front ++ [last ++ t] := by
  induction m with
  | nil => exact ⟨[], [], by rw [List.nil_append, splitSlash_of_no_slash t ht]; rfl⟩
  | cons c cs ih =>
    obtain ⟨front, last, hsplit⟩ := ih
    rw [List.cons_append]
    unfold splitSlash
    by_cases hc : c = '/'
    · rw [if_pos hc, hsplit]
      exact ⟨[] :: front, last, rfl⟩
    · rw [if_neg hc, hsplit]
      cases front with
      | nil => exact ⟨[], c :: last, rfl⟩
      | cons h tl => exact ⟨(c :: h) :: tl, last, rfl⟩

theorem intercalate_append_singleton (sep : Str) (xs : List Str) (y : Str) :
    y <:+ List.intercalate sep (xs ++ [y]) := by
  induction xs with
  | nil => simp [List.intercalate]
  | cons x rest ih =>
    cases rest with
    | nil =>
      simp only [List.intercalate, List.cons_append, List.nil_append, List.intersperse,
        List.flatten, List.append_nil]
      exact ⟨x ++ sep, by simp⟩
    | cons x2 rest2 =>
      have : List.intercalate sep (x :: x2 :: rest2 ++ [y]) =
          x ++ sep ++ List.intercalate sep (x2 :: rest2 ++ [y]) := by
        simp [List.intercalate, List.intersperse, List.flatten]
      rw [this]
      exact ih.trans (List.suffix_append _ _)

theorem cleanPush_real (rooted : Bool) (kept : List Str) (elem : Str) (h : 3 ≤ elem.length) :
    cleanPush rooted kept elem = elem :: kept := by
  unfold cleanPush
  have h1 : ¬ (elem = [] ∨ elem = ['.']) := by
    rintro (h0 | h0) <;> rw [h0] at h <;> simp at h
  have h2 : elem ≠ ['.', '.'] := by
    intro h0
    rw [h0] at h
    simp at h
  rw [if_neg h1, if_neg h2]

theorem append_ne_nil_of_length (x t : Str) (hlen : 3 ≤ t.length) : x ++ t ≠ [] := by
  intro h
  have := congrArg List.length h
  rw [List.length_append, List.length_nil] at this
  omega

theorem suffix_of_nonempty_out (t out : Str) (hlen : 3 ≤ t.length) (h : t <:+ out) :
    t <:+ (if out = [] then ['.'] else out) := by
  by_cases hnil : out = []
  · exfalso
    rw [hnil] at h
    have := List.IsSuffix.length_le h
    rw [List.length_nil] at this
    omega
  · rw [if_neg hnil]
    exact h

/-- A cleaned path ends as the path does, where that end is free of
separators and three characters long at least. -/
theorem clean_suffix (m t : Str) (ht : '/' ∉ t) (hlen : 3 ≤ t.length) : t <:+ Clean (m ++ t) := by
  have hne : m ++ t ≠ [] := append_ne_nil_of_length m t hlen
  obtain ⟨front, last, hsplit⟩ := splitSlash_append m t ht
  unfold Clean
  rw [if_neg hne, hsplit]
  simp only [List.foldl_append, List.foldl_cons, List.foldl_nil]
  rw [cleanPush_real _ _ _ (by rw [List.length_append]; omega)]
  simp only [List.reverse_cons]
  apply suffix_of_nonempty_out t _ hlen
  exact ((List.suffix_append last t).trans (intercalate_append_singleton _ _ _)).trans
    (List.suffix_append _ _)

theorem join_suffix (a x t : Str) (ht : '/' ∉ t) (hlen : 3 ≤ t.length) :
    t <:+ Join [a, x ++ t] := by
  have hx : x ++ t ≠ [] := append_ne_nil_of_length x t hlen
  unfold Join
  by_cases ha : a = []
  · subst ha
    simp only [List.filter, ne_eq, not_true_eq_false, decide_False, decide_not, hx,
      not_false_eq_true, decide_True, Bool.not_false, List.cons_ne_nil, if_false]
    have : List.intercalate ['/'] [x ++ t] = x ++ t := by
      simp [List.intercalate, List.intersperse, List.flatten]
    rw [this]
    exact clean_suffix x t ht hlen
  · simp only [List.filter, ne_eq, ha, not_false_eq_true, decide_True, decide_not, hx,
      Bool.not_false, decide_False, List.cons_ne_nil, if_false]
    have : List.intercalate ['/'] [a, x ++ t] = (a ++ ['/'] ++ x) ++ t := by
      simp [List.intercalate, List.intersperse, List.flatten]
    rw [this]
    exact clean_suffix _ t ht hlen

end Filepath

end Kdeps

/-! ## Import injection: the always-on modules -/

namespace Kdeps

namespace Splice

/-- A line that does not run into the keyword and occurs in a text still occurs
in it after a batch is inserted right before an occurrence of the keyword. -/
theorem infix_insert_before_keyword (kw l front mid back : Str)
    (hfree : Imports.overlapFree kw l = true) (hkw : kw <+: back) (h : l <:+: front ++ back) :
    l <:+: front ++ mid ++ back := by
  rcases infix_append_cases l front back h with h1 | h2 | ⟨a, b, hl, ha, hb, _, hpre⟩
  · exact infix_insert_of_side l front mid back (Or.inl h1)
  · exact infix_insert_of_side l front mid back (Or.inr (Or.inl h2))
  · exfalso
    unfold Imports.overlapFree at hfree
    rw [List.all_eq_true] at hfree
    have hapos : 0 < a.length := List.length_pos.2 ha
    have hbpos : 0 < b.length := List.length_pos.2 hb
    have hk : a.length ∈ List.range l.length := by
      rw [List.mem_range, hl, List.length_append]
      omega
    have hat := hfree a.length hk
    have hdrop : l.drop a.length = b := by
      rw [hl, List.drop_left]
    rw [hdrop] at hat
    have hne : (a.length == 0) = false := by
      rw [beq_eq_false_iff_ne]
      omega
    rw [hne, Bool.false_or, Bool.not_eq_true', Bool.or_eq_false_iff] at hat
    rcases List.prefix_or_prefix_of_prefix hpre hkw with hbk | hkb
    · rw [(Strings.hasPrefix_iff kw b).2 hbk] at hat
      exact Bool.noConfusion hat.1
    · rw [(Strings.hasPrefix_iff b kw).2 hkb] at hat
      exact Bool.noConfusion hat.2

end Splice

namespace GoMap

theorem lastValue_of_mem_nodup {V : Type} (pairs : List (Str × V))
    (hnodup : (pairs.map Prod.fst).Nodup) (k : Str) (v : V) (hmem : (k, v) ∈ pairs)
    (start : Option V) : lastValue k pairs start = some v := by
  induction pairs generalizing start with
  | nil => simp at hmem
  | cons e rest ih =>
    simp only [List.map_cons, List.nodup_cons] at hnodup
    have hstep : lastValue k (e :: rest) start =
        lastValue k rest (if e.1 = k then some e.2 else start) := rfl
    rw [hstep]
    rcases List.mem_cons.1 hmem with heq | hin
    · subst heq
      simp only [if_true]
      rcases lastValue_cases k rest (some v) with ⟨h1, _⟩ | ⟨e', he', hk, _⟩
      · exact h1
      · exact absurd (List.mem_map.2 ⟨e', he', hk⟩) hnodup.1
    · exact ih hnodup.2 hin _

end GoMap

namespace Imports

theorem outputFile_suffix (dr : DependencyResolver) (kind : Str) :
    "_output.pkl".toList <:+ outputFile dr kind := by
  unfold outputFile
  have hassoc : "/".toList ++ kind ++ "/".toList ++ dr.RequestId ++ "__".toList ++ kind ++
      "_output.pkl".toList =
      ("/".toList ++ kind ++ "/".toList ++ dr.RequestId ++ "__".toList ++ kind) ++
        "_output.pkl".toList := rfl
  rw [hassoc]
  exact Filepath.join_suffix _ _ _ (by decide) (by decide)

/-- No key of a gated pair other than the request descriptor is the key of an
always-on pair of the specified schema version. -/
theorem alwaysOn_key_not_output (dr : DependencyResolver) (hversion : dr.UseLatest = false)
    (k : Str) (hk : k ∈ (alwaysOnPairs dr).map Prod.fst) (kind : Str) :
    k ≠ outputFile dr kind := by
  intro heq
  have hsuf := outputFile_suffix dr kind
  rw [← heq] at hsuf
  have hall : ∀ k ∈ (alwaysOnPairs dr).map Prod.fst, ¬ "_output.pkl".toList <:+ k := by
    unfold alwaysOnPairs schemaModule Schema.SchemaVersion
    rw [hversion]
    simp only [Bool.false_eq_true, if_false]
    decide
  exact hall k hk hsuf

theorem alwaysOn_keys_nodup (dr : DependencyResolver) (hversion : dr.UseLatest = false) :
    ((alwaysOnPairs dr).map Prod.fst).Nodup := by
  unfold alwaysOnPairs schemaModule Schema.SchemaVersion
  rw [hversion]
  simp only [Bool.false_eq_true, if_false]
  decide

/-- The import lines of the always-on pairs of the specified schema version
are not gated, hold no newline and no placeholder, and do not run into the
keyword. -/
theorem alwaysOn_lines (dr : DependencyResolver) (hversion : dr.UseLatest = false) :
    ∀ e ∈ alwaysOnPairs dr, e.2.Check = false ∧
      '\n' ∉ generateImportLine e.1 e.2.Alias ∧
      Regexp.placeholderFree (generateImportLine e.1 e.2.Alias) = true ∧
      overlapFree amends (generateImportLine e.1 e.2.Alias) = true := by
  unfold alwaysOnPairs schemaModule Schema.SchemaVersion
  rw [hversion]
  simp only [Bool.false_eq_true, if_false]
  decide

/-- An always-on pair is an entry of the map unless the request descriptor
path repeats its key. -/
theorem alwaysOn_in_map (dr : DependencyResolver) (hversion : dr.UseLatest = false)
    (hreq : dr.RequestPklFile ∉ (alwaysOnPairs dr).map Prod.fst)
    (e : Str × ImportConfig) (he : e ∈ alwaysOnPairs dr) : e ∈ importCheck dr := by
  obtain ⟨k, v⟩ := e
  have hk : k ∈ (alwaysOnPairs dr).map Prod.fst := List.mem_map.2 ⟨(k, v), he, rfl⟩
  have hnot : k ∉ (gatedPairs dr).map Prod.fst := by
    intro hin
    simp only [gatedPairs, List.map_cons, List.map_nil, List.mem_cons, List.mem_singleton,
      List.not_mem_nil, or_false] at hin
    rcases hin with h | h | h | h | h | h
    · exact alwaysOn_key_not_output dr hversion k hk _ h
    · exact alwaysOn_key_not_output dr hversion k hk _ h
    · exact alwaysOn_key_not_output dr hversion k hk _ h
    · exact alwaysOn_key_not_output dr hversion k hk _ h
    · exact alwaysOn_key_not_output dr hversion k hk _ h
    · exact hreq (h ▸ hk)
  apply GoMap.mem_of_mapGet
  unfold importCheck importPairs
  rw [GoMap.mapGet_mapLiteral, GoMap.lastValue_append]
  rcases GoMap.lastValue_cases k (gatedPairs dr)
      (GoMap.lastValue k (alwaysOnPairs dr) none) with ⟨h1, _⟩ | ⟨e', he', hk', _⟩
  · rw [h1]
    exact GoMap.lastValue_of_mem_nodup _ (alwaysOn_keys_nodup dr hversion) k v he none
  · exact absurd (List.mem_map.2 ⟨e', he', hk'⟩) hnot

/-- The result of PrependDynamicImports, by cases. -/
theorem injected (dr : DependencyResolver) (rank : Str → Nat) (pklFile contentStr : Str)
    (hread : Afero.ReadFile dr.Fs pklFile = .ok contentStr) :
    PrependDynamicImports dr rank pklFile =
      if importBuilder dr contentStr (GoMap.rangeOver rank (importCheck dr)) = [] then
        (none, dr.Fs)
      else if Strings.Index contentStr amends ≠ -1 then
        match Afero.WriteFile dr.Fs pklFile
          (spliced contentStr (importBuilder dr contentStr (GoMap.rangeOver rank (importCheck dr)))
            (Strings.Index contentStr amends)) with
        | .error err => (some err, dr.Fs)
        | .ok fs => (none, fs)
      else (none, dr.Fs) := by
  unfold PrependDynamicImports
  rw [hread]

/-- Where no newline follows the keyword, every candidate line that is free of
placeholders and does not run into the keyword occurs in the text that is
written. -/
theorem line_kept_before_keyword (dr : DependencyResolver) (rank : Str → Nat)
    (contentStr : Str) (i : Nat) (e : Str × ImportConfig)
    (hi : Strings.indexOf contentStr amends = some i)
    (hj : Strings.indexOf (contentStr.drop i) ['\n'] = none)
    (hmem : e ∈ importCheck dr)
    (hpass : e.2.Check = false ∨ fileExists dr e.1 = true)
    (hover : overlapFree amends (generateImportLine e.1 e.2.Alias) = true)
    (hfree : Regexp.placeholderFree (generateImportLine e.1 e.2.Alias) = true) :
    generateImportLine e.1 e.2.Alias <:+:
      spliced contentStr (importBuilder dr contentStr (GoMap.rangeOver rank (importCheck dr)))
        (i : Int) := by
  rw [spliced_without_newline contentStr _ i hj]
  apply Regexp.replaceAll_keeps _ _ hfree
  by_cases hc : Strings.Contains contentStr (generateImportLine e.1 e.2.Alias) = true
  · apply Splice.infix_insert_before_keyword amends _ _ _ _ hover
      (Strings.indexOf_some _ _ _ hi).1
    rw [List.take_append_drop]
    exact (Strings.contains_iff _ _).1 hc
  · apply Splice.infix_insert_of_side
    right
    right
    apply line_in_builder
    rw [mem_writtenEntries]
    exact ⟨(GoMap.mem_rangeOver _ _ _).2 hmem, hpass, by simpa using hc⟩

end Imports

/-- C8, as amended: for a definition text that contains `amends`, with the
specified schema version and a request descriptor path that is not itself the
name of an always-on module, the file holds an import line for each always-on
module (pkl:json, pkl:test, pkl:math, pkl:platform, pkl:semver, pkl:shell,
pkl:xml, pkl:yaml, Document.pkl as document, Skip.pkl as skip, Utils.pkl as
utils) after PrependDynamicImports returns without error, whether or not any
output file exists. -/
theorem C8_always_on_modules_imported (dr : DependencyResolver) (rank : Str → Nat)
    (pklFile contentStr : Str)
    (hread : Afero.ReadFile dr.Fs pklFile = .ok contentStr)
    (hheader : Strings.Contains contentStr Imports.amends = true)
    (hversion : dr.UseLatest = false)
    (hreq : dr.RequestPklFile ∉ (Imports.alwaysOnPairs dr).map Prod.fst)
    (hnil : (Imports.PrependDynamicImports dr rank pklFile).1 = none) :
    ∃ text, Afero.ReadFile (Imports.PrependDynamicImports dr rank pklFile).2 pklFile = .ok text ∧
      ∀ e ∈ Imports.alwaysOnPairs dr,
        Strings.Contains text (Imports.generateImportLine e.1 e.2.Alias) = true := by
  have hres := Imports.injected dr rank pklFile contentStr hread
  have hidx : Strings.Index contentStr Imports.amends ≠ -1 := by
    intro h
    rw [Strings.index_eq_neg_one_iff] at h
    exact h ((Strings.contains_iff _ _).1 hheader)
  obtain ⟨i, hi⟩ := Imports.indexOf_of_index_ne _ _ hidx
  by_cases hb : Imports.importBuilder dr contentStr
      (GoMap.rangeOver rank (Imports.importCheck dr)) = []
  · rw [if_pos hb] at hres
    rw [hres]
    refine ⟨contentStr, hread, ?_⟩
    intro e he
    rw [Imports.importBuilder_eq_nil_iff, Imports.written_eq_nil_iff] at hb
    exact hb e (Imports.alwaysOn_in_map dr hversion hreq e he)
      (Or.inl (Imports.alwaysOn_lines dr hversion e he).1)
  · rw [if_neg hb, if_pos hidx] at hres
    cases hw : Afero.WriteFile dr.Fs pklFile
        (Imports.spliced contentStr (Imports.importBuilder dr contentStr
          (GoMap.rangeOver rank (Imports.importCheck dr)))
          (Strings.Index contentStr Imports.amends)) with
    | error err =>
      rw [hw] at hres
      rw [hres] at hnil
      cases hnil
    | ok fs1 =>
      rw [hw] at hres
      rw [hres]
      refine ⟨_, (Afero.readFile_ok_iff _ _ _).2 (Afero.lookup_after_write _ _ _ _ hw), ?_⟩
      intro e he
      rw [Strings.contains_iff, Imports.index_of_indexOf _ _ _ hi]
      obtain ⟨hcheck, hnl, hfree, hover⟩ := Imports.alwaysOn_lines dr hversion e he
      have hmem := Imports.alwaysOn_in_map dr hversion hreq e he
      cases hj : Strings.indexOf (contentStr.drop i) ['\n'] with
      | some j =>
        exact Imports.line_kept_after_newline dr rank contentStr i j e hj hmem
          (Or.inl hcheck) hnl hfree
      | none =>
        exact Imports.line_kept_before_keyword dr rank contentStr i e hi hj hmem
          (Or.inl hcheck) hover hfree

end Kdeps

namespace Kdeps

set_option maxRecDepth 1000000 in
/-- C8 at a text with header line and no output file: the file holds the
eleven always-on lines afterwards. -/
theorem C8_always_on_modules_imported_witness :
    ∃ text, Afero.ReadFile (Imports.PrependDynamicImports
        (Sample.resolver (Sample.fsWith Sample.headed)) Sample.anyRank Sample.defFile).2
        Sample.defFile = .ok text ∧
      ∀ e ∈ Imports.alwaysOnPairs (Sample.resolver (Sample.fsWith Sample.headed)),
        Strings.Contains text (Imports.generateImportLine e.1 e.2.Alias) = true :=
  C8_always_on_modules_imported (Sample.resolver (Sample.fsWith Sample.headed)) Sample.anyRank
    Sample.defFile Sample.headed rfl (by decide) rfl (by decide) (by decide)

set_option maxRecDepth 1000000 in
/-- C8 as stated fails: PrependDynamicImports returns nil and the file lacks an
always-on import line (1) for a text without `amends`, which is left as it is,
(2) when the request descriptor path is `pkl:json` and no such file exists, and
(3) when the latest schema release has a version of the shape of a
placeholder, which the rewrite changes in the import line. -/
theorem C8_nil_without_always_on_import :
    (Imports.PrependDynamicImports (Sample.resolver (Sample.fsWith Sample.headless))
        Sample.anyRank Sample.defFile = (none, Sample.fsWith Sample.headless) ∧
      Sample.holds (Sample.fsWith Sample.headless) "import \"pkl:json\"".toList = false) ∧
    ((Imports.PrependDynamicImports Sample.shadowingResolver
        Sample.anyRank Sample.defFile).1 = none ∧
      Sample.holds (Imports.PrependDynamicImports Sample.shadowingResolver
        Sample.anyRank Sample.defFile).2 "import \"pkl:json\"".toList = false) ∧
    ((Imports.PrependDynamicImports Sample.latestResolver
        Sample.anyRank Sample.defFile).1 = none ∧
      Sample.holds (Imports.PrependDynamicImports Sample.latestResolver
        Sample.anyRank Sample.defFile).2
        "import \"package://schema.kdeps.com/core@(1)#/Document.pkl\" as document".toList
        = false) := by
  decide

end Kdeps

/-! ## The execution driver -/

namespace Kdeps

namespace Resolver

theorem halting_runResource (c : Collaborators) (rank : Str → Nat) (dr : DependencyResolver)
    (res : ResourceNodeEntry) : Halting (runResource c rank dr res) := by
  unfold runResource
  cases hp : PrependDynamicImports dr rank res with
  | mk err fs1 =>
    cases err with
    | some e =>
      simp only
      refine ⟨fun h => (by cases h), fun e1 h => ?_⟩
      cases h
      exact ⟨[], ⟨res, .inject, some e⟩, rfl, rfl, by simp⟩
    | none =>
      simp only
      cases hl : c.LoadFromPath fs1 res.File with
      | mk err2 fs2 =>
        cases err2 with
        | some e =>
          simp only
          refine ⟨fun h => (by cases h), fun e1 h => ?_⟩
          cases h
          exact ⟨[⟨res, .inject, none⟩], ⟨res, .evaluate, some e⟩, rfl, rfl, by simp⟩
        | none =>
          simp only
          refine ⟨fun _ s hs => ?_, fun e1 h => by cases h⟩
          simp only [List.mem_cons, List.mem_singleton, List.not_mem_nil, or_false] at hs
          rcases hs with h | h <;> rw [h]

/-- A part that ended without error, followed by a part that halts, halts. -/
theorem halting_append (steps : List Step) (hok : ∀ s ∈ steps, s.err = none)
    (r : Option String × DependencyResolver × List Step) (hr : Halting r) :
    Halting (r.1, r.2.1, steps ++ r.2.2) := by
  obtain ⟨h1, h2⟩ := hr
  refine ⟨fun h s hs => ?_, fun e h => ?_⟩
  · rcases List.mem_append.1 hs with h3 | h3
    · exact hok s h3
    · exact h1 h s h3
  · obtain ⟨front, s, hsteps, herr, hfront⟩ := h2 e h
    refine ⟨steps ++ front, s, ?_, herr, ?_⟩
    · show steps ++ r.2.2 = steps ++ front ++ [s]
      rw [hsteps, List.append_assoc]
    · intro s1 hs1
      rcases List.mem_append.1 hs1 with h3 | h3
      · exact hok s1 h3
      · exact hfront s1 h3

theorem halting_runNode (c : Collaborators) (rank : Str → Nat) (resNode : Str)
    (resources : List ResourceNodeEntry) (dr : DependencyResolver) :
    Halting (runNode c rank resNode resources dr) := by
  induction resources generalizing dr with
  | nil => exact ⟨fun _ s hs => by simp [runNode] at hs, fun e h => by simp [runNode] at h⟩
  | cons res rest ih =>
    unfold runNode
    by_cases hid : res.Id = resNode
    · rw [if_pos hid]
      have hres := halting_runResource c rank dr res
      cases hr : runResource c rank dr res with
      | mk err rest1 =>
        obtain ⟨dr1, steps⟩ := rest1
        rw [hr] at hres
        cases err with
        | some e => exact hres
        | none =>
          simp only
          exact halting_append steps (hres.1 rfl) _ (ih dr1)
    · rw [if_neg hid]
      exact ih dr

theorem halting_runStack (c : Collaborators) (rank : Str → Nat)
    (resources : List ResourceNodeEntry) (stack : List Str) (dr : DependencyResolver) :
    Halting (runStack c rank resources stack dr) := by
  induction stack generalizing dr with
  | nil => exact ⟨fun _ s hs => by simp [runStack] at hs, fun e h => by simp [runStack] at h⟩
  | cons resNode rest ih =>
    unfold runStack
    have hnode := halting_runNode c rank resNode resources dr
    cases hr : runNode c rank resNode resources dr with
    | mk err rest1 =>
      obtain ⟨dr1, steps⟩ := rest1
      rw [hr] at hnode
      cases err with
      | some e => exact hnode
      | none =>
        simp only
        exact halting_append steps (hnode.1 rfl) _ (ih dr1)

end Resolver

/-- C5: whatever the execution order and the catalog, a call of import
injection or of the renderer that fails is the last call HandleRunAction makes
(no later resource is injected or evaluated) and its error is what
HandleRunAction returns; and HandleRunAction returns nil only if every call it
made succeeded. -/
theorem C5_failure_halts_run (c : Resolver.Collaborators) (rank : Str → Nat)
    (dr : DependencyResolver) :
    (∀ front s back e, (Resolver.HandleRunAction c rank dr).2.2 = front ++ s :: back →
      s.err = some e →
        back = [] ∧ (Resolver.HandleRunAction c rank dr).1 = .error e) ∧
    ((Resolver.HandleRunAction c rank dr).1 = .nil →
      ∀ s ∈ (Resolver.HandleRunAction c rank dr).2.2, s.err = none) := by
  unfold Resolver.HandleRunAction
  cases hload : Resolver.LoadResourceEntries c dr with
  | mk out dr1 =>
    cases out with
    | error err =>
      simp only
      exact ⟨fun front s back e h => by simp at h, fun _ s hs => by simp at hs⟩
    | panic =>
      simp only
      exact ⟨fun front s back e h => by simp at h, fun _ s hs => by simp at hs⟩
    | nil =>
      simp only
      have hrun := Resolver.halting_runStack c rank dr1.Resources
        (c.BuildDependencyStack dr1.ResourceDependencies dr.WorkflowAction) dr1
      cases hr : Resolver.runStack c rank dr1.Resources
          (c.BuildDependencyStack dr1.ResourceDependencies dr.WorkflowAction) dr1 with
      | mk err rest1 =>
        obtain ⟨dr2, steps⟩ := rest1
        rw [hr] at hrun
        obtain ⟨h1, h2⟩ := hrun
        cases err with
        | none =>
          simp only
          refine ⟨fun front s back e h hs => ?_, fun _ => h1 rfl⟩
          have := h1 rfl s (by simp only [h]; simp)
          rw [this] at hs
          cases hs
        | some e0 =>
          simp only
          refine ⟨fun front s back e h hs => ?_, fun h => by cases h⟩
          obtain ⟨front0, s0, hsteps, herr, hfront⟩ := h2 e0 rfl
          simp only at hsteps h
          rw [hsteps] at h
          by_cases hback : back = []
          · subst hback
            have hl := List.append_inj_right' h (by simp)
            simp only [List.cons.injEq, and_true] at hl
            rw [hl, hs] at herr
            cases herr
            exact ⟨rfl, rfl⟩
          · exfalso
            have hsplit : back = back.dropLast ++ [back.getLast hback] :=
              (List.dropLast_append_getLast hback).symm
            rw [hsplit, ← List.cons_append, ← List.append_assoc] at h
            have hl := List.append_inj_left' h (by simp)
            have hmem : s ∈ front0 := by
              rw [hl]
              simp
            rw [hfront s hmem] at hs
            cases hs

end Kdeps

namespace Kdeps

set_option maxRecDepth 1000000 in
/-- C4 at its failing input: with a catalog of the one resource `C`, the first
run of HandleRunAction injects and evaluates `C` once, and a second run on the
same resolver, whose catalog slice now lists `C` twice, injects and evaluates
it twice although the execution order is still `[C]`. -/
theorem C4_second_run_evaluates_twice :
    (Resolver.HandleRunAction Sample.collaborators Sample.anyRank
        (Sample.resolver (Sample.fsWith Sample.headed))).2.2 =
      [⟨Sample.entryC, .inject, none⟩, ⟨Sample.entryC, .evaluate, none⟩] ∧
    (Resolver.HandleRunAction Sample.collaborators Sample.anyRank
        (Resolver.HandleRunAction Sample.collaborators Sample.anyRank
          (Sample.resolver (Sample.fsWith Sample.headed))).2.1).2.1.Resources =
      [Sample.entryC, Sample.entryC] ∧
    Sample.collaborators.BuildDependencyStack
        (Resolver.HandleRunAction Sample.collaborators Sample.anyRank
          (Resolver.HandleRunAction Sample.collaborators Sample.anyRank
            (Sample.resolver (Sample.fsWith Sample.headed))).2.1).2.1.ResourceDependencies
        "C".toList = ["C".toList] ∧
    (Resolver.HandleRunAction Sample.collaborators Sample.anyRank
        (Resolver.HandleRunAction Sample.collaborators Sample.anyRank
          (Sample.resolver (Sample.fsWith Sample.headed))).2.1).2.2 =
      [⟨Sample.entryC, .inject, none⟩, ⟨Sample.entryC, .evaluate, none⟩,
       ⟨Sample.entryC, .inject, none⟩, ⟨Sample.entryC, .evaluate, none⟩] := by
  decide

end Kdeps

/-! ## The dependency graph: the order is topological -/

namespace Kdeps

namespace Graph

theorem visit_succ (deps : List (Str × List Str)) (fuel : Nat) (node : Str) (visited : List Str) :
    visit deps (fuel + 1) node visited =
      if node ∈ visited then ([], visited)
      else
        (((requiredBy deps node).foldl
          (fun acc dep =>
            ((acc.1 ++ (visit deps fuel dep acc.2).1), (visit deps fuel dep acc.2).2))
          ([], node :: visited)).1 ++ [node],
         ((requiredBy deps node).foldl
          (fun acc dep =>
            ((acc.1 ++ (visit deps fuel dep acc.2).1), (visit deps fuel dep acc.2).2))
          ([], node :: visited)).2) := by
  rfl

theorem requires_rank (deps : List (Str × List Str)) (rank : Str → Nat)
    (hrank : ∀ a b, b ∈ requiredBy deps a → rank b < rank a) (a x : Str)
    (h : Requires deps a x) : rank x ≤ rank a := by
  induction h with
  | refl a => exact Nat.le_refl _
  | step a b c hab _ ih => exact Nat.le_of_lt (Nat.lt_of_le_of_lt ih (hrank a b hab))

theorem requires_trans_step (deps : List (Str × List Str)) (a b c : Str)
    (hab : b ∈ requiredBy deps a) (hbc : Requires deps b c) : Requires deps a c :=
  .step a b c hab hbc

theorem before_append_right (order extra : List Str) (a b : Str) (h : Before order a b) :
    Before (order ++ extra) a b := by
  obtain ⟨front, back, horder, ha⟩ := h
  exact ⟨front, back ++ extra, by rw [horder]; simp only [List.append_assoc, List.cons_append],
    ha⟩

theorem before_append_left (order extra : List Str) (a b : Str) (h : Before order a b) :
    Before (extra ++ order) a b := by
  obtain ⟨front, back, horder, ha⟩ := h
  exact ⟨extra ++ front, back, by rw [horder]; simp only [List.append_assoc],
    List.mem_append_right _ ha⟩

theorem before_of_mem_append (left right : List Str) (a b : Str) (ha : a ∈ left)
    (hb : b ∈ right) : Before (left ++ right) a b := by
  obtain ⟨front, back, hsplit⟩ := List.append_of_mem hb
  exact ⟨left ++ front, back, by rw [hsplit]; simp only [List.append_assoc],
    List.mem_append_left _ ha⟩

theorem mem_of_before (order : List Str) (a b : Str) (h : Before order a b) : a ∈ order := by
  obtain ⟨front, back, horder, ha⟩ := h
  rw [horder]
  exact List.mem_append_left _ ha

/-- The loop of a visit over the requirements `ds` of `n`, started with the
emitted order `acc.1` and the visited set `acc.2`, under the assumption that
every visit below behaves: the visited set afterwards is the set `w` of the
start of the loop plus what is emitted, what is emitted is new and without
repetition, stems from the requirements of `n`, and has its own requirements
in `w` or before it. -/
theorem loop_spec (deps : List (Str × List Str)) (fuel : Nat) (n : Str) (w : List Str)
    (hvisit : ∀ d v, d ∈ requiredBy deps n →
      (∀ y, y ∈ (visit deps fuel d v).2 ↔ y ∈ v ∨ y ∈ (visit deps fuel d v).1) ∧
      (visit deps fuel d v).1.Nodup ∧ (∀ y ∈ (visit deps fuel d v).1, y ∉ v) ∧
      (∀ x ∈ (visit deps fuel d v).1, Requires deps d x) ∧
      (∀ x ∈ (visit deps fuel d v).1, ∀ r ∈ requiredBy deps x,
        r ∈ v ∨ Before (visit deps fuel d v).1 r x) ∧
      d ∈ (visit deps fuel d v).2)
    (ds : List Str) (hds : ∀ d ∈ ds, d ∈ requiredBy deps n) (acc : List Str × List Str)
    (ha : ∀ y, y ∈ acc.2 ↔ y ∈ w ∨ y ∈ acc.1)
    (hb : acc.1.Nodup) (hb2 : ∀ y ∈ acc.1, y ∉ w)
    (hc : ∀ x ∈ acc.1, ∃ d ∈ requiredBy deps n, Requires deps d x)
    (hd : ∀ x ∈ acc.1, ∀ r ∈ requiredBy deps x, r ∈ w ∨ Before acc.1 r x) :
    (∀ y, y ∈ (ds.foldl (fun acc dep =>
        ((acc.1 ++ (visit deps fuel dep acc.2).1), (visit deps fuel dep acc.2).2)) acc).2 ↔
      y ∈ w ∨ y ∈ (ds.foldl (fun acc dep =>
        ((acc.1 ++ (visit deps fuel dep acc.2).1), (visit deps fuel dep acc.2).2)) acc).1) ∧
    (ds.foldl (fun acc dep =>
        ((acc.1 ++ (visit deps fuel dep acc.2).1), (visit deps fuel dep acc.2).2)) acc).1.Nodup ∧
    (∀ y ∈ (ds.foldl (fun acc dep =>
        ((acc.1 ++ (visit deps fuel dep acc.2).1), (visit deps fuel dep acc.2).2)) acc).1,
      y ∉ w) ∧
    (∀ x ∈ (ds.foldl (fun acc dep =>
        ((acc.1 ++ (visit deps fuel dep acc.2).1), (visit deps fuel dep acc.2).2)) acc).1,
      ∃ d ∈ requiredBy deps n, Requires deps d x) ∧
    (∀ x ∈ (ds.foldl (fun acc dep =>
        ((acc.1 ++ (visit deps fuel dep acc.2).1), (visit deps fuel dep acc.2).2)) acc).1,
      ∀ r ∈ requiredBy deps x, r ∈ w ∨ Before (ds.foldl (fun acc dep =>
        ((acc.1 ++ (visit deps fuel dep acc.2).1), (visit deps fuel dep acc.2).2)) acc).1 r x) ∧
    (∀ y, y ∈ acc.2 ∨ y ∈ ds → y ∈ (ds.foldl (fun acc dep =>
        ((acc.1 ++ (visit deps fuel dep acc.2).1), (visit deps fuel dep acc.2).2)) acc).2) := by
  induction ds generalizing acc with
  | nil =>
    refine ⟨ha, hb, hb2, hc, hd, ?_⟩
    intro y hy
    rcases hy with h | h
    · exact h
    · simp at h
  | cons d rest ih =>
    obtain ⟨va, vb, vb2, vc, vd, ve⟩ := hvisit d acc.2 (hds d (List.mem_cons_self _ _))
    rw [List.foldl_cons]
    have hrec := ih (fun d1 h1 => hds d1 (List.mem_cons_of_mem _ h1))
      (acc.1 ++ (visit deps fuel d acc.2).1, (visit deps fuel d acc.2).2)
      (by
        intro y
        simp only [List.mem_append]
        rw [va y, ha y]
        exact or_assoc)
      (by
        simp only
        rw [List.nodup_append]
        refine ⟨hb, vb, ?_⟩
        intro y hy1 hy2
        exact vb2 y hy2 ((ha y).2 (Or.inr hy1)))
      (by
        intro y hy
        simp only [List.mem_append] at hy
        rcases hy with h | h
        · exact hb2 y h
        · exact fun hw => vb2 y h ((ha y).2 (Or.inl hw)))
      (by
        intro x hx
        simp only [List.mem_append] at hx
        rcases hx with h | h
        · exact hc x h
        · exact ⟨d, hds d (List.mem_cons_self _ _), vc x h⟩)
      (by
        intro x hx r hr
        simp only [List.mem_append] at hx
        simp only
        rcases hx with h | h
        · rcases hd x h r hr with h1 | h1
          · exact Or.inl h1
          · exact Or.inr (before_append_right _ _ _ _ h1)
        · rcases vd x h r hr with h1 | h1
          · rcases (ha r).1 h1 with h2 | h2
            · exact Or.inl h2
            · exact Or.inr (before_of_mem_append _ _ _ _ h2 h)
          · exact Or.inr (before_append_left _ _ _ _ h1))
    obtain ⟨ra, rb, rb2, rc, rd, re⟩ := hrec
    refine ⟨ra, rb, rb2, rc, rd, ?_⟩
    intro y hy
    apply re
    rcases hy with h | h
    · exact Or.inl ((va y).2 (Or.inl h))
    · rcases List.mem_cons.1 h with h1 | h1
      · left
        rw [h1]
        exact ve
      · exact Or.inr h1

/-- With fuel above the rank of `n`, a visit of `n` from the visited set `v`
adds to `v` exactly what it emits; what it emits is new, without repetition,
required by `n`, and has its own requirements in `v` or before it. -/
theorem visit_spec (deps : List (Str × List Str)) (rank : Str → Nat)
    (hrank : ∀ a b, b ∈ requiredBy deps a → rank b < rank a) (fuel : Nat) :
    ∀ n v, rank n < fuel →
      (∀ y, y ∈ (visit deps fuel n v).2 ↔ y ∈ v ∨ y ∈ (visit deps fuel n v).1) ∧
      (visit deps fuel n v).1.Nodup ∧ (∀ y ∈ (visit deps fuel n v).1, y ∉ v) ∧
      (∀ x ∈ (visit deps fuel n v).1, Requires deps n x) ∧
      (∀ x ∈ (visit deps fuel n v).1, ∀ r ∈ requiredBy deps x,
        r ∈ v ∨ Before (visit deps fuel n v).1 r x) ∧
      n ∈ (visit deps fuel n v).2 := by
  induction fuel with
  | zero =>
    intro n v h
    exact absurd h (Nat.not_lt_zero _)
  | succ fuel ih =>
    intro n v hfuel
    rw [visit_succ]
    by_cases hseen : n ∈ v
    · rw [if_pos hseen]
      refine ⟨fun y => by simp, List.nodup_nil, fun y hy => by simp at hy,
        fun x hx => by simp at hx, fun x hx => by simp at hx, hseen⟩
    · rw [if_neg hseen]
      obtain ⟨la, lb, lb2, lc, ld, le⟩ := loop_spec deps fuel n (n :: v)
        (fun d v1 hd => ih d v1 (by have := hrank n d hd; omega))
        (requiredBy deps n) (fun d hd => hd) ([], n :: v)
        (fun y => by simp) List.nodup_nil (fun y hy => by simp at hy)
        (fun x hx => by simp at hx) (fun x hx => by simp at hx)
      generalize (requiredBy deps n).foldl
        (fun acc dep =>
          ((acc.1 ++ (visit deps fuel dep acc.2).1), (visit deps fuel dep acc.2).2))
        ([], n :: v) = below at la lb lb2 lc ld le
      have hlow : ∀ x ∈ below.1, rank x < rank n := by
        intro x hx
        obtain ⟨d, hd, hreq⟩ := lc x hx
        exact Nat.lt_of_le_of_lt (requires_rank deps rank hrank d x hreq) (hrank n d hd)
      refine ⟨?_, ?_, ?_, ?_, ?_, ?_⟩
      · intro y
        simp only [List.mem_append, List.mem_singleton]
        rw [la y, List.mem_cons]
        constructor
        · rintro ((h | h) | h)
          · exact Or.inr (Or.inr h)
          · exact Or.inl h
          · exact Or.inr (Or.inl h)
        · rintro (h | h | h)
          · exact Or.inl (Or.inr h)
          · exact Or.inr h
          · exact Or.inl (Or.inl h)
      · simp only
        rw [List.nodup_append]
        refine ⟨lb, List.nodup_singleton n, ?_⟩
        intro y hy1 hy2
        rw [List.mem_singleton] at hy2
        exact lb2 y hy1 (hy2 ▸ List.mem_cons_self _ _)
      · intro y hy
        simp only [List.mem_append, List.mem_singleton] at hy
        rcases hy with h | h
        · exact fun hv => lb2 y h (List.mem_cons_of_mem _ hv)
        · rw [h]
          exact hseen
      · intro x hx
        simp only [List.mem_append, List.mem_singleton] at hx
        rcases hx with h | h
        · obtain ⟨d, hd, hreq⟩ := lc x h
          exact .step n d x hd hreq
        · rw [h]
          exact .refl n
      · intro x hx r hr
        simp only [List.mem_append, List.mem_singleton] at hx
        simp only
        rcases hx with h | h
        · rcases ld x h r hr with h1 | h1
          · rcases List.mem_cons.1 h1 with h2 | h2
            · exfalso
              have h3 := hrank x r hr
              have h4 := hlow x h
              rw [h2] at h3
              omega
            · exact Or.inl h2
          · exact Or.inr (before_append_right _ _ _ _ h1)
        · rw [h] at hr ⊢
          have hin : r ∈ below.2 := le r (Or.inr hr)
          rcases (la r).1 hin with h1 | h1
          · rcases List.mem_cons.1 h1 with h2 | h2
            · exfalso
              have h3 := hrank n r hr
              rw [h2] at h3
              omega
            · exact Or.inl h2
          · exact Or.inr ⟨below.1, [], rfl, h1⟩
      · exact le n (Or.inl (List.mem_cons_self _ _))

end Graph

/-- C6: for an acyclic dependency map and a target action, with enough fuel the
execution order that BuildDependencyStack gives from a fresh visited set
contains the target, contains every identifier the target transitively requires
and only such identifiers, contains none twice, and places every identifier
after the identifiers it requires. -/
theorem C6_order_is_topological (deps : List (Str × List Str)) (root : Str)
    (hacyclic : Graph.Acyclic deps) :
    ∃ enough, ∀ fuel, enough ≤ fuel →
      root ∈ Graph.BuildDependencyStack deps fuel root [] ∧
      (∀ x, Graph.Requires deps root x ↔ x ∈ Graph.BuildDependencyStack deps fuel root []) ∧
      (Graph.BuildDependencyStack deps fuel root []).Nodup ∧
      (∀ x ∈ Graph.BuildDependencyStack deps fuel root [], ∀ r ∈ Graph.requiredBy deps x,
        Graph.Before (Graph.BuildDependencyStack deps fuel root []) r x) := by
  obtain ⟨rank, hrank⟩ := hacyclic
  refine ⟨rank root + 1, fun fuel hfuel => ?_⟩
  obtain ⟨ha, hb, _, hc, hd, he⟩ := Graph.visit_spec deps rank hrank fuel root [] (by omega)
  unfold Graph.BuildDependencyStack
  have hroot : root ∈ (Graph.visit deps fuel root []).1 := by
    rcases (ha root).1 he with h | h
    · simp at h
    · exact h
  have hbefore : ∀ x ∈ (Graph.visit deps fuel root []).1, ∀ r ∈ Graph.requiredBy deps x,
      Graph.Before (Graph.visit deps fuel root []).1 r x := by
    intro x hx r hr
    rcases hd x hx r hr with h | h
    · simp at h
    · exact h
  refine ⟨hroot, ?_, hb, hbefore⟩
  intro x
  constructor
  · intro hreq
    have hclosed : ∀ a x, Graph.Requires deps a x → a ∈ (Graph.visit deps fuel root []).1 →
        x ∈ (Graph.visit deps fuel root []).1 := by
      intro a x h
      induction h with
      | refl a => exact fun h => h
      | step a b c hab _ ih =>
        intro hin
        exact ih (Graph.mem_of_before _ _ _ (hbefore a hin b hab))
    exact hclosed root x hreq hroot
  · exact hc x

end Kdeps

namespace Kdeps

namespace Graph

theorem catalog_acyclic : Acyclic Sample.catalog := by
  refine ⟨Sample.catalogRank, ?_⟩
  intro a b h
  unfold requiredBy Sample.catalog at h
  simp only [GoMap.mapGet] at h
  unfold Sample.catalogRank
  by_cases hA : "A".toList = a
  · rw [if_pos hA] at h
    simp at h
  · rw [if_neg hA] at h
    by_cases hB : "B".toList = a
    · rw [if_pos hB] at h
      simp only [Option.getD_some, List.mem_singleton] at h
      subst hB
      subst h
      decide
    · rw [if_neg hB] at h
      by_cases hC : "C".toList = a
      · rw [if_pos hC] at h
        simp only [Option.getD_some, List.mem_singleton] at h
        subst hC
        subst h
        decide
      · rw [if_neg hC] at h
        simp at h

end Graph

/-- C6 at the catalog `A: [], B: [A], C: [B]` with target `C`: the execution
order is `[A, B, C]`. -/
theorem C6_order_is_topological_witness :
    Graph.BuildDependencyStack Sample.catalog 8 "C".toList [] =
        ["A".toList, "B".toList, "C".toList] ∧
      ∃ enough, ∀ fuel, enough ≤ fuel →
        "C".toList ∈ Graph.BuildDependencyStack Sample.catalog fuel "C".toList [] ∧
        (∀ x, Graph.Requires Sample.catalog "C".toList x ↔
          x ∈ Graph.BuildDependencyStack Sample.catalog fuel "C".toList []) ∧
        (Graph.BuildDependencyStack Sample.catalog fuel "C".toList []).Nodup ∧
        (∀ x ∈ Graph.BuildDependencyStack Sample.catalog fuel "C".toList [],
          ∀ r ∈ Graph.requiredBy Sample.catalog x,
            Graph.Before (Graph.BuildDependencyStack Sample.catalog fuel "C".toList []) r x) :=
  ⟨by decide, C6_order_is_topological Sample.catalog "C".toList Graph.catalog_acyclic⟩

end Kdeps

/-! ## The injector of resolver.go: idempotence -/

namespace Kdeps

namespace Splice

/-- An occurrence of `l` in a text avoids a character that `l` does not hold. -/
theorem infix_split_at (l x y : Str) (c : Char) (hc : c ∉ l) (h : l <:+: x ++ c :: y) :
    l <:+: x ∨ l <:+: y := by
  have hhead : ∀ b : Str, b ≠ [] → b <+: c :: y → c ∈ b := by
    intro b hb hpre
    cases b with
    | nil => exact absurd rfl hb
    | cons d b1 =>
      rw [List.cons_prefix_cons] at hpre
      rw [hpre.1]
      exact List.mem_cons_self _ _
  rcases infix_append_cases l x (c :: y) h with h1 | h2 | ⟨a, b, hl, _, hb, _, hpre⟩
  · exact Or.inl h1
  · rcases List.infix_cons_iff.1 h2 with h3 | h3
    · by_cases hnil : l = []
      · rw [hnil]
        exact Or.inl (List.nil_infix)
      · exact absurd (hhead l hnil h3) hc
    · exact Or.inr h3
  · exfalso
    exact hc (hl ▸ List.mem_append_right a (hhead b hb hpre))

/-- A line that ends in its only newline and occurs in a text still occurs in
it after a batch is inserted behind a newline of the text. -/
theorem infix_insert_line_after_newline (l0 front mid back : Str)
    (hnl : '\n' ∉ l0) (hfront : ∃ p, front = p ++ ['\n'])
    (h : l0 ++ ['\n'] <:+: front ++ back) :
    l0 ++ ['\n'] <:+: front ++ mid ++ back := by
  rcases infix_append_cases _ front back h with h1 | h2 | ⟨a, b, hl, ha, hb, hsuf, _⟩
  · exact infix_insert_of_side _ front mid back (Or.inl h1)
  · exact infix_insert_of_side _ front mid back (Or.inr (Or.inl h2))
  · exfalso
    obtain ⟨p, hp⟩ := hfront
    rw [hp] at hsuf
    have hmem := last_of_suffix a p '\n' ha hsuf
    have hbsplit : b = b.dropLast ++ [b.getLast hb] := (List.dropLast_append_getLast hb).symm
    rw [hbsplit, ← List.append_assoc] at hl
    have hl0 := List.append_inj_left' hl rfl
    exact hnl (hl0 ▸ List.mem_append_left _ hmem)

end Splice

namespace Regexp

theorem braces_keep_head (fuel : Nat) (s l : Str) (hopen : '\x7b' ∉ l) (hpre : l <+: s) :
    l <+: replaceAux "\x7b\x7b".toList "\x7d\x7d".toList fuel s := by
  induction fuel generalizing s l with
  | zero =>
    unfold replaceAux
    exact hpre
  | succ n ih =>
    cases s with
    | nil =>
      unfold replaceAux
      exact hpre
    | cons c t =>
      unfold replaceAux
      cases l with
      | nil => exact List.nil_prefix
      | cons d l1 =>
        rw [List.cons_prefix_cons] at hpre
        obtain ⟨hd, htl⟩ := hpre
        cases hm : matchAt "\x7b\x7b".toList "\x7d\x7d".toList (c :: t) with
        | none =>
          simp only
          rw [List.cons_prefix_cons]
          exact ⟨hd, ih t l1 (fun h => hopen (List.mem_cons_of_mem _ h)) htl⟩
        | some ga =>
          exfalso
          obtain ⟨group, after⟩ := ga
          have hs := matchAt_some _ _ _ _ _ hm
          have hc : c = '\x7b' := by
            have := congrArg List.head? hs
            simpa using this
          exact hopen (hd ▸ hc ▸ List.mem_cons_self _ _)

/-- A text without braces that occurs in `s` occurs in `s` after the rewrite
of the double braces. -/
theorem braces_keep (fuel : Nat) (s l : Str) (hopen : '\x7b' ∉ l) (hclose : '\x7d' ∉ l)
    (hin : l <:+: s) : l <:+: replaceAux "\x7b\x7b".toList "\x7d\x7d".toList fuel s := by
  induction fuel generalizing s with
  | zero =>
    unfold replaceAux
    exact hin
  | succ n ih =>
    cases s with
    | nil =>
      unfold replaceAux
      exact hin
    | cons c t =>
      unfold replaceAux
      cases hm : matchAt "\x7b\x7b".toList "\x7d\x7d".toList (c :: t) with
      | none =>
        simp only
        rcases List.infix_cons_iff.1 hin with hpre | hin1
        · cases l with
          | nil => exact List.nil_infix
          | cons d l1 =>
            rw [List.cons_prefix_cons] at hpre
            have := braces_keep_head n t l1 (fun h => hopen (List.mem_cons_of_mem _ h)) hpre.2
            exact (List.cons_prefix_cons.2 ⟨hpre.1, this⟩).isInfix
        · exact List.infix_cons_iff.2 (Or.inr (ih t hin1))
      | some ga =>
        obtain ⟨group, after⟩ := ga
        simp only
        have hs := matchAt_some _ _ _ _ _ hm
        have hshape : c :: t = [] ++ '\x7b' :: ([] ++ '\x7b' ::
            (group ++ '\x7d' :: ([] ++ '\x7d' :: after))) := by
          rw [hs]
          simp only [String.toList, List.cons_append, List.nil_append, List.append_assoc]
        rw [hshape] at hin
        have hside : l <:+: group ∨ l <:+: after := by
          rcases Splice.infix_split_at l _ _ _ hopen hin with h1 | h1
          · exact Or.inl ((List.infix_nil.1 h1) ▸ List.nil_infix)
          · rcases Splice.infix_split_at l _ _ _ hopen h1 with h2 | h2
            · exact Or.inl ((List.infix_nil.1 h2) ▸ List.nil_infix)
            · rcases Splice.infix_split_at l _ _ _ hclose h2 with h3 | h3
              · exact Or.inl h3
              · rcases Splice.infix_split_at l _ _ _ hclose h3 with h4 | h4
                · exact Or.inl ((List.infix_nil.1 h4) ▸ List.nil_infix)
                · exact Or.inr h4
        rcases hside with h1 | h1
        · obtain ⟨u, v, huv⟩ := h1
          exact ⟨'\\' :: '(' :: u,
            v ++ ')' :: replaceAux "\x7b\x7b".toList "\x7d\x7d".toList n after,
            by rw [← huv]; simp only [List.cons_append, List.append_assoc]⟩
        · obtain ⟨u, v, huv⟩ := ih after h1
          exact ⟨'\\' :: '(' :: (group ++ ')' :: u), v,
            by rw [← huv]; simp only [List.cons_append, List.append_assoc]⟩

end Regexp

end Kdeps

namespace Kdeps

namespace GoMap

theorem mem_pairs_of_mem_mapLiteral {V : Type} (pairs : List (Str × V)) (e : Str × V)
    (he : e ∈ mapLiteral pairs) : e ∈ pairs := by
  obtain ⟨k, v⟩ := e
  have hget := mapGet_of_mem _ (keys_nodup_mapLiteral pairs) k v he
  rw [mapGet_mapLiteral] at hget
  rcases lastValue_cases k pairs none with ⟨h1, _⟩ | ⟨e1, he1, hk, hv⟩
  · rw [h1] at hget
    cases hget
  · rw [hv] at hget
    cases hget
    rw [← hk]
    exact he1

end GoMap

namespace Resolver

theorem collect_grows (fs : Fs) (content : Str) (entries : List (Str × Str))
    (acc : Str × Str) :
    acc.1 <+: (collect fs content entries acc).1 ∧ acc.2 <+: (collect fs content entries acc).2 := by
  induction entries generalizing acc with
  | nil => exact ⟨List.prefix_rfl, List.prefix_rfl⟩
  | cons e rest ih =>
    obtain ⟨file, varName⟩ := e
    obtain ⟨importFiles, localVariables⟩ := acc
    unfold collect
    by_cases hex : (Afero.Exists fs file).1 = true
    · rw [if_pos hex]
      simp only
      refine ⟨List.IsPrefix.trans ?_ (ih _).1, List.IsPrefix.trans ?_ (ih _).2⟩
      · simp only
        split_ifs
        · exact List.prefix_append _ _
        · exact List.prefix_rfl
      · simp only
        split_ifs
        · exact List.prefix_append _ _
        · exact List.prefix_rfl
        · exact List.prefix_rfl
    · rw [if_neg hex]
      exact ih _

/-- Every line that the loop finds missing ends up in its accumulators. -/
theorem collect_has_lines (fs : Fs) (content : Str) (entries : List (Str × Str))
    (acc : Str × Str) (e : Str × Str) (he : e ∈ entries)
    (hex : (Afero.Exists fs e.1).1 = true) :
    (Strings.Contains content (importLine e.1) = false →
      importLine e.1 <:+: (collect fs content entries acc).1) ∧
    (e.2 ≠ [] → Strings.Contains content (localVarLine e.2) = false →
      localVarLine e.2 <:+: (collect fs content entries acc).2) := by
  induction entries generalizing acc with
  | nil => simp at he
  | cons e1 rest ih =>
    obtain ⟨file, varName⟩ := e1
    obtain ⟨importFiles, localVariables⟩ := acc
    rcases List.mem_cons.1 he with heq | hin
    · subst heq
      unfold collect
      have hex1 : (Afero.Exists fs file).1 = true := hex
      rw [if_pos hex1]
      simp only
      constructor
      · intro hc
        have hc1 : Strings.Contains content (importLine file) = false := hc
        refine List.IsInfix.trans ?_ (collect_grows fs content rest _).1.isInfix
        simp only [hc1, Bool.not_false, if_true]
        exact ⟨importFiles, ['\n'], by simp only [List.append_assoc]⟩
      · intro hv hc
        have hv1 : varName ≠ [] := hv
        have hc1 : Strings.Contains content (localVarLine varName) = false := hc
        refine List.IsInfix.trans ?_ (collect_grows fs content rest _).2.isInfix
        simp only [hv1, ne_eq, not_false_eq_true, hc1, Bool.not_false, if_true]
        exact (List.suffix_append _ _).isInfix
    · unfold collect
      by_cases hex1 : (Afero.Exists fs file).1 = true
      · rw [if_pos hex1]
        exact ih _ hin
      · rw [if_neg hex1]
        exact ih _ hin

/-- The loop leaves both accumulators empty exactly when no line is missing. -/
theorem collect_nil_iff (fs : Fs) (content : Str) (entries : List (Str × Str)) :
    ((collect fs content entries ([], [])).1 = [] ∧
      (collect fs content entries ([], [])).2 = []) ↔
      ∀ e ∈ entries, (Afero.Exists fs e.1).1 = true →
        Strings.Contains content (importLine e.1) = true ∧
          (e.2 ≠ [] → Strings.Contains content (localVarLine e.2) = true) := by
  constructor
  · rintro ⟨h1, h2⟩ e he hex
    obtain ⟨hi, hv⟩ := collect_has_lines fs content entries ([], []) e he hex
    constructor
    · by_contra hc
      have := hi (by simpa using hc)
      rw [h1] at this
      have hnil := List.infix_nil.1 this
      simp [importLine] at hnil
    · intro hne
      by_contra hc
      have := hv hne (by simpa using hc)
      rw [h2] at this
      have hnil := List.infix_nil.1 this
      simp [localVarLine] at hnil
  · intro h
    induction entries with
    | nil => exact ⟨rfl, rfl⟩
    | cons e rest ih =>
      obtain ⟨file, varName⟩ := e
      unfold collect
      by_cases hex : (Afero.Exists fs file).1 = true
      · rw [if_pos hex]
        obtain ⟨hc1, hc2⟩ := h (file, varName) (List.mem_cons_self _ _) hex
        have hc1a : Strings.Contains content (importLine file) = true := hc1
        simp only [hc1a, Bool.not_true, Bool.false_eq_true, if_false]
        by_cases hv : varName = []
        · simp only [hv, ne_eq, not_true_eq_false, if_false]
          exact ih (fun e he => h e (List.mem_cons_of_mem _ he))
        · have hc2a : Strings.Contains content (localVarLine varName) = true := hc2 hv
          simp only [ne_eq, hv, not_false_eq_true, if_true, hc2a, Bool.not_true,
            Bool.false_eq_true, if_false]
          exact ih (fun e he => h e (List.mem_cons_of_mem _ he))
      · rw [if_neg hex]
        exact ih (fun e he => h e (List.mem_cons_of_mem _ he))

theorem collect_nil_order (fs : Fs) (content : Str) (m : List (Str × Str))
    (rank1 rank2 : Str → Nat) :
    ((collect fs content (GoMap.rangeOver rank1 m) ([], [])).1 = [] ∧
      (collect fs content (GoMap.rangeOver rank1 m) ([], [])).2 = []) ↔
    ((collect fs content (GoMap.rangeOver rank2 m) ([], [])).1 = [] ∧
      (collect fs content (GoMap.rangeOver rank2 m) ([], [])).2 = []) := by
  rw [collect_nil_iff, collect_nil_iff]
  simp only [GoMap.mem_rangeOver]

theorem collect_congr (fs1 fs2 : Fs) (content : Str) (entries : List (Str × Str))
    (acc : Str × Str) (h : ∀ q, Afero.Exists fs1 q = Afero.Exists fs2 q) :
    collect fs1 content entries acc = collect fs2 content entries acc := by
  induction entries generalizing acc with
  | nil => rfl
  | cons e rest ih =>
    obtain ⟨file, varName⟩ := e
    obtain ⟨importFiles, localVariables⟩ := acc
    unfold collect
    rw [h file]
    by_cases hex : (Afero.Exists fs2 file).1 = true
    · rw [if_pos hex, if_pos hex]
      exact ih _
    · rw [if_neg hex, if_neg hex]
      exact ih _

/-- The local variable lines of the map: one newline, at the end, and no brace. -/
theorem localVarLine_shape (dr : DependencyResolver) (e : Str × Str)
    (he : e ∈ importCheck dr) (hv : e.2 ≠ []) :
    ∃ l0, localVarLine e.2 = l0 ++ ['\n'] ∧ '\n' ∉ l0 ∧
      '\x7b' ∉ localVarLine e.2 ∧ '\x7d' ∉ localVarLine e.2 := by
  obtain ⟨k, v⟩ := e
  have hmem := GoMap.mem_pairs_of_mem_mapLiteral _ (k, v) he
  simp only [List.mem_cons, List.mem_singleton, List.not_mem_nil, or_false,
    Prod.mk.injEq] at hmem
  simp only at hv ⊢
  rcases hmem with ⟨_, h⟩ | ⟨_, h⟩ | ⟨_, h⟩
  · exact absurd h hv
  · rw [h]
    exact ⟨"local llm = llm_responses".toList, by decide, by decide, by decide, by decide⟩
  · rw [h]
    exact ⟨"local client = client_responses".toList, by decide, by decide, by decide, by decide⟩

end Resolver

end Kdeps

namespace Kdeps

namespace Resolver

/-- The result of the PrependDynamicImports of resolver.go, by cases. -/
theorem injected_by_collect (dr : DependencyResolver) (rank : Str → Nat) (res : ResourceNodeEntry)
    (content : Str) (hread : Afero.ReadFile dr.Fs res.File = .ok content) :
    PrependDynamicImports dr rank res =
      if (collect dr.Fs content (GoMap.rangeOver rank (importCheck dr)) ([], [])).1 ≠ [] ∨
          (collect dr.Fs content (GoMap.rangeOver rank (importCheck dr)) ([], [])).2 ≠ [] then
        if Strings.Index content Imports.amends ≠ -1 then
          match Afero.WriteFile dr.Fs res.File
            (spliced content
              ((collect dr.Fs content (GoMap.rangeOver rank (importCheck dr)) ([], [])).1 ++
                (['\n'] ++
                  (collect dr.Fs content (GoMap.rangeOver rank (importCheck dr)) ([], [])).2 ++
                  ['\n']))
              (Strings.Index content Imports.amends)) with
          | .error err => (some err, dr.Fs)
          | .ok fs => (none, fs)
        else (none, dr.Fs)
      else (none, dr.Fs) := by
  unfold PrependDynamicImports
  rw [hread]

theorem spliced_braces_with_newline (contentStr importFiles : Str) (i j : Nat)
    (hj : Strings.indexOf (contentStr.drop i) ['\n'] = some j) :
    spliced contentStr importFiles (i : Int) =
        Regexp.ReplaceAllString "\x7b\x7b".toList "\x7d\x7d".toList
          (contentStr.take (i + j + 1) ++ importFiles ++ contentStr.drop (i + j + 1)) := by
  unfold spliced Strings.sliceFrom Strings.sliceTo
  simp only [Int.toNat_ofNat]
  rw [Imports.index_of_indexOf _ _ _ hj]
  have he : ((j : Int) + (i : Int) + 1).toNat = i + j + 1 := by omega
  rw [he]

/-- Where a newline follows the keyword, a line without braces that is in the
text or in the batch, and whose only newline (if any) is its last character,
occurs in the text that is written. -/
theorem line_kept (contentStr batch l : Str) (i j : Nat)
    (hj : Strings.indexOf (contentStr.drop i) ['\n'] = some j)
    (hopen : '\x7b' ∉ l) (hclose : '\x7d' ∉ l)
    (hshape : '\n' ∉ l ∨ ∃ l0, l = l0 ++ ['\n'] ∧ '\n' ∉ l0)
    (hin : l <:+: contentStr ∨ l <:+: batch) :
    l <:+: spliced contentStr batch (i : Int) := by
  rw [spliced_braces_with_newline contentStr batch i j hj]
  apply Regexp.braces_keep _ _ _ hopen hclose
  obtain ⟨_, hfront⟩ := Imports.spliced_with_newline contentStr batch i j hj
  rcases hin with h | h
  · rw [← List.take_append_drop (i + j + 1) contentStr] at h
    rcases hshape with hnl | ⟨l0, hl, hnl⟩
    · exact Splice.infix_insert_after_newline _ _ _ _ hnl hfront h
    · rw [hl] at h ⊢
      exact Splice.infix_insert_line_after_newline _ _ _ _ hnl hfront h
  · exact Splice.infix_insert_of_side _ _ _ _ (Or.inr (Or.inr h))

/-- Idempotence of the PrependDynamicImports of resolver.go. -/
theorem collect_injection_idempotent (dr : DependencyResolver) (rank1 rank2 : Str → Nat)
    (res : ResourceNodeEntry) (content : Str)
    (hread : Afero.ReadFile dr.Fs res.File = .ok content)
    (hheader : Strings.Contains content Imports.amends = true →
      Strings.Contains
        (Strings.sliceFrom content (Strings.Index content Imports.amends)) ['\n'] = true)
    (hlines : ∀ e ∈ importCheck dr,
      '\n' ∉ importLine e.1 ∧ '\x7b' ∉ importLine e.1 ∧ '\x7d' ∉ importLine e.1) :
    (PrependDynamicImports { dr with Fs := (PrependDynamicImports dr rank1 res).2 }
        rank2 res).2 = (PrependDynamicImports dr rank1 res).2 := by
  have hres := injected_by_collect dr rank1 res content hread
  have hres2 := injected_by_collect dr rank2 res content hread
  by_cases hb : (collect dr.Fs content (GoMap.rangeOver rank1 (importCheck dr)) ([], [])).1 ≠ [] ∨
      (collect dr.Fs content (GoMap.rangeOver rank1 (importCheck dr)) ([], [])).2 ≠ []
  · have hb2 : (collect dr.Fs content (GoMap.rangeOver rank2 (importCheck dr)) ([], [])).1 ≠ [] ∨
        (collect dr.Fs content (GoMap.rangeOver rank2 (importCheck dr)) ([], [])).2 ≠ [] := by
      by_contra hcon
      rw [not_or, not_not, not_not] at hcon
      have := (collect_nil_order dr.Fs content (importCheck dr) rank1 rank2).2 hcon
      rcases hb with h | h
      · exact h this.1
      · exact h this.2
    rw [if_pos hb] at hres
    rw [if_pos hb2] at hres2
    by_cases hidx : Strings.Index content Imports.amends ≠ -1
    · rw [if_pos hidx] at hres hres2
      obtain ⟨i, hi⟩ := Imports.indexOf_of_index_ne _ _ hidx
      have hI := Imports.index_of_indexOf _ _ _ hi
      cases hw : Afero.WriteFile dr.Fs res.File
          (spliced content
            ((collect dr.Fs content (GoMap.rangeOver rank1 (importCheck dr)) ([], [])).1 ++
              (['\n'] ++
                (collect dr.Fs content (GoMap.rangeOver rank1 (importCheck dr)) ([], [])).2 ++
                ['\n']))
            (Strings.Index content Imports.amends)) with
      | error err =>
        rw [hw] at hres
        rw [Imports.write_fails_always _ _ _ _ _ hw] at hres2
        rw [hres]
        simp only
        rw [hres2]
      | ok fs1 =>
        rw [hw] at hres
        rw [hres]
        simp only
        have hcont : Strings.Contains content Imports.amends = true := by
          rw [Strings.contains_iff]
          by_contra hno
          exact hidx ((Strings.index_eq_neg_one_iff _ _).2 hno)
        have hnl := hheader hcont
        rw [hI] at hnl hw
        obtain ⟨j, hj⟩ := Imports.indexOf_of_contains _ _ hnl
        have hj2 : Strings.indexOf (content.drop i) ['\n'] = some j := hj
        have hthere : (Afero.lookup dr.Fs res.File).isSome = true := by
          rw [(Afero.readFile_ok_iff _ _ _).1 hread]
          rfl
        have hread1 := (Afero.readFile_ok_iff _ _ _).2 (Afero.lookup_after_write _ _ _ _ hw)
        have hres3 := injected_by_collect { dr with Fs := fs1 } rank2 res _ hread1
        have hsame : ∀ q, Afero.Exists fs1 q = Afero.Exists dr.Fs q :=
          Afero.exists_after_write _ _ _ _ hw hthere
        have hempty := (collect_nil_iff fs1
          (spliced content
            ((collect dr.Fs content (GoMap.rangeOver rank1 (importCheck dr)) ([], [])).1 ++
              (['\n'] ++
                (collect dr.Fs content (GoMap.rangeOver rank1 (importCheck dr)) ([], [])).2 ++
                ['\n'])) (i : Int))
          (GoMap.rangeOver rank2 (importCheck dr))).2 (by
            intro e he hex
            rw [GoMap.mem_rangeOver] at he
            rw [hsame] at hex
            obtain ⟨hi1, hv1⟩ := collect_has_lines dr.Fs content
              (GoMap.rangeOver rank1 (importCheck dr)) ([], []) e
              ((GoMap.mem_rangeOver _ _ _).2 he) hex
            obtain ⟨hnl1, hopen1, hclose1⟩ := hlines e he
            constructor
            · rw [Strings.contains_iff]
              apply line_kept content _ _ i j hj2 hopen1 hclose1 (Or.inl hnl1)
              by_cases hc : Strings.Contains content (importLine e.1) = true
              · exact Or.inl ((Strings.contains_iff _ _).1 hc)
              · right
                exact (hi1 (by simpa using hc)).trans
                  (List.prefix_append _ _).isInfix
            · intro hne
              obtain ⟨l0, hl0, hnl0, hopen0, hclose0⟩ := localVarLine_shape dr e he hne
              rw [Strings.contains_iff]
              apply line_kept content _ _ i j hj2 hopen0 hclose0 (Or.inr ⟨l0, hl0, hnl0⟩)
              by_cases hc : Strings.Contains content (localVarLine e.2) = true
              · exact Or.inl ((Strings.contains_iff _ _).1 hc)
              · right
                obtain ⟨u, v, huv⟩ := hv1 hne (by simpa using hc)
                exact ⟨(collect dr.Fs content (GoMap.rangeOver rank1 (importCheck dr))
                  ([], [])).1 ++ ['\n'] ++ u, v ++ ['\n'],
                  by rw [← huv]; simp only [List.append_assoc]⟩)
        have hnot : ¬ ((collect fs1
            (spliced content
              ((collect dr.Fs content (GoMap.rangeOver rank1 (importCheck dr)) ([], [])).1 ++
                (['\n'] ++
                  (collect dr.Fs content (GoMap.rangeOver rank1 (importCheck dr)) ([], [])).2 ++
                  ['\n'])) (i : Int))
            (GoMap.rangeOver rank2 (importCheck dr)) ([], [])).1 ≠ [] ∨
          (collect fs1
            (spliced content
              ((collect dr.Fs content (GoMap.rangeOver rank1 (importCheck dr)) ([], [])).1 ++
                (['\n'] ++
                  (collect dr.Fs content (GoMap.rangeOver rank1 (importCheck dr)) ([], [])).2 ++
                  ['\n'])) (i : Int))
            (GoMap.rangeOver rank2 (importCheck dr)) ([], [])).2 ≠ []) := by
          rw [not_or, not_not, not_not]
          exact hempty
        have hfin := hres3.trans (if_neg hnot)
        rw [hfin]
    · rw [if_neg hidx] at hres hres2
      rw [hres]
      simp only
      rw [hres2]
  · have hb2 : ¬ ((collect dr.Fs content (GoMap.rangeOver rank2 (importCheck dr)) ([], [])).1 ≠ [] ∨
        (collect dr.Fs content (GoMap.rangeOver rank2 (importCheck dr)) ([], [])).2 ≠ []) := by
      rw [not_or, not_not, not_not] at hb ⊢
      exact (collect_nil_order dr.Fs content (importCheck dr) rank1 rank2).1 hb
    rw [if_neg hb] at hres
    rw [if_neg hb2] at hres2
    rw [hres]
    simp only
    rw [hres2]

end Resolver

end Kdeps

namespace Kdeps

/-- C1, as amended: for a definition text in which a newline follows the first
`amends` (or that has no `amends`), and when no candidate line of importCheck
contains a newline or a placeholder that the rewrite of the version changes
(`@(` or a final `@` for imports.go, a brace for resolver.go), applying
PrependDynamicImports a second time, under any iteration order of the map,
leaves the file system as the first application left it; this holds for the
PrependDynamicImports of imports.go and for the one of resolver.go. -/
theorem C1_injection_idempotent (dr : DependencyResolver) (rank1 rank2 : Str → Nat)
    (res : ResourceNodeEntry) (contentStr : Str)
    (hread : Afero.ReadFile dr.Fs res.File = .ok contentStr)
    (hheader : Strings.Contains contentStr Imports.amends = true →
      Strings.Contains
        (Strings.sliceFrom contentStr (Strings.Index contentStr Imports.amends)) ['\n'] = true)
    (hlines : ∀ e ∈ Imports.importCheck dr,
      '\n' ∉ Imports.generateImportLine e.1 e.2.Alias ∧
        Regexp.placeholderFree (Imports.generateImportLine e.1 e.2.Alias) = true)
    (hlinesOld : ∀ e ∈ Resolver.importCheck dr,
      '\n' ∉ Resolver.importLine e.1 ∧ '\x7b' ∉ Resolver.importLine e.1 ∧
        '\x7d' ∉ Resolver.importLine e.1) :
    (Imports.PrependDynamicImports
        { dr with Fs := (Imports.PrependDynamicImports dr rank1 res.File).2 } rank2 res.File).2 =
      (Imports.PrependDynamicImports dr rank1 res.File).2 ∧
    (Resolver.PrependDynamicImports
        { dr with Fs := (Resolver.PrependDynamicImports dr rank1 res).2 } rank2 res).2 =
      (Resolver.PrependDynamicImports dr rank1 res).2 :=
  ⟨Imports.injection_idempotent dr rank1 rank2 res.File contentStr hread hheader hlines,
    Resolver.collect_injection_idempotent dr rank1 rank2 res contentStr hread hheader hlinesOld⟩

set_option maxRecDepth 1000000 in
/-- C1 at a text with header line, with the request descriptor present: the
second application of either version changes nothing. -/
theorem C1_injection_idempotent_witness :
    (Imports.PrependDynamicImports
        { Sample.resolver (Sample.fsWithRequest Sample.headed) with
          Fs := (Imports.PrependDynamicImports
            (Sample.resolver (Sample.fsWithRequest Sample.headed))
            Sample.anyRank Sample.defFile).2 }
        (fun k => k.length) Sample.defFile).2 =
      (Imports.PrependDynamicImports (Sample.resolver (Sample.fsWithRequest Sample.headed))
        Sample.anyRank Sample.defFile).2 ∧
    (Resolver.PrependDynamicImports
        { Sample.resolver (Sample.fsWithRequest Sample.headed) with
          Fs := (Resolver.PrependDynamicImports
            (Sample.resolver (Sample.fsWithRequest Sample.headed))
            Sample.anyRank Sample.entryC).2 }
        (fun k => k.length) Sample.entryC).2 =
      (Resolver.PrependDynamicImports (Sample.resolver (Sample.fsWithRequest Sample.headed))
        Sample.anyRank Sample.entryC).2 :=
  C1_injection_idempotent (Sample.resolver (Sample.fsWithRequest Sample.headed)) Sample.anyRank
    (fun k => k.length) Sample.entryC Sample.headed rfl (fun _ => by decide) (by decide)
    (by decide)

set_option maxRecDepth 1000000 in
/-- C1 as stated fails: a second application of PrependDynamicImports changes
the file (1) for a text without newline in which a candidate line runs into the
keyword, (2) when the action directory has a name of the shape of a
placeholder, (3) when the action directory has a newline in its name, and (4),
for the version of resolver.go, when the action directory has a name with
double braces. -/
theorem C1_second_application_changes_file :
    (Imports.PrependDynamicImports
        { Sample.overlappingResolver with
          Fs := (Imports.PrependDynamicImports Sample.overlappingResolver
            Sample.anyRank Sample.defFile).2 } Sample.anyRank Sample.defFile).2 ≠
      (Imports.PrependDynamicImports Sample.overlappingResolver
        Sample.anyRank Sample.defFile).2 ∧
    (Imports.PrependDynamicImports
        { Sample.placeholderResolver with
          Fs := (Imports.PrependDynamicImports Sample.placeholderResolver
            Sample.anyRank Sample.defFile).2 } Sample.anyRank Sample.defFile).2 ≠
      (Imports.PrependDynamicImports Sample.placeholderResolver
        Sample.anyRank Sample.defFile).2 ∧
    (Imports.PrependDynamicImports
        { Sample.brokenResolver with
          Fs := (Imports.PrependDynamicImports Sample.brokenResolver
            Sample.anyRank Sample.defFile).2 } Sample.anyRank Sample.defFile).2 ≠
      (Imports.PrependDynamicImports Sample.brokenResolver
        Sample.anyRank Sample.defFile).2 ∧
    (Resolver.PrependDynamicImports
        { Sample.bracesResolver with
          Fs := (Resolver.PrependDynamicImports Sample.bracesResolver
            Sample.anyRank Sample.entryC).2 } Sample.anyRank Sample.entryC).2 ≠
      (Resolver.PrependDynamicImports Sample.bracesResolver
        Sample.anyRank Sample.entryC).2 := by
  decide

end Kdeps

namespace Kdeps

namespace Resolver

theorem runResource_calls (c : Collaborators) (rank : Str → Nat) (dr : DependencyResolver)
    (res : ResourceNodeEntry) (h : (runResource c rank dr res).1 = none) :
    (runResource c rank dr res).2.2.map (fun s => (s.res, s.call)) =
      [(res, .inject), (res, .evaluate)] := by
  unfold runResource at h ⊢
  cases hp : PrependDynamicImports dr rank res with
  | mk err fs1 =>
    rw [hp] at h
    cases err with
    | some e => cases h
    | none =>
      simp only at h ⊢
      cases hl : c.LoadFromPath fs1 res.File with
      | mk err2 fs2 =>
        rw [hl] at h
        cases err2 with
        | some e => cases h
        | none => rfl

theorem runNode_calls (c : Collaborators) (rank : Str → Nat) (resNode : Str)
    (resources : List ResourceNodeEntry) (dr : DependencyResolver)
    (h : (runNode c rank resNode resources dr).1 = none) :
    (runNode c rank resNode resources dr).2.2.map (fun s => (s.res, s.call)) =
      (resources.filter (fun r => r.Id = resNode)).flatMap
        (fun r => [(r, Call.inject), (r, Call.evaluate)]) := by
  induction resources generalizing dr with
  | nil => rfl
  | cons res rest ih =>
    unfold runNode at h ⊢
    by_cases hid : res.Id = resNode
    · rw [if_pos hid] at h ⊢
      have hfilter : (res :: rest).filter (fun r => r.Id = resNode) =
          res :: rest.filter (fun r => r.Id = resNode) := by
        rw [List.filter_cons]
        simp [hid]
      rw [hfilter]
      have hcalls := runResource_calls c rank dr res
      cases hr : runResource c rank dr res with
      | mk err rest1 =>
        obtain ⟨dr1, steps⟩ := rest1
        rw [hr] at h hcalls
        cases err with
        | some e => cases h
        | none =>
          simp only at h ⊢
          rw [List.map_append, hcalls rfl, ih dr1 h]
          rfl
    · rw [if_neg hid] at h ⊢
      have hfilter : (res :: rest).filter (fun r => r.Id = resNode) =
          rest.filter (fun r => r.Id = resNode) := by
        rw [List.filter_cons]
        simp [hid]
      rw [hfilter]
      exact ih dr h

/-- The calls of a run that ends without error: for each identifier of the
execution order in turn, an injection and an evaluation of every catalog entry
with that identifier. -/
theorem runStack_calls (c : Collaborators) (rank : Str → Nat)
    (resources : List ResourceNodeEntry) (stack : List Str) (dr : DependencyResolver)
    (h : (runStack c rank resources stack dr).1 = none) :
    (runStack c rank resources stack dr).2.2.map (fun s => (s.res, s.call)) =
      stack.flatMap (fun resNode =>
        (resources.filter (fun r => r.Id = resNode)).flatMap
          (fun r => [(r, Call.inject), (r, Call.evaluate)])) := by
  induction stack generalizing dr with
  | nil => rfl
  | cons resNode rest ih =>
    unfold runStack at h ⊢
    have hcalls := runNode_calls c rank resNode resources dr
    cases hr : runNode c rank resNode resources dr with
    | mk err rest1 =>
      obtain ⟨dr1, steps⟩ := rest1
      rw [hr] at h hcalls
      cases err with
      | some e => cases h
      | none =>
        simp only at h ⊢
        rw [List.map_append, hcalls rfl, ih dr1 h]
        rfl

/-- On a catalog slice that lists every identifier of the order once, a run
that ends without error injects and evaluates the identifiers of the execution
order, each once and in that order. -/
theorem runStack_follows_order (c : Collaborators) (rank : Str → Nat)
    (resources : List ResourceNodeEntry) (stack : List Str) (dr : DependencyResolver)
    (hone : ∀ resNode ∈ stack, ∃ r, resources.filter (fun r => r.Id = resNode) = [r])
    (h : (runStack c rank resources stack dr).1 = none) :
    (runStack c rank resources stack dr).2.2.map (fun s => (s.res.Id, s.call)) =
      stack.flatMap (fun resNode => [(resNode, Call.inject), (resNode, Call.evaluate)]) := by
  have hcalls := runStack_calls c rank resources stack dr h
  have hmap : (runStack c rank resources stack dr).2.2.map (fun s => (s.res.Id, s.call)) =
      ((runStack c rank resources stack dr).2.2.map (fun s => (s.res, s.call))).map
        (fun p => (p.1.Id, p.2)) := by
    rw [List.map_map]
    rfl
  rw [hmap, hcalls]
  clear hcalls hmap h
  induction stack with
  | nil => rfl
  | cons resNode rest ih =>
    obtain ⟨r, hr⟩ := hone resNode (List.mem_cons_self _ _)
    have hid : r.Id = resNode := by
      have hmem : r ∈ resources.filter (fun r => r.Id = resNode) := by
        rw [hr]
        exact List.mem_singleton_self r
      simpa using (List.mem_filter.1 hmem).2
    simp only [List.flatMap_cons, List.map_append, hr, List.flatMap_nil, List.append_nil,
      List.map_cons, List.map_nil, hid]
    rw [ih (fun n hn => hone n (List.mem_cons_of_mem _ hn))]

end Resolver

end Kdeps

/-! ## Response format detection: no sentinel -/

namespace Kdeps

namespace Resolver

theorem scanFlags_fs (dr : DependencyResolver) (rows : List (Str × Str × Str)) :
    (scanFlags dr rows).1.Fs = dr.Fs := by
  induction rows generalizing dr with
  | nil => rfl
  | cons e rest ih =>
    obtain ⟨flag, ext, format⟩ := e
    unfold scanFlags
    simp only
    cases hx : Afero.Exists dr.Fs (flagPath dr flag) with
    | mk found err =>
      cases err with
      | some msg => cases found <;> rfl
      | none =>
        cases found with
        | true => rfl
        | false => exact ih _

theorem scanFlags_absent (dr : DependencyResolver) (rows : List (Str × Str × Str))
    (habsent : ∀ e ∈ rows, Afero.Exists dr.Fs (flagPath dr e.1) = (false, none)) :
    (scanFlags dr rows).2 =
      some ("no valid response flag file found in " ++ String.mk dr.ActionDir) := by
  induction rows generalizing dr with
  | nil => rfl
  | cons e rest ih =>
    obtain ⟨flag, ext, format⟩ := e
    unfold scanFlags
    simp only
    have h : Afero.Exists dr.Fs (flagPath dr flag) = (false, none) :=
      habsent (flag, ext, format) (List.mem_cons_self _ _)
    rw [h]
    exact ih { dr with ResponseFlag := flagPath dr flag }
      (fun e he => habsent e (List.mem_cons_of_mem _ he))

/-- When no existence check fails, the scan returns nil exactly when one of
the sentinels of its rows is present. -/
theorem scanFlags_nil_iff (dr : DependencyResolver) (rows : List (Str × Str × Str))
    (hchecks : ∀ e ∈ rows, (Afero.Exists dr.Fs (flagPath dr e.1)).2 = none) :
    (scanFlags dr rows).2 = none ↔
      ∃ e ∈ rows, (Afero.Exists dr.Fs (flagPath dr e.1)).1 = true := by
  induction rows generalizing dr with
  | nil => simp [scanFlags]
  | cons e rest ih =>
    obtain ⟨flag, ext, format⟩ := e
    have hc := hchecks (flag, ext, format) (List.mem_cons_self _ _)
    unfold scanFlags
    simp only
    cases hx : Afero.Exists dr.Fs (flagPath dr flag) with
    | mk found err =>
      rw [hx] at hc
      simp only at hc
      subst hc
      cases found with
      | true =>
        simp only [true_iff]
        exact ⟨(flag, ext, format), List.mem_cons_self _ _, by rw [hx]⟩
      | false =>
        simp only
        have hrec := ih { dr with ResponseFlag := flagPath dr flag }
          (fun e he => hchecks e (List.mem_cons_of_mem _ he))
        rw [hrec]
        constructor
        · rintro ⟨e, he, hf⟩
          exact ⟨e, List.mem_cons_of_mem _ he, hf⟩
        · rintro ⟨e, he, hf⟩
          rcases List.mem_cons.1 he with heq | hin
          · subst heq
            rw [hx] at hf
            cases hf
          · exact ⟨e, hin, hf⟩

end Resolver

/-- C11: provided no existence check fails, GetResponseFlag returns the error
`no valid response flag file found in <actionDir>` when none of the seven
sentinels exists under `<actionDir>/api`, it returns nil exactly when at least
one of them exists, and in every case it leaves the file system as it found
it. -/
theorem C11_no_sentinel_is_an_error (dr : DependencyResolver)
    (hchecks : ∀ e ∈ Resolver.responseFiles,
      (Afero.Exists dr.Fs (Resolver.flagPath dr e.1)).2 = none) :
    ((∀ e ∈ Resolver.responseFiles,
        (Afero.Exists dr.Fs (Resolver.flagPath dr e.1)).1 = false) →
      ∃ rest, (Resolver.GetResponseFlag dr).2 =
          some ("no valid response flag file found" ++ rest) ∧
        rest = " in " ++ String.mk dr.ActionDir) ∧
    (Resolver.GetResponseFlag dr).1.Fs = dr.Fs ∧
    ((Resolver.GetResponseFlag dr).2 = none ↔
      ∃ e ∈ Resolver.responseFiles,
        (Afero.Exists dr.Fs (Resolver.flagPath dr e.1)).1 = true) := by
  refine ⟨fun hnone => ?_, Resolver.scanFlags_fs dr _, Resolver.scanFlags_nil_iff dr _ hchecks⟩
  refine ⟨" in " ++ String.mk dr.ActionDir, ?_, rfl⟩
  unfold Resolver.GetResponseFlag
  rw [Resolver.scanFlags_absent dr _ (fun e he => Prod.ext (hnone e he) (hchecks e he))]
  rw [← String.append_assoc]
  rfl

set_option maxRecDepth 1000000 in
/-- C11 at a file system without any sentinel. -/
theorem C11_no_sentinel_is_an_error_witness :
    ((∀ e ∈ Resolver.responseFiles,
        (Afero.Exists (Sample.resolver ⟨[], [], false⟩).Fs
          (Resolver.flagPath (Sample.resolver ⟨[], [], false⟩) e.1)).1 = false) →
      ∃ rest, (Resolver.GetResponseFlag (Sample.resolver ⟨[], [], false⟩)).2 =
          some ("no valid response flag file found" ++ rest) ∧
        rest = " in " ++ String.mk (Sample.resolver ⟨[], [], false⟩).ActionDir) ∧
    (Resolver.GetResponseFlag (Sample.resolver ⟨[], [], false⟩)).1.Fs =
      (Sample.resolver ⟨[], [], false⟩).Fs ∧
    ((Resolver.GetResponseFlag (Sample.resolver ⟨[], [], false⟩)).2 = none ↔
      ∃ e ∈ Resolver.responseFiles,
        (Afero.Exists (Sample.resolver ⟨[], [], false⟩).Fs
          (Resolver.flagPath (Sample.resolver ⟨[], [], false⟩) e.1)).1 = true) :=
  C11_no_sentinel_is_an_error (Sample.resolver ⟨[], [], false⟩) (by decide)

end Kdeps

/-! ## Completion watcher: the timestamp wait -/

namespace Kdeps

namespace Timestamps

theorem mapGet_files (dr : DependencyResolver) (resourceType : Str) :
    GoMap.mapGet (files dr) resourceType =
      if "exec".toList = resourceType then
        some (Filepath.Join [dr.ActionDir, "exec".toList,
          dr.RequestId ++ "__exec_output.pkl".toList])
      else if "client".toList = resourceType then
        some (Filepath.Join [dr.ActionDir, "client".toList,
          dr.RequestId ++ "__client_output.pkl".toList])
      else if "llm".toList = resourceType then
        some (Filepath.Join [dr.ActionDir, "llm".toList,
          dr.RequestId ++ "__llm_output.pkl".toList])
      else none := by
  unfold files
  rw [GoMap.mapGet_mapLiteral]
  simp only [GoMap.lastValue, List.foldl_cons, List.foldl_nil]

/-- A resource type for which getResourceFilePath gives a path is one that
loadPKLFile hands to a loader. -/
theorem load_of_path (dr : DependencyResolver) (resourceType pklPath : Str)
    (loaded : PklResult × Option Str)
    (hpath : getResourceFilePath dr resourceType = .ok pklPath) :
    loadPKLFile resourceType loaded = loaded := by
  unfold getResourceFilePath at hpath
  rw [mapGet_files] at hpath
  unfold loadPKLFile
  by_cases h1 : "exec".toList = resourceType
  · rw [if_pos h1.symm]
  · by_cases h2 : "client".toList = resourceType
    · rw [if_neg (fun h => h1 h.symm)]
      by_cases h3 : resourceType = "llm".toList
      · rw [if_pos h3]
      · rw [if_neg h3, if_pos h2.symm]
    · by_cases h3 : "llm".toList = resourceType
      · rw [if_neg (fun h => h1 h.symm), if_pos h3.symm]
      · rw [if_neg h1, if_neg h2, if_neg h3] at hpath
        cases hpath

theorem waitLoop_cons (resourceId : Str) (previousTimestamp : Nat) (timeout : Int)
    (resourceType : Str) (poll : Poll) (rest : List Poll) :
    waitLoop resourceId previousTimestamp timeout resourceType (poll :: rest) =
      if timeout > 0 ∧ poll.elapsed > timeout then .returned (some (timeoutError resourceId))
      else
        match loadPKLFile resourceType poll.loaded with
        | (_, some err) =>
          .returned (some ("failed to reload ".toList ++ resourceType ++
            " PKL file: ".toList ++ err))
        | (pklRes, none) =>
          match getResourceTimestamp resourceId pklRes with
          | .error err => .returned (some err)
          | .ok timestamp =>
            if timestamp ≠ previousTimestamp then .returned none
            else waitLoop resourceId previousTimestamp timeout resourceType rest := by
  rfl

/-- Cycles that let the loop go on are skipped. -/
theorem waitLoop_skips_quiet (dr : DependencyResolver) (resourceId : Str)
    (previousTimestamp : Nat) (timeout : Int) (resourceType pklPath : Str)
    (hpath : getResourceFilePath dr resourceType = .ok pklPath)
    (front rest : List Poll)
    (hquiet : ∀ q ∈ front, quiet resourceId previousTimestamp timeout q) :
    waitLoop resourceId previousTimestamp timeout resourceType (front ++ rest) =
      waitLoop resourceId previousTimestamp timeout resourceType rest := by
  induction front with
  | nil => rfl
  | cons q tail ih =>
    obtain ⟨hdead, hload, hts⟩ := hquiet q (List.mem_cons_self _ _)
    rw [List.cons_append, waitLoop_cons]
    rw [if_neg hdead, load_of_path dr resourceType pklPath q.loaded hpath]
    obtain ⟨elapsed, pklRes, err⟩ := q
    simp only at hload hts
    subst hload
    simp only [hts, ne_eq, not_true_eq_false, if_false]
    exact ih (fun q1 h1 => hquiet q1 (List.mem_cons_of_mem _ h1))

end Timestamps

/-- C12: WaitForTimestampChange over a sequence of cycles, for a resource type
that has an output path. After cycles in which the deadline has not passed, the
record loads and the resource still has previousTimestamp, (1) it returns nil
at a cycle in which the deadline has not passed, the record loads and the
timestamp of the resource differs from previousTimestamp, and (2) with
timeout > 0 it returns the error `timeout exceeded while waiting for timestamp
change for resource ID <id>` at a cycle whose elapsed time exceeds timeout. -/
theorem C12_wait_returns_at_first_change_or_deadline (dr : DependencyResolver)
    (resourceId : Str) (previousTimestamp : Nat) (timeout : Int) (resourceType pklPath : Str)
    (front back : List Timestamps.Poll) (poll : Timestamps.Poll)
    (hpath : Timestamps.getResourceFilePath dr resourceType = .ok pklPath)
    (hquiet : ∀ q ∈ front, Timestamps.quiet resourceId previousTimestamp timeout q) :
    (¬ (timeout > 0 ∧ poll.elapsed > timeout) → poll.loaded.2 = none →
      ∀ timestamp, Timestamps.getResourceTimestamp resourceId poll.loaded.1 = .ok timestamp →
        timestamp ≠ previousTimestamp →
        Timestamps.WaitForTimestampChange dr resourceId previousTimestamp timeout resourceType
          (front ++ poll :: back) = .returned none) ∧
    (timeout > 0 → poll.elapsed > timeout →
      Timestamps.WaitForTimestampChange dr resourceId previousTimestamp timeout resourceType
        (front ++ poll :: back) = .returned (some (Timestamps.timeoutError resourceId))) := by
  have hskip := Timestamps.waitLoop_skips_quiet dr resourceId previousTimestamp timeout
    resourceType pklPath hpath front (poll :: back) hquiet
  unfold Timestamps.WaitForTimestampChange
  rw [hpath]
  simp only
  rw [hskip]
  constructor
  · intro hdead hload timestamp hts hne
    rw [Timestamps.waitLoop_cons]
    rw [if_neg hdead, Timestamps.load_of_path dr resourceType pklPath poll.loaded hpath]
    obtain ⟨elapsed, pklRes, err⟩ := poll
    simp only at hload hts
    subst hload
    simp only [hts, ne_eq, hne, not_false_eq_true, if_true]
  · intro hpos hlate
    rw [Timestamps.waitLoop_cons]
    rw [if_pos ⟨hpos, hlate⟩]

end Kdeps

namespace Kdeps

namespace Timestamps

theorem timeoutError_start (resourceId : Str) :
    (timeoutError resourceId).take 5 = "timeo".toList := rfl

theorem nilTimestampError_start (resourceId : Str) :
    (nilTimestampError resourceId).take 5 = "times".toList := rfl

theorem missingResourceError_start (resourceId : Str) :
    (missingResourceError resourceId).take 5 = "resou".toList := rfl

/-- The message of a timeout is no message of a lookup, of a reload or of a
path that fails. -/
theorem timeoutError_distinct (a b : Str) :
    nilTimestampError a ≠ timeoutError b ∧ missingResourceError a ≠ timeoutError b ∧
    "unknown PKL result type".toList ≠ timeoutError b ∧
    (∀ t e, "failed to reload ".toList ++ t ++ " PKL file: ".toList ++ e ≠ timeoutError b) ∧
    (∀ t, "invalid resourceType ".toList ++ t ++ " provided".toList ≠ timeoutError b) := by
  refine ⟨?_, ?_, ?_, ?_, ?_⟩
  · intro h
    have := congrArg (List.take 5) h
    rw [timeoutError_start, nilTimestampError_start] at this
    revert this
    decide
  · intro h
    have := congrArg (List.take 5) h
    rw [timeoutError_start, missingResourceError_start] at this
    revert this
    decide
  · intro h
    have := congrArg (List.take 5) h
    rw [timeoutError_start] at this
    revert this
    decide
  · intro t e h
    have := congrArg (List.take 5) h
    rw [timeoutError_start] at this
    have h2 : ("failed to reload ".toList ++ t ++ " PKL file: ".toList ++ e).take 5 =
        "faile".toList := rfl
    rw [h2] at this
    revert this
    decide
  · intro t h
    have := congrArg (List.take 5) h
    rw [timeoutError_start] at this
    have h2 : ("invalid resourceType ".toList ++ t ++ " provided".toList).take 5 =
        "inval".toList := rfl
    rw [h2] at this
    revert this
    decide

theorem lookupTimestamp_error (resourceId : Str) (resources : List (Str × ResourceRecord))
    (e : Str) (h : lookupTimestamp resourceId resources = .error e) :
    e = nilTimestampError resourceId ∨ e = missingResourceError resourceId := by
  unfold lookupTimestamp at h
  cases hget : GoMap.mapGet resources resourceId with
  | none =>
    rw [hget] at h
    simp only [Except.error.injEq] at h
    exact Or.inr h.symm
  | some resource =>
    rw [hget] at h
    simp only at h
    cases hts : resource.Timestamp with
    | none =>
      rw [hts] at h
      simp only [Except.error.injEq] at h
      exact Or.inl h.symm
    | some ts =>
      rw [hts] at h
      cases h

/-- The errors of getResourceTimestamp. -/
theorem getResourceTimestamp_error (resourceId : Str) (pklRes : PklResult) (e : Str)
    (h : getResourceTimestamp resourceId pklRes = .error e) :
    e = nilTimestampError resourceId ∨ e = missingResourceError resourceId ∨
      e = "unknown PKL result type".toList := by
  cases pklRes with
  | exec resources =>
    rcases lookupTimestamp_error resourceId resources e h with h1 | h1
    · exact Or.inl h1
    · exact Or.inr (Or.inl h1)
  | llm resources =>
    rcases lookupTimestamp_error resourceId resources e h with h1 | h1
    · exact Or.inl h1
    · exact Or.inr (Or.inl h1)
  | http resources =>
    rcases lookupTimestamp_error resourceId resources e h with h1 | h1
    · exact Or.inl h1
    · exact Or.inr (Or.inl h1)
  | other =>
    unfold getResourceTimestamp at h
    simp only [Except.error.injEq] at h
    exact Or.inr (Or.inr h.symm)

/-- Without deadline, a return of the loop is nil at a changed timestamp, the
error of a reload, or the error of a lookup. -/
theorem waitLoop_without_deadline (resourceId : Str) (previousTimestamp : Nat)
    (resourceType : Str) (polls : List Poll) (err : Option Str)
    (h : waitLoop resourceId previousTimestamp 0 resourceType polls = .returned err) :
    (err = none ∧ ∃ p ∈ polls, (loadPKLFile resourceType p.loaded).2 = none ∧
      ∃ ts, getResourceTimestamp resourceId (loadPKLFile resourceType p.loaded).1 = .ok ts ∧
        ts ≠ previousTimestamp) ∨
    (∃ p ∈ polls, ∃ e, (loadPKLFile resourceType p.loaded).2 = some e ∧
      err = some ("failed to reload ".toList ++ resourceType ++ " PKL file: ".toList ++ e)) ∨
    (∃ p ∈ polls, ∃ e, (loadPKLFile resourceType p.loaded).2 = none ∧
      getResourceTimestamp resourceId (loadPKLFile resourceType p.loaded).1 = .error e ∧
      err = some e) := by
  induction polls with
  | nil =>
    unfold waitLoop at h
    cases h
  | cons p rest ih =>
    rw [waitLoop_cons] at h
    have hno : ¬ ((0 : Int) > 0 ∧ p.elapsed > 0) := fun hh => absurd hh.1 (by decide)
    rw [if_neg hno] at h
    cases hl : loadPKLFile resourceType p.loaded with
    | mk pklRes lerr =>
      rw [hl] at h
      cases lerr with
      | some e =>
        simp only [Wait.returned.injEq] at h
        exact Or.inr (Or.inl ⟨p, List.mem_cons_self _ _, e, by rw [hl], h.symm⟩)
      | none =>
        simp only at h
        cases hts : getResourceTimestamp resourceId pklRes with
        | error e =>
          rw [hts] at h
          simp only [Wait.returned.injEq] at h
          exact Or.inr (Or.inr ⟨p, List.mem_cons_self _ _, e, by rw [hl], by rw [hl]; exact hts,
            h.symm⟩)
        | ok ts =>
          rw [hts] at h
          simp only at h
          by_cases hne : ts ≠ previousTimestamp
          · rw [if_pos hne] at h
            simp only [Wait.returned.injEq] at h
            exact Or.inl ⟨h.symm, p, List.mem_cons_self _ _, by rw [hl], ts,
              by rw [hl]; exact hts, hne⟩
          · rw [if_neg hne] at h
            rcases ih h with ⟨h1, q, hq, h2⟩ | ⟨q, hq, h2⟩ | ⟨q, hq, h2⟩
            · exact Or.inl ⟨h1, q, List.mem_cons_of_mem _ hq, h2⟩
            · exact Or.inr (Or.inl ⟨q, List.mem_cons_of_mem _ hq, h2⟩)
            · exact Or.inr (Or.inr ⟨q, List.mem_cons_of_mem _ hq, h2⟩)

end Timestamps

/-- C13: with timeout = 0, whatever the elapsed times of the cycles, a return
of WaitForTimestampChange is never the timeout error: it is nil at a cycle
whose timestamp differs from previousTimestamp, the error of the path, the
error of a reload, or the error of a lookup. -/
theorem C13_no_timeout_without_deadline (dr : DependencyResolver) (resourceId : Str)
    (previousTimestamp : Nat) (timeout : Int) (resourceType : Str)
    (polls : List Timestamps.Poll) (err : Option Str)
    (hzero : timeout = 0)
    (hreturn : Timestamps.WaitForTimestampChange dr resourceId previousTimestamp timeout
      resourceType polls = .returned err) :
    err ≠ some (Timestamps.timeoutError resourceId) ∧
    ((err = none ∧ ∃ p ∈ polls, (Timestamps.loadPKLFile resourceType p.loaded).2 = none ∧
        ∃ ts, Timestamps.getResourceTimestamp resourceId
            (Timestamps.loadPKLFile resourceType p.loaded).1 = .ok ts ∧
          ts ≠ previousTimestamp) ∨
      (∃ e, Timestamps.getResourceFilePath dr resourceType = .error e ∧ err = some e) ∨
      (∃ p ∈ polls, ∃ e, (Timestamps.loadPKLFile resourceType p.loaded).2 = some e ∧
        err = some ("failed to reload ".toList ++ resourceType ++
          " PKL file: ".toList ++ e)) ∨
      (∃ p ∈ polls, ∃ e, (Timestamps.loadPKLFile resourceType p.loaded).2 = none ∧
        Timestamps.getResourceTimestamp resourceId
          (Timestamps.loadPKLFile resourceType p.loaded).1 = .error e ∧
        err = some e)) := by
  subst hzero
  unfold Timestamps.WaitForTimestampChange at hreturn
  obtain ⟨d1, d2, d3, d4, d5⟩ := Timestamps.timeoutError_distinct resourceId resourceId
  cases hpath : Timestamps.getResourceFilePath dr resourceType with
  | error e =>
    rw [hpath] at hreturn
    simp only [Timestamps.Wait.returned.injEq] at hreturn
    subst hreturn
    have he : e = "invalid resourceType ".toList ++ resourceType ++ " provided".toList := by
      unfold Timestamps.getResourceFilePath at hpath
      cases hget : GoMap.mapGet (Timestamps.files dr) resourceType with
      | some p =>
        rw [hget] at hpath
        cases hpath
      | none =>
        rw [hget] at hpath
        simp only [Except.error.injEq] at hpath
        exact hpath.symm
    refine ⟨?_, Or.inr (Or.inl ⟨e, rfl, rfl⟩)⟩
    intro h
    simp only [Option.some.injEq] at h
    exact d5 resourceType (he ▸ h)
  | ok p =>
    rw [hpath] at hreturn
    simp only at hreturn
    have hcases := Timestamps.waitLoop_without_deadline resourceId previousTimestamp
      resourceType polls err hreturn
    refine ⟨?_, ?_⟩
    · rcases hcases with ⟨h1, _⟩ | ⟨q, _, e, _, h1⟩ | ⟨q, _, e, _, hts, h1⟩
      · rw [h1]
        exact fun h => by cases h
      · rw [h1]
        intro h
        simp only [Option.some.injEq] at h
        exact d4 resourceType e h
      · rw [h1]
        intro h
        simp only [Option.some.injEq] at h
        rcases Timestamps.getResourceTimestamp_error resourceId _ e hts with h2 | h2 | h2
        · exact d1 (h2 ▸ h)
        · exact d2 (h2 ▸ h)
        · exact d3 (h2 ▸ h)
    · rcases hcases with h1 | h1 | h1
      · exact Or.inl h1
      · exact Or.inr (Or.inr (Or.inl h1))
      · exact Or.inr (Or.inr (Or.inr h1))

end Kdeps

namespace Kdeps

/-- C12 for resource `a` of the exec record, previous timestamp 7 and a timeout
of five seconds: a change seen at 200 ms gives nil, and without change the cycle
at 5100 ms gives the timeout error. -/
theorem C12_wait_returns_at_first_change_or_deadline_witness :
    Timestamps.WaitForTimestampChange (Sample.resolver ⟨[], [], false⟩) "a".toList 7
        Sample.fiveSeconds "exec".toList
        ([Sample.pollAt 100 7] ++ Sample.pollAt 200 8 :: [Sample.pollAt 300 7]) =
      .returned none ∧
    Timestamps.WaitForTimestampChange (Sample.resolver ⟨[], [], false⟩) "a".toList 7
        Sample.fiveSeconds "exec".toList
        ([Sample.pollAt 100 7, Sample.pollAt 200 7] ++ Sample.pollAt 5100 8 :: []) =
      .returned (some (Timestamps.timeoutError "a".toList)) :=
  ⟨(C12_wait_returns_at_first_change_or_deadline (Sample.resolver ⟨[], [], false⟩) "a".toList 7
      Sample.fiveSeconds "exec".toList "/agent/actions/exec/r1__exec_output.pkl".toList
      [Sample.pollAt 100 7] [Sample.pollAt 300 7] (Sample.pollAt 200 8) rfl
      (fun q hq => by
        rw [List.mem_singleton] at hq
        subst hq
        exact ⟨by decide, rfl, rfl⟩)).1 (by decide) rfl 8 rfl (by decide),
   (C12_wait_returns_at_first_change_or_deadline (Sample.resolver ⟨[], [], false⟩) "a".toList 7
      Sample.fiveSeconds "exec".toList "/agent/actions/exec/r1__exec_output.pkl".toList
      [Sample.pollAt 100 7, Sample.pollAt 200 7] [] (Sample.pollAt 5100 8) rfl
      (fun q hq => by
        simp only [List.mem_cons, List.mem_singleton, List.not_mem_nil, or_false] at hq
        rcases hq with h | h <;> subst h <;> exact ⟨by decide, rfl, rfl⟩)).2
      (by decide) (by decide)⟩

/-- C13 for resource `a` of the exec record with timeout 0: after an hour
without change the wait goes on, and the change seen then gives nil. -/
theorem C13_no_timeout_without_deadline_witness :
    (none : Option Str) ≠ some (Timestamps.timeoutError "a".toList) ∧
    (((none : Option Str) = none ∧
        ∃ p ∈ [Sample.pollAt 3600000 7, Sample.pollAt 3600100 8],
          (Timestamps.loadPKLFile "exec".toList p.loaded).2 = none ∧
          ∃ ts, Timestamps.getResourceTimestamp "a".toList
              (Timestamps.loadPKLFile "exec".toList p.loaded).1 = .ok ts ∧ ts ≠ 7) ∨
      (∃ e, Timestamps.getResourceFilePath (Sample.resolver ⟨[], [], false⟩) "exec".toList =
        .error e ∧ (none : Option Str) = some e) ∨
      (∃ p ∈ [Sample.pollAt 3600000 7, Sample.pollAt 3600100 8], ∃ e,
        (Timestamps.loadPKLFile "exec".toList p.loaded).2 = some e ∧
        (none : Option Str) = some ("failed to reload ".toList ++ "exec".toList ++
          " PKL file: ".toList ++ e)) ∨
      (∃ p ∈ [Sample.pollAt 3600000 7, Sample.pollAt 3600100 8], ∃ e,
        (Timestamps.loadPKLFile "exec".toList p.loaded).2 = none ∧
        Timestamps.getResourceTimestamp "a".toList
          (Timestamps.loadPKLFile "exec".toList p.loaded).1 = .error e ∧
        (none : Option Str) = some e)) :=
  C13_no_timeout_without_deadline (Sample.resolver ⟨[], [], false⟩) "a".toList 7 0
    "exec".toList [Sample.pollAt 3600000 7, Sample.pollAt 3600100 8] none rfl (by decide)

/-- C14: for an exec, llm or http output record, getResourceTimestamp returns
a timestamp exactly when the record holds the identifier with a set timestamp,
and then that timestamp; it returns `resource ID <id> does not exist in the
file` when the record does not hold the identifier and `timestamp for resource
ID <id> is nil` when it holds it with an unset timestamp; the two messages
differ from each other and from the timeout message, and
WaitForTimestampChange returns either error as it is, at the cycle in which it
occurs. -/
theorem C14_timestamp_lookup_errors (resourceId : Str)
    (resources : List (Str × Timestamps.ResourceRecord)) (pklRes : Timestamps.PklResult)
    (hrecord : pklRes = .exec resources ∨ pklRes = .llm resources ∨ pklRes = .http resources) :
    (∀ ts, Timestamps.getResourceTimestamp resourceId pklRes = .ok ts ↔
      ∃ r, GoMap.mapGet resources resourceId = some r ∧ r.Timestamp = some ts) ∧
    (GoMap.mapGet resources resourceId = none →
      Timestamps.getResourceTimestamp resourceId pklRes =
        .error ("resource ID ".toList ++ resourceId ++ " does not exist in the file".toList)) ∧
    (∀ r, GoMap.mapGet resources resourceId = some r → r.Timestamp = none →
      Timestamps.getResourceTimestamp resourceId pklRes =
        .error ("timestamp for resource ID ".toList ++ resourceId ++ " is nil".toList)) ∧
    (∀ a b, Timestamps.missingResourceError a ≠ Timestamps.nilTimestampError b) ∧
    (∀ a b, Timestamps.missingResourceError a ≠ Timestamps.timeoutError b) ∧
    (∀ a b, Timestamps.nilTimestampError a ≠ Timestamps.timeoutError b) ∧
    (∀ dr previousTimestamp timeout resourceType pklPath front poll back e,
      Timestamps.getResourceFilePath dr resourceType = .ok pklPath →
      (∀ q ∈ front, Timestamps.quiet resourceId previousTimestamp timeout q) →
      ¬ (timeout > 0 ∧ poll.elapsed > timeout) →
      poll.loaded = (pklRes, none) →
      Timestamps.getResourceTimestamp resourceId pklRes = .error e →
      Timestamps.WaitForTimestampChange dr resourceId previousTimestamp timeout resourceType
        (front ++ poll :: back) = .returned (some e)) := by
  have hget : Timestamps.getResourceTimestamp resourceId pklRes =
      Timestamps.lookupTimestamp resourceId resources := by
    rcases hrecord with h | h | h <;> rw [h] <;> rfl
  rw [hget]
  refine ⟨?_, ?_, ?_, ?_, ?_, ?_, ?_⟩
  · intro ts
    unfold Timestamps.lookupTimestamp
    cases hm : GoMap.mapGet resources resourceId with
    | none => simp
    | some r =>
      cases ht : r.Timestamp with
      | none => simp [ht]
      | some t => simp [ht]
  · intro hm
    unfold Timestamps.lookupTimestamp
    rw [hm]
    rfl
  · intro r hm ht
    unfold Timestamps.lookupTimestamp
    rw [hm]
    simp only [ht]
    rfl
  · intro a b h
    have := congrArg (List.take 5) h
    rw [Timestamps.missingResourceError_start, Timestamps.nilTimestampError_start] at this
    revert this
    decide
  · intro a b
    exact (Timestamps.timeoutError_distinct a b).2.1
  · intro a b
    exact (Timestamps.timeoutError_distinct a b).1
  · intro dr previousTimestamp timeout resourceType pklPath front poll back e hpath hquiet
      hdead hload herr
    unfold Timestamps.WaitForTimestampChange
    rw [hpath]
    simp only
    rw [Timestamps.waitLoop_skips_quiet dr resourceId previousTimestamp timeout resourceType
      pklPath hpath front (poll :: back) hquiet, Timestamps.waitLoop_cons, if_neg hdead,
      Timestamps.load_of_path dr resourceType pklPath poll.loaded hpath, hload]
    simp only [hget, herr]

end Kdeps

namespace Kdeps

/-- C14 at the exec record in which `a` has timestamp 7 and `b` has none: the
lookup of `a` gives 7, the lookup of `b` the nil error and the lookup of `c` the
error of a resource that does not exist. -/
theorem C14_timestamp_lookup_errors_witness :
    (Timestamps.getResourceTimestamp "a".toList (Sample.execRecord 7) = .ok 7 ↔
      ∃ r, GoMap.mapGet [("a".toList, (⟨some 7⟩ : Timestamps.ResourceRecord)),
        ("b".toList, ⟨none⟩)] "a".toList = some r ∧ r.Timestamp = some 7) ∧
    Timestamps.getResourceTimestamp "b".toList (Sample.execRecord 7) =
      .error ("timestamp for resource ID ".toList ++ "b".toList ++ " is nil".toList) ∧
    Timestamps.getResourceTimestamp "c".toList (Sample.execRecord 7) =
      .error ("resource ID ".toList ++ "c".toList ++ " does not exist in the file".toList) :=
  ⟨(C14_timestamp_lookup_errors "a".toList
      [("a".toList, ⟨some 7⟩), ("b".toList, ⟨none⟩)] (Sample.execRecord 7) (Or.inl rfl)).1 7,
    (C14_timestamp_lookup_errors "b".toList
      [("a".toList, ⟨some 7⟩), ("b".toList, ⟨none⟩)] (Sample.execRecord 7)
      (Or.inl rfl)).2.2.1 ⟨none⟩ rfl rfl,
    (C14_timestamp_lookup_errors "c".toList
      [("a".toList, ⟨some 7⟩), ("b".toList, ⟨none⟩)] (Sample.execRecord 7)
      (Or.inl rfl)).2.1 rfl⟩

/-- C15, as amended: for the kinds llm, client and exec, getResourceFilePath
returns `filepath.Join(actionDir, kind, requestId + "__" + kind +
"_output.pkl")`; for every other string, python and data among them, it returns
the error `invalid resourceType <kind> provided`. -/
theorem C15_output_path_of_kind (dr : DependencyResolver) (resourceType : Str) :
    (resourceType ∈ ["llm".toList, "client".toList, "exec".toList] →
      Timestamps.getResourceFilePath dr resourceType =
        .ok (Filepath.Join [dr.ActionDir, resourceType,
          dr.RequestId ++ "__".toList ++ resourceType ++ "_output.pkl".toList])) ∧
    (resourceType ∉ ["llm".toList, "client".toList, "exec".toList] →
      Timestamps.getResourceFilePath dr resourceType =
        .error ("invalid resourceType ".toList ++ resourceType ++ " provided".toList)) := by
  unfold Timestamps.getResourceFilePath
  rw [Timestamps.mapGet_files]
  constructor
  · intro h
    simp only [List.mem_cons, List.mem_singleton, List.not_mem_nil, or_false] at h
    rcases h with h | h | h
    · subst h
      simp only [List.append_assoc]
      rfl
    · subst h
      simp only [List.append_assoc]
      rfl
    · subst h
      simp only [List.append_assoc]
      rfl
  · intro h
    simp only [List.mem_cons, List.mem_singleton, List.not_mem_nil, or_false, not_or] at h
    obtain ⟨h1, h2, h3⟩ := h
    rw [if_neg (fun hh => h3 hh.symm), if_neg (fun hh => h2 hh.symm),
      if_neg (fun hh => h1 hh.symm)]

/-- C15 as stated fails: for the kinds python and data getResourceFilePath
returns the error of an invalid resource type, not the path of the output
record of the kind. -/
theorem C15_no_path_for_python_and_data :
    Timestamps.getResourceFilePath (Sample.resolver ⟨[], [], false⟩) "python".toList =
      .error "invalid resourceType python provided".toList ∧
    Timestamps.getResourceFilePath (Sample.resolver ⟨[], [], false⟩) "data".toList =
      .error "invalid resourceType data provided".toList ∧
    Timestamps.getResourceFilePath (Sample.resolver ⟨[], [], false⟩) "exec".toList =
      .ok "/agent/actions/exec/r1__exec_output.pkl".toList :=
  ⟨rfl, rfl, rfl⟩

end Kdeps

/-! ## The catalog loader -/

namespace Kdeps

set_option maxRecDepth 1000000 in
/-- C16 at its failing input: with a catalog of the one definition file of
resource `C`, a first load leaves one entry in `dr.Resources`, and a second load
on the same resolver leaves two entries for the one file, while
`dr.ResourceDependencies` is the same after both loads. -/
theorem C16_second_load_doubles_catalog :
    Resolver.LoadResourceEntries Sample.collaborators
        (Sample.resolver (Sample.fsWith Sample.headed)) =
      (.nil, { Sample.resolver (Sample.fsWith Sample.headed) with
        Resources := [Sample.entryC], ResourceDependencies := [("C".toList, [])] }) ∧
    Resolver.LoadResourceEntries Sample.collaborators
        (Resolver.LoadResourceEntries Sample.collaborators
          (Sample.resolver (Sample.fsWith Sample.headed))).2 =
      (.nil, { Sample.resolver (Sample.fsWith Sample.headed) with
        Resources := [Sample.entryC, Sample.entryC],
        ResourceDependencies := [("C".toList, [])] }) := by
  decide

set_option maxRecDepth 1000000 in
/-- C17 at its failing input: in a catalog with the definition files a.pkl,
bad.pkl and c.pkl, where bad.pkl does not parse, the load panics at bad.pkl when
the parser returns a nil resource with its error, so that c.pkl is not loaded;
and when the parser returns a resource with its error, the load returns nil but
bad.pkl has an entry in the catalog and in the dependency map. -/
theorem C17_parse_failure_is_not_skipped :
    Resolver.LoadResourceEntries (Sample.mixedCollaborators none)
        (Sample.resolver (Sample.fsWith Sample.headed)) =
      (.panic, { Sample.resolver (Sample.fsWith Sample.headed) with
        Resources := [⟨"A".toList, "/agent/workflow/resources/a.pkl".toList⟩],
        ResourceDependencies := [("A".toList, [])] }) ∧
    Resolver.LoadResourceEntries (Sample.mixedCollaborators (some ⟨[], none⟩))
        (Sample.resolver (Sample.fsWith Sample.headed)) =
      (.nil, { Sample.resolver (Sample.fsWith Sample.headed) with
        Resources := [⟨"A".toList, "/agent/workflow/resources/a.pkl".toList⟩,
          ⟨[], "/agent/workflow/resources/bad.pkl".toList⟩,
          ⟨"C".toList, "/agent/workflow/resources/c.pkl".toList⟩],
        ResourceDependencies := [("A".toList, []), ([], []), ("C".toList, ["A".toList])] }) := by
  decide

end Kdeps

/-! ## The sections of the request descriptor -/

namespace Kdeps

namespace Docker

/-- The lines of a multi-valued map are the lines of its pairs, in order. -/
theorem valueLines_eq (entries : List (Str × List Str)) :
    valueLines entries =
      (namedValues entries).map (fun p => pairLine p.1 (Strings.TrimSpace p.2)) := by
  induction entries with
  | nil => rfl
  | cons e rest ih =>
    have h1 : valueLines (e :: rest) =
        e.2.map (fun value => "[\"".toList ++ e.1 ++ "\"] = \"".toList ++
          Strings.TrimSpace value ++ "\"".toList) ++ valueLines rest := by
      simp only [valueLines, List.flatMap_cons]
    have h2 : namedValues (e :: rest) =
        e.2.map (fun value => (e.1, value)) ++ namedValues rest := by
      simp only [namedValues, List.flatMap_cons]
    rw [h1, h2, ih, List.map_append, List.map_map]
    rfl

/-- The number of lines is the number of values of all keys. -/
theorem valueLines_length (entries : List (Str × List Str)) :
    (valueLines entries).length = (entries.map (fun e => e.2.length)).sum := by
  induction entries with
  | nil => rfl
  | cons e rest ih =>
    have h1 : valueLines (e :: rest) =
        e.2.map (fun value => "[\"".toList ++ e.1 ++ "\"] = \"".toList ++
          Strings.TrimSpace value ++ "\"".toList) ++ valueLines rest := by
      simp only [valueLines, List.flatMap_cons]
    rw [h1, List.length_append, List.length_map, ih, List.map_cons, List.sum_cons]

/-- What is left after `dropWhile` does not start with a dropped element. -/
theorem head_dropWhile {α : Type} (p : α → Bool) (l : List α) (c : α)
    (h : (l.dropWhile p).head? = some c) : p c = false := by
  induction l with
  | nil => simp at h
  | cons x rest ih =>
    by_cases hx : p x = true
    · rw [List.dropWhile_cons_of_pos hx] at h
      exact ih h
    · rw [List.dropWhile_cons_of_neg hx] at h
      simp only [List.head?_cons, Option.some.injEq] at h
      rw [← h]
      simpa using hx

/-- TrimSpace removes a leading and a trailing run of white space, and what
is left neither starts nor ends with white space. -/
theorem trimSpace_trimmed (s : Str) : Trimmed s (Strings.TrimSpace s) := by
  have hs : s = s.takeWhile Strings.isSpace ++ s.dropWhile Strings.isSpace :=
    (List.takeWhile_append_dropWhile Strings.isSpace s).symm
  have hu : (s.dropWhile Strings.isSpace).reverse =
      (s.dropWhile Strings.isSpace).reverse.takeWhile Strings.isSpace ++
        (s.dropWhile Strings.isSpace).reverse.dropWhile Strings.isSpace :=
    (List.takeWhile_append_dropWhile Strings.isSpace _).symm
  have hu2 : s.dropWhile Strings.isSpace =
      Strings.TrimSpace s ++
        ((s.dropWhile Strings.isSpace).reverse.takeWhile Strings.isSpace).reverse := by
    have h := congrArg List.reverse hu
    rw [List.reverse_reverse, List.reverse_append] at h
    exact h
  refine ⟨s.takeWhile Strings.isSpace,
    ((s.dropWhile Strings.isSpace).reverse.takeWhile Strings.isSpace).reverse, ?_, ?_, ?_, ?_, ?_⟩
  · rw [List.append_assoc, ← hu2]
    exact hs
  · intro c hc
    exact List.mem_takeWhile_imp hc
  · intro c hc
    exact List.mem_takeWhile_imp (List.mem_reverse.mp hc)
  · intro c hc
    apply head_dropWhile Strings.isSpace s c
    rw [hu2]
    cases ht : Strings.TrimSpace s with
    | nil => rw [ht] at hc; simp at hc
    | cons x rest =>
      rw [ht] at hc
      simpa using hc
  · intro c hc
    apply head_dropWhile Strings.isSpace (s.dropWhile Strings.isSpace).reverse c
    have h : (Strings.TrimSpace s).getLast? =
        ((s.dropWhile Strings.isSpace).reverse.dropWhile Strings.isSpace).head? := by
      unfold Strings.TrimSpace
      rw [List.getLast?_reverse]
    rw [← h]
    exact hc

end Docker

end Kdeps

namespace Kdeps

/-- C18: for a request that the handler serves (the stale files are removed,
a method is set, the body is read), the sections handed on are, in this order,
the url, the method, the headers block, the data section `data = "<body>"`
with the raw body, and the params block; the params block is the block
`params` of one line `["<name>"] = "<value>"` per (name, value) pair of the
query, the value trimmed of leading and trailing white space, and the headers
block is built the same way from the header pairs; a key with n values gives
n lines. -/
theorem C18_descriptor_sections (allowedMethods : List Str) (dr : DependencyResolver)
    (v : Docker.Captured) (r : Docker.Request) (fs1 fs2 : Fs) (body : Str)
    (hstale : Docker.removeStale dr.Fs dr.ResponseTargetFile = some fs1)
    (hflag : Docker.removeStale fs1 dr.ResponseFlag = some fs2)
    (hmethod : Docker.matchMethod (if r.Method = [] then "GET".toList else r.Method)
      allowedMethods v.method ≠ [])
    (hbody : r.Body = .ok body) :
    (Docker.serve allowedMethods dr v r).2.2 =
      .descriptor
        [ "url = \"".toList ++ r.Path ++ "\"".toList,
          Docker.matchMethod (if r.Method = [] then "GET".toList else r.Method)
            allowedMethods v.method,
          Docker.block "headers".toList
            ((Docker.namedValues r.Header).map
              (fun p => Docker.pairLine p.1 (Strings.TrimSpace p.2))),
          "data = \"".toList ++ body ++ "\"".toList,
          Docker.block "params".toList
            ((Docker.namedValues r.Query).map
              (fun p => Docker.pairLine p.1 (Strings.TrimSpace p.2))) ] ∧
    (∀ value, Docker.Trimmed value (Strings.TrimSpace value)) ∧
    (∀ name values,
      ((Docker.namedValues [(name, values)]).map
        (fun p => Docker.pairLine p.1 (Strings.TrimSpace p.2))).length = values.length) ∧
    ((Docker.namedValues r.Query).map
        (fun p => Docker.pairLine p.1 (Strings.TrimSpace p.2))).length =
      (r.Query.map (fun e => e.2.length)).sum ∧
    ((Docker.namedValues r.Header).map
        (fun p => Docker.pairLine p.1 (Strings.TrimSpace p.2))).length =
      (r.Header.map (fun e => e.2.length)).sum := by
  refine ⟨?_, Docker.trimSpace_trimmed, ?_, ?_, ?_⟩
  · unfold Docker.serve
    rw [hstale]
    simp only
    rw [hflag]
    simp only
    rw [if_neg hmethod, hbody]
    simp only [Docker.valueLines_eq, Docker.block]
    rfl
  · intro name values
    rw [← Docker.valueLines_eq, Docker.valueLines_length]
    simp
  · rw [← Docker.valueLines_eq, Docker.valueLines_length]
  · rw [← Docker.valueLines_eq, Docker.valueLines_length]

set_option maxRecDepth 1000000 in
/-- C18 for a POST request with the query `q= a b &q=c&n=1`, the header
`Accept: text/plain ` and the body `hello`. -/
theorem C18_descriptor_sections_witness :
    (Docker.serve ["POST".toList] (Sample.resolver (Sample.fsWith Sample.headed))
        Docker.Captured.initial Sample.queryRequest).2.2 =
      .descriptor
        [ "url = \"/api/v1/ask\"".toList,
          "method = \"POST\"".toList,
          "headers \x7b\n[\"Accept\"] = \"text/plain\"\n\x7d".toList,
          "data = \"hello\"".toList,
          "params \x7b\n[\"q\"] = \"a b\"\n[\"q\"] = \"c\"\n[\"n\"] = \"1\"\n\x7d".toList ] :=
  (C18_descriptor_sections ["POST".toList] (Sample.resolver (Sample.fsWith Sample.headed))
    Docker.Captured.initial Sample.queryRequest (Sample.fsWith Sample.headed)
    (Sample.fsWith Sample.headed) "hello".toList (by decide) (by decide) (by decide) rfl).1

end Kdeps

/-! ## The response kinds of a route -/

namespace Kdeps

namespace Docker

/-- A string that is none of the seven response kinds takes the default
branch of the switch. -/
theorem responseFile_default (responseType : Str) (h : responseType ∉ responseKinds) :
    responseFile responseType =
      ⟨"response-json".toList, ".json".toList, "application/json".toList, "json".toList⟩ := by
  simp only [responseKinds, List.mem_cons, List.mem_singleton, not_or, List.not_mem_nil,
    or_false] at h
  obtain ⟨h1, h2, h3, h4, h5, h6, _⟩ := h
  unfold responseFile
  rw [if_neg h1, if_neg h2, if_neg h3, if_neg h4, if_neg h5, if_neg h6]

end Docker

set_option maxRecDepth 1000000 in
/-- C19: the content type chosen for a route is application/json for json and
jsonnet, application/protobuf for textproto and application/yaml for yaml,
plist, xml and pcf; every other response-kind string, the empty string
included, gets what json gets: flag response-json, extension .json and content
type application/json. -/
theorem C19_content_type_of_kind :
    (Docker.responseFile "json".toList).ContentType = "application/json".toList ∧
    (Docker.responseFile "jsonnet".toList).ContentType = "application/json".toList ∧
    (Docker.responseFile "textproto".toList).ContentType = "application/protobuf".toList ∧
    (Docker.responseFile "yaml".toList).ContentType = "application/yaml".toList ∧
    (Docker.responseFile "plist".toList).ContentType = "application/yaml".toList ∧
    (Docker.responseFile "xml".toList).ContentType = "application/yaml".toList ∧
    (Docker.responseFile "pcf".toList).ContentType = "application/yaml".toList ∧
    Docker.responseFile [] = Docker.responseFile "json".toList ∧
    (∀ responseType, responseType ∉ Docker.responseKinds →
      Docker.responseFile responseType = Docker.responseFile "json".toList ∧
      (Docker.responseFile responseType).ResponseFlagFile = "response-json".toList ∧
      (Docker.responseFile responseType).ResponseFileExt = ".json".toList ∧
      (Docker.responseFile responseType).ContentType = "application/json".toList) := by
  refine ⟨by decide, by decide, by decide, by decide, by decide, by decide, by decide,
    by decide, ?_⟩
  intro responseType h
  rw [Docker.responseFile_default responseType h]
  decide

set_option maxRecDepth 1000000 in
/-- C20: for each of the seven response kinds, the kind that the handler
records is the kind itself, the sentinel name and the extension that the
handler assigns to the kind are the Flag and Ext of the one entry of the table
of GetResponseFlag with that format, and when the sentinel of the kind is the
only sentinel present GetResponseFlag returns nil with that kind as the
detected format, the sentinel path built from the assigned name and the target
path built from the assigned extension. -/
theorem C20_handler_agrees_with_flag_table (kind : Str) (dr : DependencyResolver)
    (hkind : kind ∈ Docker.responseKinds)
    (hpresent : Afero.Exists dr.Fs
      (Resolver.flagPath dr (Docker.responseFile kind).ResponseFlagFile) = (true, none))
    (habsent : ∀ e ∈ Resolver.responseFiles,
      e.1 ≠ (Docker.responseFile kind).ResponseFlagFile →
        Afero.Exists dr.Fs (Resolver.flagPath dr e.1) = (false, none)) :
    (Docker.responseFile kind).ResponseType = kind ∧
    ((Docker.responseFile kind).ResponseFlagFile, (Docker.responseFile kind).ResponseFileExt,
      kind) ∈ Resolver.responseFiles ∧
    (∀ e ∈ Resolver.responseFiles, e.2.2 = kind →
      e.1 = (Docker.responseFile kind).ResponseFlagFile ∧
      e.2.1 = (Docker.responseFile kind).ResponseFileExt) ∧
    Resolver.GetResponseFlag dr =
      ({ dr with
          ResponseFlag := Resolver.flagPath dr (Docker.responseFile kind).ResponseFlagFile
          ResponseType := (Docker.responseFile kind).ResponseType
          ResponseTargetFile :=
            Resolver.targetPath dr (Docker.responseFile kind).ResponseFileExt }, none) := by
  have hsplit : ∃ front back,
      Resolver.responseFiles = front ++ ((Docker.responseFile kind).ResponseFlagFile,
        (Docker.responseFile kind).ResponseFileExt, kind) :: back ∧
      (∀ e ∈ front, e.1 ≠ (Docker.responseFile kind).ResponseFlagFile) ∧
      (Docker.responseFile kind).ResponseType = kind ∧
      (∀ e ∈ Resolver.responseFiles, e.2.2 = kind →
        e.1 = (Docker.responseFile kind).ResponseFlagFile ∧
        e.2.1 = (Docker.responseFile kind).ResponseFileExt) := by
    simp only [Docker.responseKinds, List.mem_cons, List.mem_singleton, List.not_mem_nil,
      or_false] at hkind
    rcases hkind with h | h | h | h | h | h | h <;> subst h
    · exact ⟨[], _, rfl, by decide, by decide, by decide⟩
    · exact ⟨[_], _, rfl, by decide, by decide, by decide⟩
    · exact ⟨[_, _], _, rfl, by decide, by decide, by decide⟩
    · exact ⟨[_, _, _], _, rfl, by decide, by decide, by decide⟩
    · exact ⟨[_, _, _, _], _, rfl, by decide, by decide, by decide⟩
    · exact ⟨[_, _, _, _, _], _, rfl, by decide, by decide, by decide⟩
    · exact ⟨[_, _, _, _, _, _], [], rfl, by decide, by decide, by decide⟩
  obtain ⟨front, back, htable, hfront, htype, hunique⟩ := hsplit
  refine ⟨htype, ?_, hunique, ?_⟩
  · rw [htable]
    exact List.mem_append_right _ (List.mem_cons_self _ _)
  · unfold Resolver.GetResponseFlag
    rw [htable, htype]
    apply Resolver.scanFlags_first dr front back _ _ kind _ hpresent
    intro e he
    apply habsent e _ (hfront e he)
    rw [htable]
    exact List.mem_append_left _ he

set_option maxRecDepth 1000000 in
/-- C20 for a yaml route whose sentinel alone is present. -/
theorem C20_handler_agrees_with_flag_table_witness :
    Resolver.GetResponseFlag (Sample.resolver Sample.fsYaml) =
      ({ Sample.resolver Sample.fsYaml with
          ResponseFlag := "/agent/actions/api/response-yaml".toList
          ResponseType := "yaml".toList
          ResponseTargetFile := "/agent/actions/api/response.yaml".toList }, none) :=
  (C20_handler_agrees_with_flag_table "yaml".toList (Sample.resolver Sample.fsYaml)
    (by decide) (by decide) (by decide)).2.2.2

end Kdeps

/-! ## The version comparison -/

namespace Kdeps

namespace Enforcer

/-- On versions of the same number of components, all of them numbers,
compareVersions is the order of versions. -/
theorem compareParts_same_length (parts1 parts2 : List Str) (l1 l2 : List Int)
    (h1 : parts1.map Strconv.Atoi = l1.map some) (h2 : parts2.map Strconv.Atoi = l2.map some)
    (hlen : l1.length = l2.length) :
    compareParts parts1 parts2 = (versionOrder l1 l2, none) := by
  induction parts1 generalizing parts2 l1 l2 with
  | nil =>
    cases l1 with
    | cons a r => simp at h1
    | nil =>
      cases l2 with
      | cons b s => simp at hlen
      | nil =>
        cases parts2 with
        | nil => rfl
        | cons q qs => simp at h2
  | cons p ps ih =>
    cases l1 with
    | nil => simp at h1
    | cons a r =>
      cases l2 with
      | nil => simp at hlen
      | cons b s =>
        cases parts2 with
        | nil => simp at h2
        | cons q qs =>
          simp only [List.map_cons, List.cons.injEq] at h1 h2
          simp only [List.length_cons, Nat.add_right_cancel_iff] at hlen
          simp only [compareParts, h1.1, h2.1, versionOrder]
          by_cases hlt : a < b
          · rw [if_pos hlt, if_pos hlt]
          · rw [if_neg hlt, if_neg hlt]
            by_cases hgt : a > b
            · rw [if_pos hgt, if_pos hgt]
            · rw [if_neg hgt, if_neg hgt]
              exact ih qs r s h1.2 h2.2 hlen

/-- The order of versions gives 0 only for equal versions. -/
theorem versionOrder_eq_zero (l1 l2 : List Int) (h : versionOrder l1 l2 = 0) : l1 = l2 := by
  induction l1 generalizing l2 with
  | nil =>
    cases l2 with
    | nil => rfl
    | cons b s => simp [versionOrder] at h
  | cons a r ih =>
    cases l2 with
    | nil => simp [versionOrder] at h
    | cons b s =>
      simp only [versionOrder] at h
      by_cases hlt : a < b
      · rw [if_pos hlt] at h
        simp at h
      · rw [if_neg hlt] at h
        by_cases hgt : a > b
        · rw [if_pos hgt] at h
          simp at h
        · rw [if_neg hgt] at h
          rw [ih s h]
          congr 1
          omega

end Enforcer

set_option maxRecDepth 1000000 in
/-- C21 at its failing input: for the versions 1.0 and 1.0.1, whose components
are the numbers 1, 0 and 1, 0, 1, compareVersions returns (0, nil), although
the versions differ and 1.0 is the smaller in the order of versions; the same
holds with the arguments exchanged. -/
theorem C21_prefix_version_compares_equal :
    Enforcer.compareVersions "1.0".toList "1.0.1".toList = (0, none) ∧
    Enforcer.compareVersions "1.0.1".toList "1.0".toList = (0, none) ∧
    (Strings.Split "1.0".toList '.').map Strconv.Atoi = [some 1, some 0] ∧
    (Strings.Split "1.0.1".toList '.').map Strconv.Atoi = [some 1, some 0, some 1] ∧
    Enforcer.versionOrder [1, 0] [1, 0, 1] = -1 ∧
    Enforcer.versionOrder [1, 0, 1] [1, 0] = 1 := by
  decide

end Kdeps

/-! ## The first line of a template -/

namespace Kdeps

namespace Strings

/-- A text found behind a front that does not hold its first character is
found there first. -/
theorem indexOf_after_front (front rest ntail : Str) (c : Char) (h : c ∉ front) :
    indexOf (front ++ (c :: ntail) ++ rest) (c :: ntail) = some front.length := by
  induction front with
  | nil =>
    have hp : HasPrefix ((c :: ntail) ++ rest) (c :: ntail) = true :=
      (hasPrefix_iff _ _).2 (List.prefix_append _ _)
    simp only [List.nil_append, List.length_nil]
    unfold indexOf
    simp only [List.cons_append] at hp ⊢
    rw [if_pos hp]
  | cons x front ih =>
    have hx : x ≠ c := fun e => h (by simp [e])
    have hrest : c ∉ front := fun e => h (List.mem_cons_of_mem _ e)
    have hp : ¬ HasPrefix (x :: (front ++ (c :: ntail) ++ rest)) (c :: ntail) = true := by
      simp [HasPrefix, hx]
    have ih2 := ih hrest
    simp only [List.cons_append, List.length_cons, List.append_assoc] at ih2 hp ⊢
    unfold indexOf
    rw [if_neg hp, ih2]
    rfl

/-- A character of a text is the separator or lies in a piece of the split. -/
theorem mem_split (s : Str) (sep c : Char) (h : c ∈ s) :
    c = sep ∨ ∃ piece ∈ Split s sep, c ∈ piece := by
  induction s with
  | nil => simp at h
  | cons x xs ih =>
    unfold Split
    by_cases hx : x = sep
    · rw [if_pos hx]
      rcases List.mem_cons.1 h with e | e
      · exact Or.inl (e.trans hx)
      · rcases ih e with e2 | ⟨piece, hp, hc⟩
        · exact Or.inl e2
        · exact Or.inr ⟨piece, List.mem_cons_of_mem _ hp, hc⟩
    · rw [if_neg hx]
      cases hs : Split xs sep with
      | nil =>
        rcases List.mem_cons.1 h with e | e
        · exact Or.inr ⟨[x], by simp, by simp [e]⟩
        · rcases ih e with e2 | ⟨piece, hp, _⟩
          · exact Or.inl e2
          · rw [hs] at hp
            simp at hp
      | cons first others =>
        rcases List.mem_cons.1 h with e | e
        · exact Or.inr ⟨x :: first, by simp, by simp [e]⟩
        · rcases ih e with e2 | ⟨piece, hp, hc⟩
          · exact Or.inl e2
          · rw [hs] at hp
            rcases List.mem_cons.1 hp with e3 | e3
            · exact Or.inr ⟨x :: first, by simp, by simp [← e3, hc]⟩
            · exact Or.inr ⟨piece, by simp [e3], hc⟩

end Strings

namespace Strconv

/-- A text that parseDigits reads holds decimal digits only. -/
theorem digits_of_parseDigits (s : Str) (n m : Nat) (h : parseDigits s n = some m) :
    ∀ c ∈ s, 48 ≤ c.toNat ∧ c.toNat ≤ 57 := by
  induction s generalizing n with
  | nil => simp
  | cons x xs ih =>
    unfold parseDigits at h
    by_cases hx : 48 ≤ x.toNat ∧ x.toNat ≤ 57
    · rw [if_pos hx] at h
      intro c hc
      rcases List.mem_cons.1 hc with e | e
      · rw [e]; exact hx
      · exact ih _ h c e
    · rw [if_neg hx] at h
      simp at h

/-- Atoi reads a text of decimal digits whose number fits `int`. -/
theorem atoi_of_digits (s : Str) (n : Nat) (hne : s ≠ []) (hparse : parseDigits s 0 = some n)
    (hfit : n < 2 ^ 63) : Atoi s = some (n : Int) := by
  cases s with
  | nil => exact absurd rfl hne
  | cons x xs =>
    have hx := digits_of_parseDigits (x :: xs) 0 n hparse x (by simp)
    have h1 : ¬ (x :: xs).head? = some '-' := by
      simp only [List.head?_cons, Option.some.injEq]
      intro e
      rw [e] at hx
      exact absurd hx (by decide)
    have h2 : ¬ (x :: xs).head? = some '+' := by
      simp only [List.head?_cons, Option.some.injEq]
      intro e
      rw [e] at hx
      exact absurd hx (by decide)
    unfold Atoi
    simp only [if_neg h1, if_neg h2, hparse]
    rw [if_neg hne, if_pos hfit]
    rfl

end Strconv

end Kdeps

namespace Kdeps

namespace Enforcer

/-- Versions whose components Atoi reads are compared without an error. -/
theorem compareParts_no_error (parts1 parts2 : List Str)
    (h1 : ∀ p ∈ parts1, ∃ a, Strconv.Atoi p = some a)
    (h2 : ∀ p ∈ parts2, ∃ a, Strconv.Atoi p = some a) :
    (compareParts parts1 parts2).2 = none := by
  induction parts1 generalizing parts2 with
  | nil => cases parts2 <;> rfl
  | cons p ps ih =>
    cases parts2 with
    | nil => rfl
    | cons q qs =>
      obtain ⟨a, ha⟩ := h1 p (by simp)
      obtain ⟨b, hb⟩ := h2 q (by simp)
      simp only [compareParts, ha, hb]
      by_cases hlt : a < b
      · rw [if_pos hlt]
      · rw [if_neg hlt]
        by_cases hgt : a > b
        · rw [if_pos hgt]
        · rw [if_neg hgt]
          exact ih qs (fun x hx => h1 x (List.mem_cons_of_mem _ hx))
            (fun x hx => h2 x (List.mem_cons_of_mem _ hx))

/-- Versions of numerals are compared without an error. -/
theorem compareVersions_numeric (v1 v2 : Str)
    (h1 : ∀ p ∈ Strings.Split v1 '.', Numeral p)
    (h2 : ∀ p ∈ Strings.Split v2 '.', Numeral p) :
    (compareVersions v1 v2).2 = none := by
  apply compareParts_no_error
  · intro p hp
    obtain ⟨hne, n, hn, hfit⟩ := h1 p hp
    exact ⟨n, Strconv.atoi_of_digits p n hne hn hfit⟩
  · intro p hp
    obtain ⟨hne, n, hn, hfit⟩ := h2 p hp
    exact ⟨n, Strconv.atoi_of_digits p n hne hn hfit⟩

/-- A version of numerals holds digits and dots only. -/
theorem numeric_chars (v : Str) (h : ∀ p ∈ Strings.Split v '.', Numeral p) (c : Char)
    (hc : c ∈ v) : c = '.' ∨ (48 ≤ c.toNat ∧ c.toNat ≤ 57) := by
  rcases Strings.mem_split v '.' c hc with e | ⟨piece, hp, hcp⟩
  · exact Or.inl e
  · obtain ⟨_, n, hn, _⟩ := h piece hp
    exact Or.inr (Strconv.digits_of_parseDigits piece 0 n hn c hcp)

/-- One turn of the scanner loop. -/
theorem scanLoop_cons (caseTable : Char → Char) (schemaVersion filePath piece : Str)
    (rest : List Str) :
    scanLoop caseTable schemaVersion filePath (piece :: rest) =
      if Strings.byteLen piece ≥ Bufio.MaxScanTokenSize then some Bufio.ErrTooLong
      else if Strings.TrimSpace (Bufio.dropCR piece) = [] then
        scanLoop caseTable schemaVersion filePath rest
      else checkLine caseTable schemaVersion filePath (Strings.TrimSpace (Bufio.dropCR piece)) :=
  rfl

/-- The scanner loop passes over short blank pieces. -/
theorem scanLoop_skips_blank (caseTable : Char → Char) (schemaVersion filePath : Str)
    (front rest : List Str)
    (hfront : ∀ p ∈ front, Strings.byteLen p < Bufio.MaxScanTokenSize ∧
      Strings.TrimSpace (Bufio.dropCR p) = []) :
    scanLoop caseTable schemaVersion filePath (front ++ rest) =
      scanLoop caseTable schemaVersion filePath rest := by
  induction front with
  | nil => rfl
  | cons p ps ih =>
    obtain ⟨hshort, hblank⟩ := hfront p (by simp)
    have hnot : ¬ Strings.byteLen p ≥ Bufio.MaxScanTokenSize := by omega
    rw [List.cons_append, scanLoop_cons, if_neg hnot, if_pos hblank]
    exact ih (fun x hx => hfront x (List.mem_cons_of_mem _ hx))

/-- The first short piece that is not blank decides. -/
theorem scanLoop_first_line (caseTable : Char → Char) (schemaVersion filePath : Str)
    (front back : List Str) (piece : Str)
    (hfront : ∀ p ∈ front, Strings.byteLen p < Bufio.MaxScanTokenSize ∧
      Strings.TrimSpace (Bufio.dropCR p) = [])
    (hshort : Strings.byteLen piece < Bufio.MaxScanTokenSize)
    (hline : Strings.TrimSpace (Bufio.dropCR piece) ≠ []) :
    scanLoop caseTable schemaVersion filePath (front ++ piece :: back) =
      checkLine caseTable schemaVersion filePath (Strings.TrimSpace (Bufio.dropCR piece)) := by
  rw [scanLoop_skips_blank caseTable schemaVersion filePath front _ hfront]
  have hnot : ¬ Strings.byteLen piece ≥ Bufio.MaxScanTokenSize := by omega
  rw [scanLoop_cons, if_neg hnot, if_neg hline]

/-- A line that does not start with the keyword or does not name the schema
host is rejected. -/
theorem checkLine_rejects (caseTable : Char → Char) (schemaVersion filePath line : Str)
    (h : Strings.HasPrefix line "amends".toList = false ∨
      Strings.Contains line "schema.kdeps.com/core".toList = false) :
    ∃ err, checkLine caseTable schemaVersion filePath line = some err := by
  unfold checkLine
  by_cases hext : Filepath.Ext filePath ≠ ".pkl".toList
  · rw [if_pos hext]
    exact ⟨_, rfl⟩
  · rw [if_neg hext]
    have hurl : ∃ err, EnforceSchemaURL line = some err := by
      unfold EnforceSchemaURL
      cases hp : Strings.HasPrefix line "amends".toList with
      | false => exact ⟨_, rfl⟩
      | true =>
        rcases h with h | h
        · rw [hp] at h
          cases h
        · rw [h]
          exact ⟨_, rfl⟩
    obtain ⟨err, herr⟩ := hurl
    rw [herr]
    exact ⟨err, rfl⟩

end Enforcer

end Kdeps

namespace Kdeps

namespace Enforcer

/-- The base name and the extension of a file `workflow.pkl` in a directory. -/
theorem workflow_name (dir : Str) :
    Filepath.Base (dir ++ "/workflow.pkl".toList) = "workflow.pkl".toList ∧
    Filepath.Ext (dir ++ "/workflow.pkl".toList) = ".pkl".toList := by
  have hrev : (dir ++ "/workflow.pkl".toList).reverse =
      "lkp.wolfkrow".toList ++ '/' :: dir.reverse := by
    rw [List.reverse_append]
    rfl
  have hne : dir ++ "/workflow.pkl".toList ≠ [] := by simp
  constructor
  · unfold Filepath.Base
    rw [if_neg hne]
    simp only [hrev, List.reverse_reverse]
    have hdrop : List.dropWhile (fun c => c == '/')
        ("lkp.wolfkrow".toList ++ '/' :: dir.reverse) =
          "lkp.wolfkrow".toList ++ '/' :: dir.reverse := rfl
    have htake : List.takeWhile (fun c => c != '/')
        ("lkp.wolfkrow".toList ++ '/' :: dir.reverse) = "lkp.wolfkrow".toList := rfl
    rw [hdrop, htake]
    rfl
  · unfold Filepath.Ext
    simp only [hrev]
    rfl

/-- The header line around its version. -/
theorem amendsLine_split (version module : Str) :
    amendsLine version module =
      "amends \"package://schema.kdeps.com/core".toList ++ '@' :: version ++
        '#' :: '/' :: (module ++ "\"".toList) := by
  unfold amendsLine
  simp

end Enforcer

end Kdeps

namespace Kdeps

namespace Enforcer

/-- The header line passes EnforceSchemaURL. -/
theorem schemaURL_amendsLine (version module : Str) :
    EnforceSchemaURL (amendsLine version module) = none := by
  have hp : Strings.HasPrefix (amendsLine version module) "amends".toList = true := by
    rw [Strings.hasPrefix_iff]
    exact ⟨" \"package://schema.kdeps.com/core@".toList ++ version ++ "#/".toList ++ module ++
      "\"".toList, by simp [amendsLine]⟩
  have hc : Strings.Contains (amendsLine version module) "schema.kdeps.com/core".toList = true := by
    rw [Strings.contains_iff]
    exact ⟨"amends \"package://".toList,
      "@".toList ++ version ++ "#/".toList ++ module ++ "\"".toList, by simp [amendsLine]⟩
  unfold EnforceSchemaURL
  rw [hp, hc]
  rfl

/-- No `#` stands before the `#/` of the header line of a numeric version. -/
theorem no_hash_before (version : Str) (hversion : ∀ p ∈ Strings.Split version '.', Numeral p) :
    '#' ∉ "amends \"package://schema.kdeps.com/core".toList ++ '@' :: version := by
  intro h
  rcases List.mem_append.1 h with h1 | h1
  · exact absurd h1 (by decide)
  · rcases List.mem_cons.1 h1 with h2 | h2
    · exact absurd h2 (by decide)
    · rcases numeric_chars version hversion '#' h2 with h3 | h3
      · exact absurd h3 (by decide)
      · exact absurd h3 (by decide)

/-- The offsets that the validations read off the header line. -/
theorem amendsLine_offsets (version module : Str)
    (hversion : ∀ p ∈ Strings.Split version '.', Numeral p) :
    Strings.Index (amendsLine version module) "@".toList = 39 ∧
    Strings.Index (amendsLine version module) "#".toList = ((40 + version.length : Nat) : Int) ∧
    Strings.Index (amendsLine version module) "#/".toList =
      ((40 + version.length : Nat) : Int) := by
  have hat : '@' ∉ "amends \"package://schema.kdeps.com/core".toList := by decide
  have hhash := no_hash_before version hversion
  have hlen : ("amends \"package://schema.kdeps.com/core".toList ++ '@' :: version).length =
      40 + version.length := by
    rw [List.length_append, List.length_cons]
    have : "amends \"package://schema.kdeps.com/core".toList.length = 39 := by decide
    omega
  refine ⟨?_, ?_, ?_⟩
  · have h := Strings.indexOf_after_front "amends \"package://schema.kdeps.com/core".toList
      (version ++ '#' :: '/' :: (module ++ "\"".toList)) [] '@' hat
    have e : amendsLine version module =
        "amends \"package://schema.kdeps.com/core".toList ++ ['@'] ++
          (version ++ '#' :: '/' :: (module ++ "\"".toList)) := by
      rw [amendsLine_split]
      simp
    rw [e]
    unfold Strings.Index
    rw [show "@".toList = ['@'] from rfl, h]
    rfl
  · have h := Strings.indexOf_after_front
      ("amends \"package://schema.kdeps.com/core".toList ++ '@' :: version)
      ('/' :: (module ++ "\"".toList)) [] '#' hhash
    have e : amendsLine version module =
        ("amends \"package://schema.kdeps.com/core".toList ++ '@' :: version) ++ ['#'] ++
          ('/' :: (module ++ "\"".toList)) := by
      rw [amendsLine_split]
      simp
    rw [e, ← hlen]
    unfold Strings.Index
    rw [show "#".toList = ['#'] from rfl, h]
  · have h := Strings.indexOf_after_front
      ("amends \"package://schema.kdeps.com/core".toList ++ '@' :: version)
      (module ++ "\"".toList) ['/'] '#' hhash
    have e : amendsLine version module =
        ("amends \"package://schema.kdeps.com/core".toList ++ '@' :: version) ++ ['#', '/'] ++
          (module ++ "\"".toList) := by
      rw [amendsLine_split]
      simp
    rw [e, ← hlen]
    unfold Strings.Index
    rw [show "#/".toList = ['#', '/'] from rfl, h]

end Enforcer

end Kdeps

namespace Kdeps

namespace Enforcer

/-- The version that EnforcePklVersion cuts out of the header line. -/
theorem amendsLine_version (version module : Str) :
    ((amendsLine version module).take (40 + version.length)).drop 40 = version := by
  have e : amendsLine version module =
      ("amends \"package://schema.kdeps.com/core@".toList ++ version) ++
        '#' :: '/' :: (module ++ "\"".toList) := by
    unfold amendsLine
    simp
  have hlen : ("amends \"package://schema.kdeps.com/core@".toList ++ version).length =
      40 + version.length := by
    rw [List.length_append]
    have : "amends \"package://schema.kdeps.com/core@".toList.length = 40 := by decide
    omega
  rw [e, ← hlen, List.take_left']
  · have h40 : "amends \"package://schema.kdeps.com/core@".toList.length = 40 := by decide
    exact List.drop_left' h40
  · rfl

/-- What stands behind the `#/` of the header line. -/
theorem amendsLine_module (version module : Str) :
    (amendsLine version module).drop (40 + version.length + 2) = module ++ "\"".toList := by
  have e : amendsLine version module =
      ("amends \"package://schema.kdeps.com/core@".toList ++ version ++ "#/".toList) ++
        (module ++ "\"".toList) := by
    unfold amendsLine
    simp
  have hlen : ("amends \"package://schema.kdeps.com/core@".toList ++ version ++
      "#/".toList).length = 40 + version.length + 2 := by
    rw [List.length_append, List.length_append]
    have h1 : "amends \"package://schema.kdeps.com/core@".toList.length = 40 := by decide
    have h2 : "#/".toList.length = 2 := by decide
    omega
  rw [e, ← hlen, List.drop_left']
  rfl

/-- The header line of a numeric version passes EnforcePklVersion against a
numeric schema version. -/
theorem version_amendsLine (version module schemaVersion : Str)
    (hversion : ∀ p ∈ Strings.Split version '.', Numeral p)
    (hschema : ∀ p ∈ Strings.Split schemaVersion '.', Numeral p) :
    EnforcePklVersion (amendsLine version module) schemaVersion = none := by
  obtain ⟨hat, hhash, _⟩ := amendsLine_offsets version module hversion
  unfold EnforcePklVersion
  simp only [hat, hhash]
  have hcond : ¬ ((39 : Int) = -1 ∨ ((40 + version.length : Nat) : Int) = -1 ∨
      (39 : Int) ≥ ((40 + version.length : Nat) : Int)) := by
    omega
  rw [if_neg hcond]
  have h1 : (((40 + version.length : Nat) : Int)).toNat = 40 + version.length :=
    Int.toNat_ofNat _
  have h2 : ((39 : Int) + 1).toNat = 40 := by decide
  rw [h1, h2, amendsLine_version, compareVersions_numeric version schemaVersion hversion hschema]

/-- The header line that names Workflow.pkl passes EnforcePklFilename for a file
workflow.pkl. -/
theorem filename_amendsLine (caseTable : Char → Char) (version dir : Str)
    (hversion : ∀ p ∈ Strings.Split version '.', Numeral p) :
    EnforcePklFilename caseTable (amendsLine version "Workflow.pkl".toList)
      (dir ++ "/workflow.pkl".toList) = none := by
  obtain ⟨_, _, hidx⟩ := amendsLine_offsets version "Workflow.pkl".toList hversion
  unfold EnforcePklFilename
  simp only [hidx]
  have hcond : ¬ (((40 + version.length : Nat) : Int) = -1) := by omega
  rw [if_neg hcond]
  have h1 : (((40 + version.length : Nat) : Int) + 2).toNat = 40 + version.length + 2 := by
    omega
  rw [h1, amendsLine_module, (workflow_name dir).1]
  rfl

/-- A file workflow.pkl with the header line of a numeric version passes the
validations. -/
theorem checkLine_accepts_workflow (caseTable : Char → Char) (schemaVersion version dir : Str)
    (hversion : ∀ p ∈ Strings.Split version '.', Numeral p)
    (hschema : ∀ p ∈ Strings.Split schemaVersion '.', Numeral p) :
    checkLine caseTable schemaVersion (dir ++ "/workflow.pkl".toList)
      (amendsLine version "Workflow.pkl".toList) = none := by
  unfold checkLine
  have hext : ¬ Filepath.Ext (dir ++ "/workflow.pkl".toList) ≠ ".pkl".toList :=
    not_not.2 (workflow_name dir).2
  rw [if_neg hext, schemaURL_amendsLine,
    version_amendsLine version _ schemaVersion hversion hschema,
    filename_amendsLine caseTable version dir hversion]

end Enforcer

end Kdeps

namespace Kdeps

namespace Strings

/-- A text without the separator is one piece. -/
theorem split_of_not_mem (s : Str) (sep : Char) (h : sep ∉ s) : Split s sep = [s] := by
  induction s with
  | nil => rfl
  | cons x xs ih =>
    have hx : ¬ x = sep := fun e => h (by simp [e])
    have hxs : sep ∉ xs := fun e => h (List.mem_cons_of_mem _ e)
    unfold Split
    rw [if_neg hx, ih hxs]

/-- The bytes of a run of blanks. -/
theorem byteLen_blanks (n : Nat) : byteLen (List.replicate n ' ') = n := by
  unfold byteLen
  rw [List.map_replicate, List.sum_replicate]
  have : ' '.utf8Size = 1 := by decide
  rw [this]
  simp

end Strings

namespace Enforcer

/-- The components of the specified schema version are numerals. -/
theorem specified_numeric : ∀ p ∈ Strings.Split Schema.specifiedVersion '.', Numeral p := by
  intro p hp
  have hp2 : p ∈ ["0".toList, "1".toList, "46".toList] := hp
  simp only [List.mem_cons, List.mem_singleton, List.not_mem_nil, or_false] at hp2
  rcases hp2 with h | h | h <;> subst h
  · exact ⟨by decide, 0, by decide, by decide⟩
  · exact ⟨by decide, 1, by decide, by decide⟩
  · exact ⟨by decide, 46, by decide, by decide⟩

/-- A file that is one run of blanks as long as the buffer of the scanner, or
longer, stops the scanner. -/
theorem blank_run_too_long (caseTable : Char → Char) (schemaVersion : Str) (fs : Fs)
    (filePath : Str) (n : Nat) (hn : Bufio.MaxScanTokenSize ≤ n)
    (hread : Afero.ReadFile fs filePath = .ok (List.replicate n ' ')) :
    EnforcePklTemplateAmendsRules caseTable schemaVersion fs filePath =
      some Bufio.ErrTooLong := by
  have hmem : '\n' ∉ List.replicate n ' ' := by
    intro h
    exact absurd (List.eq_of_mem_replicate h) (by decide)
  have hpos : 0 < n := Nat.lt_of_lt_of_le (by decide) hn
  have hne : List.replicate n ' ' ≠ [] := by
    intro h
    have := congrArg List.length h
    simp at this
    omega
  have hpieces : Bufio.pieces (List.replicate n ' ') = [List.replicate n ' '] := by
    unfold Bufio.pieces
    rw [Strings.split_of_not_mem _ _ hmem]
    have : ¬ [List.replicate n ' '].getLast? = some [] := by
      simp only [List.getLast?_singleton, Option.some.injEq]
      exact hne
    rw [if_neg this]
  unfold EnforcePklTemplateAmendsRules
  rw [hread]
  simp only
  rw [hpieces, scanLoop_cons, Strings.byteLen_blanks, if_pos hn]

end Enforcer

end Kdeps

namespace Kdeps

/-- C22, amended: in a file that can be read and whose pieces up to the first
line that is not blank are shorter than the buffer of the scanner, only that
line (trimmed) is examined: without such a line the error is
`no valid 'amends' line found`; the result is that of the validations of that
line, whatever follows it; a line that does not start with `amends` or does
not contain `schema.kdeps.com/core` gives an error; and in a file workflow.pkl
the line `amends "package://schema.kdeps.com/core@<version>#/Workflow.pkl"` is
accepted when the components of the version and of the schema version are
decimal numbers within the range of `int`. -/
theorem C22_first_line_of_template (caseTable : Char → Char) (schemaVersion : Str) (fs : Fs)
    (filePath content : Str) (front : List Str)
    (hread : Afero.ReadFile fs filePath = .ok content)
    (hfront : ∀ p ∈ front, Strings.byteLen p < Bufio.MaxScanTokenSize ∧
      Strings.TrimSpace (Bufio.dropCR p) = []) :
    (Bufio.pieces content = front →
      Enforcer.EnforcePklTemplateAmendsRules caseTable schemaVersion fs filePath =
        some "no valid 'amends' line found".toList) ∧
    (∀ piece back, Bufio.pieces content = front ++ piece :: back →
      Strings.byteLen piece < Bufio.MaxScanTokenSize →
      Strings.TrimSpace (Bufio.dropCR piece) ≠ [] →
      Enforcer.EnforcePklTemplateAmendsRules caseTable schemaVersion fs filePath =
        Enforcer.checkLine caseTable schemaVersion filePath
          (Strings.TrimSpace (Bufio.dropCR piece)) ∧
      ((Strings.HasPrefix (Strings.TrimSpace (Bufio.dropCR piece)) "amends".toList = false ∨
        Strings.Contains (Strings.TrimSpace (Bufio.dropCR piece))
          "schema.kdeps.com/core".toList = false) →
        ∃ err, Enforcer.EnforcePklTemplateAmendsRules caseTable schemaVersion fs filePath =
          some err) ∧
      (∀ dir version, filePath = dir ++ "/workflow.pkl".toList →
        Strings.TrimSpace (Bufio.dropCR piece) =
          Enforcer.amendsLine version "Workflow.pkl".toList →
        (∀ p ∈ Strings.Split version '.', Enforcer.Numeral p) →
        (∀ p ∈ Strings.Split schemaVersion '.', Enforcer.Numeral p) →
        Enforcer.EnforcePklTemplateAmendsRules caseTable schemaVersion fs filePath = none)) := by
  have hrun : Enforcer.EnforcePklTemplateAmendsRules caseTable schemaVersion fs filePath =
      Enforcer.scanLoop caseTable schemaVersion filePath (Bufio.pieces content) := by
    unfold Enforcer.EnforcePklTemplateAmendsRules
    rw [hread]
  constructor
  · intro hpieces
    rw [hrun, hpieces]
    have h := Enforcer.scanLoop_skips_blank caseTable schemaVersion filePath front [] hfront
    rw [List.append_nil] at h
    rw [h]
    rfl
  · intro piece back hpieces hshort hline
    have hfirst : Enforcer.EnforcePklTemplateAmendsRules caseTable schemaVersion fs filePath =
        Enforcer.checkLine caseTable schemaVersion filePath
          (Strings.TrimSpace (Bufio.dropCR piece)) := by
      rw [hrun, hpieces]
      exact Enforcer.scanLoop_first_line caseTable schemaVersion filePath front back piece
        hfront hshort hline
    refine ⟨hfirst, ?_, ?_⟩
    · intro hbad
      rw [hfirst]
      exact Enforcer.checkLine_rejects caseTable schemaVersion filePath _ hbad
    · intro dir version hpath hamends hversion hschema
      rw [hfirst, hamends, hpath]
      exact Enforcer.checkLine_accepts_workflow caseTable schemaVersion version dir
        hversion hschema

set_option maxRecDepth 1000000 in
/-- C22 on a workflow.pkl whose header line follows a blank line, which is
accepted, and on the workflow1.pkl of the test, which is rejected. -/
theorem C22_first_line_of_template_witness :
    Enforcer.EnforcePklTemplateAmendsRules id Schema.specifiedVersion
        (Sample.fsFile Sample.workflowPath Sample.validWorkflow) Sample.workflowPath = none ∧
    ∃ err, Enforcer.EnforcePklTemplateAmendsRules id Schema.specifiedVersion
        (Sample.fsFile "/agent/workflow/workflow1.pkl".toList Sample.invalidWorkflow)
        "/agent/workflow/workflow1.pkl".toList = some err :=
  ⟨(C22_first_line_of_template id Schema.specifiedVersion
      (Sample.fsFile Sample.workflowPath Sample.validWorkflow) Sample.workflowPath
      Sample.validWorkflow [[]] rfl (by decide)).2
      "amends \"package://schema.kdeps.com/core@0.1.46#/Workflow.pkl\"".toList
      [[], "name = \"agent\"".toList] (by decide) (by decide) (by decide) |>.2.2
      "/agent/workflow".toList Schema.specifiedVersion rfl (by decide)
      Enforcer.specified_numeric Enforcer.specified_numeric,
   (C22_first_line_of_template id Schema.specifiedVersion
      (Sample.fsFile "/agent/workflow/workflow1.pkl".toList Sample.invalidWorkflow)
      "/agent/workflow/workflow1.pkl".toList Sample.invalidWorkflow [[]] rfl (by decide)).2
      "name = \"invalid agent\"".toList
      ["description = \"a not valid configuration\"".toList, "version = \"five\"".toList,
        "action = \"hello World\"".toList] (by decide) (by decide) (by decide) |>.2.1
      (Or.inl (by decide))⟩

set_option maxRecDepth 1000000 in
/-- C22 as stated fails: a workflow.pkl whose header line has the numeric
version 0.1.9223372036854775808 is rejected with `invalid version format`, and
a file that is one blank line of 65536 blanks gives the error of the scanner,
not `no valid 'amends' line found`. -/
theorem C22_wide_version_and_long_line :
    Enforcer.EnforcePklTemplateAmendsRules id Schema.specifiedVersion
        (Sample.fsFile Sample.workflowPath Sample.wideVersionWorkflow) Sample.workflowPath =
      some "invalid version format".toList ∧
    Bufio.pieces Sample.wideVersionWorkflow =
      [Enforcer.amendsLine "0.1.9223372036854775808".toList "Workflow.pkl".toList] ∧
    (∀ p ∈ Strings.Split "0.1.9223372036854775808".toList '.',
      p ≠ [] ∧ ∀ c ∈ p, 48 ≤ c.toNat ∧ c.toNat ≤ 57) ∧
    Enforcer.EnforcePklTemplateAmendsRules id Schema.specifiedVersion
        (Sample.fsFile Sample.workflowPath (List.replicate 65536 ' ')) Sample.workflowPath =
      some Bufio.ErrTooLong ∧
    Bufio.ErrTooLong ≠ "no valid 'amends' line found".toList :=
  ⟨by decide, by decide, by decide,
    Enforcer.blank_run_too_long id Schema.specifiedVersion
      (Sample.fsFile Sample.workflowPath (List.replicate 65536 ' ')) Sample.workflowPath 65536
      (by decide) rfl,
    by decide⟩

end Kdeps

/-! ## The configuration file and the response descriptor -/

namespace Kdeps

namespace Environment

/-- The path that checkConfig looks at ends in the name of the configuration
file; it is not empty. -/
theorem config_path (baseDir : Str) :
    SystemConfigFileName <:+ Filepath.Join [baseDir, SystemConfigFileName] ∧
    Filepath.Join [baseDir, SystemConfigFileName] ≠ [] := by
  have h : SystemConfigFileName <:+ Filepath.Join [baseDir, [] ++ SystemConfigFileName] :=
    Filepath.join_suffix baseDir [] SystemConfigFileName (by decide) (by decide)
  rw [List.nil_append] at h
  refine ⟨h, ?_⟩
  intro hnil
  rw [hnil] at h
  exact absurd (List.IsSuffix.length_le h) (by decide)

/-- What checkConfig returns. -/
theorem checkConfig_path (fs : Fs) (baseDir : Str) :
    (checkConfig fs baseDir).1 =
      if Afero.Exists fs (Filepath.Join [baseDir, SystemConfigFileName]) = (true, none) then
        Filepath.Join [baseDir, SystemConfigFileName]
      else [] := by
  unfold checkConfig
  rcases h : Afero.Exists fs (Filepath.Join [baseDir, SystemConfigFileName]) with ⟨found, err⟩
  cases found <;> cases err <;> simp

/-- The order in which findKdepsConfig looks the two directories up. -/
theorem findKdepsConfig_order (fs : Fs) (pwd home : Str) :
    findKdepsConfig fs pwd home =
      (if Afero.Exists fs (Filepath.Join [pwd, SystemConfigFileName]) = (true, none) then
        Filepath.Join [pwd, SystemConfigFileName]
      else if Afero.Exists fs (Filepath.Join [home, SystemConfigFileName]) = (true, none) then
        Filepath.Join [home, SystemConfigFileName]
      else []) := by
  unfold findKdepsConfig
  rw [checkConfig_path fs pwd, checkConfig_path fs home]
  have hp := (config_path pwd).2
  have hh := (config_path home).2
  by_cases h1 : Afero.Exists fs (Filepath.Join [pwd, SystemConfigFileName]) = (true, none)
  · simp only [if_pos h1, if_pos hp]
  · simp only [if_neg h1, ne_eq, not_true_eq_false, if_false]
    by_cases h2 : Afero.Exists fs (Filepath.Join [home, SystemConfigFileName]) = (true, none)
    · simp only [if_pos h2, hh, not_false_eq_true, if_true]
    · simp only [if_neg h2, not_true_eq_false, if_false]

end Environment

/-- C23: findKdepsConfig returns the path of `.kdeps.pkl` in `pwd` if afero.Exists
finds that file, otherwise the path of `.kdeps.pkl` in `home` if afero.Exists
finds that one, otherwise the empty string; so the file of `pwd` wins when both
exist. The two paths are `filepath.Join(dir, ".kdeps.pkl")` and end in
`.kdeps.pkl`. -/
theorem C23_config_lookup_order (fs : Fs) (pwd home : Str) :
    Environment.findKdepsConfig fs pwd home =
      (if Afero.Exists fs (Filepath.Join [pwd, ".kdeps.pkl".toList]) = (true, none) then
        Filepath.Join [pwd, ".kdeps.pkl".toList]
      else if Afero.Exists fs (Filepath.Join [home, ".kdeps.pkl".toList]) = (true, none) then
        Filepath.Join [home, ".kdeps.pkl".toList]
      else []) ∧
    ".kdeps.pkl".toList <:+ Filepath.Join [pwd, ".kdeps.pkl".toList] ∧
    ".kdeps.pkl".toList <:+ Filepath.Join [home, ".kdeps.pkl".toList] := by
  exact ⟨Environment.findKdepsConfig_order fs pwd home, (Environment.config_path pwd).1,
    (Environment.config_path home).1⟩

end Kdeps

namespace Kdeps

namespace Resolver

/-- The scan of the sentinels leaves the path of the response descriptor. -/
theorem scanFlags_descriptor (dr : DependencyResolver) (rows : List (Str × Str × Str)) :
    (scanFlags dr rows).1.ResponsePklFile = dr.ResponsePklFile := by
  induction rows generalizing dr with
  | nil => rfl
  | cons e rest ih =>
    obtain ⟨flag, ext, format⟩ := e
    unfold scanFlags
    simp only
    cases hx : Afero.Exists dr.Fs (flagPath dr flag) with
    | mk found err =>
      cases err with
      | some msg => cases found <;> rfl
      | none =>
        cases found with
        | true => rfl
        | false => exact ih _

/-- The removal of the stale descriptor reads the file system and the path of
the descriptor only. -/
theorem afterRemoval_congr (dr1 dr2 : DependencyResolver) (state : Bool × Int × Str)
    (hfs : dr1.Fs = dr2.Fs) (hpath : dr1.ResponsePklFile = dr2.ResponsePklFile) :
    afterRemoval dr1 state = afterRemoval dr2 state := by
  unfold afterRemoval
  rw [hfs, hpath]

/-- The errors section of a failure differs from the one of a success. -/
theorem errorsBlock_failure_ne (printTable : Char → Bool) (message : Str) :
    errorsBlock printTable 500 message ≠ errorsBlock printTable 0 [] := by
  intro h
  have h1 : (errorsBlock printTable 500 message).take 19 = "errors \x7b\n  code = 5".toList := rfl
  have h2 : (errorsBlock printTable 0 []).take 19 = "errors \x7b\n  code = 0".toList := rfl
  rw [h] at h1
  rw [h1] at h2
  exact absurd h2 (by decide)

end Resolver

/-- C24: the sections that CreateResponsePklFile hands on are the success line,
the response section and the errors section, in this order. When the sentinel
lookup returns nil and the removal of a stale response descriptor does not
fail, the success line is the one of the argument and the errors section has
code 0 and the empty message; when the removal fails, or the lookup fails and
the removal does not, the success line is `success = false` and the errors
section has code 500 and the message of that failure. The errors section is
the one of code 0 and the empty message exactly when both steps succeed, and a
success line of `true` comes with code 0 only. -/
theorem C24_response_sections (printTable : Char → Bool) (dr : DependencyResolver)
    (success : Bool) (now : Int) :
    ∃ flag code message,
      (Resolver.CreateResponsePklFile printTable dr success now).2 =
        [Resolver.successLine flag, Resolver.responseBlock now,
          Resolver.errorsBlock printTable code message] ∧
      ((Resolver.GetResponseFlag dr).2 = none →
        (Afero.StatOk dr.Fs dr.ResponsePklFile = false ∨
          ∃ fs1, Afero.RemoveAll dr.Fs dr.ResponsePklFile = .ok fs1) →
        flag = success ∧ code = 0 ∧ message = []) ∧
      (∀ err, (Resolver.GetResponseFlag dr).2 = some err →
        (Afero.StatOk dr.Fs dr.ResponsePklFile = false ∨
          ∃ fs1, Afero.RemoveAll dr.Fs dr.ResponsePklFile = .ok fs1) →
        flag = false ∧ code = 500 ∧ message = err.toList) ∧
      (∀ err, Afero.StatOk dr.Fs dr.ResponsePklFile = true →
        Afero.RemoveAll dr.Fs dr.ResponsePklFile = .error err →
        flag = false ∧ code = 500 ∧ message = err.toList) ∧
      (Resolver.errorsBlock printTable code message = Resolver.errorsBlock printTable 0 [] ↔
        ((Resolver.GetResponseFlag dr).2 = none ∧
          (Afero.StatOk dr.Fs dr.ResponsePklFile = false ∨
            ∃ fs1, Afero.RemoveAll dr.Fs dr.ResponsePklFile = .ok fs1))) ∧
      (flag = true → code = 0) := by
  have hfs : (Resolver.GetResponseFlag dr).1.Fs = dr.Fs := Resolver.scanFlags_fs dr _
  have hpath : (Resolver.GetResponseFlag dr).1.ResponsePklFile = dr.ResponsePklFile :=
    Resolver.scanFlags_descriptor dr _
  have hrem : ∀ state, Resolver.afterRemoval (Resolver.GetResponseFlag dr).1 state =
      Resolver.afterRemoval dr state :=
    fun state => Resolver.afterRemoval_congr _ _ state hfs hpath
  refine ⟨(Resolver.afterRemoval dr
      (Resolver.afterLookup success (Resolver.GetResponseFlag dr).2)).2.1,
    (Resolver.afterRemoval dr
      (Resolver.afterLookup success (Resolver.GetResponseFlag dr).2)).2.2.1,
    (Resolver.afterRemoval dr
      (Resolver.afterLookup success (Resolver.GetResponseFlag dr).2)).2.2.2, ?_, ?_⟩
  · unfold Resolver.CreateResponsePklFile
    simp only [hrem]
  · unfold Resolver.afterRemoval
    cases hstat : Afero.StatOk dr.Fs dr.ResponsePklFile with
    | false =>
      cases hflag : (Resolver.GetResponseFlag dr).2 with
      | none =>
        simp [Resolver.afterLookup]
      | some e =>
        simp [Resolver.afterLookup, Resolver.errorsBlock_failure_ne]
    | true =>
      cases hrm : Afero.RemoveAll dr.Fs dr.ResponsePklFile with
      | error e =>
        simp [Resolver.errorsBlock_failure_ne]
      | ok fs1 =>
        cases hflag : (Resolver.GetResponseFlag dr).2 with
        | none =>
          simp [Resolver.afterLookup]
        | some e =>
          simp [Resolver.afterLookup, Resolver.errorsBlock_failure_ne]

end Kdeps

/-! ## Identifiers of the order without a catalog entry -/

namespace Kdeps

namespace Resolver

/-- The calls for a resource name that resource. -/
theorem runResource_steps (c : Collaborators) (rank : Str → Nat) (dr : DependencyResolver)
    (res : ResourceNodeEntry) : ∀ s ∈ (runResource c rank dr res).2.2, s.res = res := by
  unfold runResource
  cases hp : PrependDynamicImports dr rank res with
  | mk err fs1 =>
    cases err with
    | some e =>
      intro s hs
      simp only [List.mem_singleton] at hs
      rw [hs]
    | none =>
      simp only
      cases hl : c.LoadFromPath fs1 res.File with
      | mk err2 fs2 =>
        cases err2 with
        | some e =>
          intro s hs
          simp only [List.mem_cons, List.mem_singleton, List.not_mem_nil, or_false] at hs
          rcases hs with h | h <;> rw [h]
        | none =>
          intro s hs
          simp only [List.mem_cons, List.mem_singleton, List.not_mem_nil, or_false] at hs
          rcases hs with h | h <;> rw [h]

/-- The calls of the inner loop are for catalog entries of the identifier. -/
theorem runNode_steps (c : Collaborators) (rank : Str → Nat) (resNode : Str)
    (resources : List ResourceNodeEntry) (dr : DependencyResolver) :
    ∀ s ∈ (runNode c rank resNode resources dr).2.2, s.res ∈ resources ∧ s.res.Id = resNode := by
  induction resources generalizing dr with
  | nil =>
    intro s hs
    simp [runNode] at hs
  | cons res rest ih =>
    unfold runNode
    by_cases hid : res.Id = resNode
    · rw [if_pos hid]
      have hres := runResource_steps c rank dr res
      cases hr : runResource c rank dr res with
      | mk err rest1 =>
        obtain ⟨dr1, steps⟩ := rest1
        rw [hr] at hres
        cases err with
        | some e =>
          intro s hs
          have := hres s hs
          rw [this]
          exact ⟨List.mem_cons_self _ _, hid⟩
        | none =>
          intro s hs
          simp only at hs
          rcases List.mem_append.1 hs with h | h
          · have := hres s h
            rw [this]
            exact ⟨List.mem_cons_self _ _, hid⟩
          · exact ⟨List.mem_cons_of_mem _ (ih dr1 s h).1, (ih dr1 s h).2⟩
    · rw [if_neg hid]
      intro s hs
      exact ⟨List.mem_cons_of_mem _ (ih dr s hs).1, (ih dr s hs).2⟩

/-- The calls of a run are for catalog entries of identifiers of the order. -/
theorem runStack_steps (c : Collaborators) (rank : Str → Nat)
    (resources : List ResourceNodeEntry) (stack : List Str) (dr : DependencyResolver) :
    ∀ s ∈ (runStack c rank resources stack dr).2.2, s.res ∈ resources ∧ s.res.Id ∈ stack := by
  induction stack generalizing dr with
  | nil =>
    intro s hs
    simp [runStack] at hs
  | cons resNode rest ih =>
    unfold runStack
    have hnode := runNode_steps c rank resNode resources dr
    cases hr : runNode c rank resNode resources dr with
    | mk err rest1 =>
      obtain ⟨dr1, steps⟩ := rest1
      rw [hr] at hnode
      cases err with
      | some e =>
        intro s hs
        have h := hnode s hs
        exact ⟨h.1, by rw [h.2]; exact List.mem_cons_self _ _⟩
      | none =>
        intro s hs
        simp only at hs
        rcases List.mem_append.1 hs with h | h
        · have h2 := hnode s h
          exact ⟨h2.1, by rw [h2.2]; exact List.mem_cons_self _ _⟩
        · exact ⟨(ih dr1 s h).1, List.mem_cons_of_mem _ (ih dr1 s h).2⟩

end Resolver

/-- C25: after a load that returns nil, no injection and no evaluation is
made for an identifier that has no entry in the loaded catalog, be it in the
execution order or not (every call is for an entry of the catalog), and the
run returns nil when every injection and evaluation that is made succeeds. -/
theorem C25_missing_resource_is_skipped (c : Resolver.Collaborators) (rank : Str → Nat)
    (dr dr1 : DependencyResolver) (id : Str)
    (hload : Resolver.LoadResourceEntries c dr = (.nil, dr1))
    (hmissing : ∀ r ∈ dr1.Resources, r.Id ≠ id) :
    (∀ s ∈ (Resolver.HandleRunAction c rank dr).2.2, s.res.Id ≠ id ∧ s.res ∈ dr1.Resources) ∧
    ((∀ s ∈ (Resolver.HandleRunAction c rank dr).2.2, s.err = none) →
      (Resolver.HandleRunAction c rank dr).1 = .nil) := by
  have hsteps := Resolver.runStack_steps c rank dr1.Resources
    (c.BuildDependencyStack dr1.ResourceDependencies dr.WorkflowAction) dr1
  have hhalt := Resolver.halting_runStack c rank dr1.Resources
    (c.BuildDependencyStack dr1.ResourceDependencies dr.WorkflowAction) dr1
  unfold Resolver.HandleRunAction
  rw [hload]
  simp only
  cases hr : Resolver.runStack c rank dr1.Resources
      (c.BuildDependencyStack dr1.ResourceDependencies dr.WorkflowAction) dr1 with
  | mk err rest1 =>
    obtain ⟨dr2, steps⟩ := rest1
    rw [hr] at hsteps hhalt
    cases err with
    | none =>
      simp only
      exact ⟨fun s hs => ⟨hmissing _ (hsteps s hs).1, (hsteps s hs).1⟩, fun _ => trivial⟩
    | some e =>
      simp only
      refine ⟨fun s hs => ⟨hmissing _ (hsteps s hs).1, (hsteps s hs).1⟩, fun hall => ?_⟩
      obtain ⟨front, s, hsplit, herr, _⟩ := hhalt.2 e rfl
      have hs : s ∈ steps := by
        simp only at hsplit
        rw [hsplit]
        simp
      have := hall s hs
      rw [herr] at this
      cases this

set_option maxRecDepth 1000000 in
/-- C25 for a catalog of the one resource `C`, which requires `B`: the order is
B, C, nothing is done for `B`, and the run injects and evaluates `C` and
returns nil. -/
theorem C25_missing_resource_is_skipped_witness :
    Sample.danglingCollaborators.BuildDependencyStack [("C".toList, ["B".toList])] "C".toList =
      ["B".toList, "C".toList] ∧
    (Resolver.HandleRunAction Sample.danglingCollaborators Sample.anyRank
      (Sample.resolver (Sample.fsWith Sample.headed))).2.2.map (fun s => (s.res.Id, s.call)) =
      [("C".toList, Resolver.Call.inject), ("C".toList, Resolver.Call.evaluate)] ∧
    (∀ s ∈ (Resolver.HandleRunAction Sample.danglingCollaborators Sample.anyRank
      (Sample.resolver (Sample.fsWith Sample.headed))).2.2,
        s.res.Id ≠ "B".toList ∧ s.res ∈ [Sample.entryC]) ∧
    (Resolver.HandleRunAction Sample.danglingCollaborators Sample.anyRank
      (Sample.resolver (Sample.fsWith Sample.headed))).1 = .nil :=
  ⟨by decide, by decide,
    (C25_missing_resource_is_skipped Sample.danglingCollaborators Sample.anyRank
      (Sample.resolver (Sample.fsWith Sample.headed))
      { Sample.resolver (Sample.fsWith Sample.headed) with
        Resources := [Sample.entryC], ResourceDependencies := [("C".toList, ["B".toList])] }
      "B".toList (by decide) (by decide)).1,
    by decide⟩

end Kdeps

/-! ## A header line that no newline ends -/

namespace Kdeps

namespace Regexp

/-- A text without the first character of the opening text has no match. -/
theorem replaceAux_of_no_opener (c0 : Char) (otail close : Str) (fuel : Nat) (s : Str)
    (h : c0 ∉ s) : replaceAux (c0 :: otail) close fuel s = s := by
  induction fuel generalizing s with
  | zero => rfl
  | succ fuel ih =>
    cases s with
    | nil => rfl
    | cons c t =>
      have hc : c ≠ c0 := fun e => h (by simp [e])
      have ht : c0 ∉ t := fun e => h (List.mem_cons_of_mem _ e)
      have hm : matchAt (c0 :: otail) close (c :: t) = none := by
        unfold matchAt
        have hp : ¬ Strings.HasPrefix (c :: t) (c0 :: otail) = true := by
          simp [Strings.HasPrefix, hc]
        rw [if_neg hp]
      unfold replaceAux
      rw [hm]
      simp only
      rw [ih t ht]

/-- The rewrite leaves a text without the first character of the opening text. -/
theorem replaceAll_of_no_opener (c0 : Char) (otail close s : Str) (h : c0 ∉ s) :
    ReplaceAllString (c0 :: otail) close s = s :=
  replaceAux_of_no_opener c0 otail close s.length s h

end Regexp

namespace Strings

/-- No newline in a text: the search for one finds nothing. -/
theorem indexOf_newline_none (s : Str) (h : '\n' ∉ s) : indexOf s ['\n'] = none := by
  rw [indexOf_none_iff]
  rintro ⟨a, b, hab⟩
  apply h
  rw [← hab]
  simp

end Strings

namespace Resolver

/-- The text written by the version of resolver.go when the keyword is found at
`i` and no newline follows: the batch stands right before the keyword. -/
theorem spliced_braces_without_newline (contentStr importFiles : Str) (i : Nat)
    (hj : Strings.indexOf (contentStr.drop i) ['\n'] = none) :
    spliced contentStr importFiles (i : Int) =
      Regexp.ReplaceAllString "\x7b\x7b".toList "\x7d\x7d".toList
        (contentStr.take i ++ importFiles ++ contentStr.drop i) := by
  unfold spliced Strings.sliceFrom Strings.sliceTo
  simp only [Int.toNat_ofNat]
  rw [Imports.index_of_indexOf_none _ _ hj]
  have he : ((-1 : Int) + (i : Int) + 1).toNat = i := by omega
  rw [he]

end Resolver

end Kdeps

namespace Kdeps

namespace Afero

/-- A write on a file system that accepts writes succeeds. -/
theorem writeFile_ok (fs : Fs) (path content : Str) (h : fs.readOnly = false) :
    ∃ fs1, WriteFile fs path content = .ok fs1 ∧ lookup fs1 path = some content := by
  have hw : WriteFile fs path content =
      .ok { fs with files := (path, content) :: fs.files.filter (fun e => e.1 ≠ path) } := by
    unfold WriteFile
    rw [h]
    rfl
  exact ⟨_, hw, lookup_after_write fs _ path content hw⟩

end Afero

namespace Imports

/-- What the version of imports.go writes when no newline follows the keyword. -/
theorem injected_before_keyword (dr : DependencyResolver) (rank : Str → Nat)
    (pklFile contentStr : Str) (i : Nat)
    (hread : Afero.ReadFile dr.Fs pklFile = .ok contentStr)
    (hidx : Strings.indexOf contentStr amends = some i)
    (hnonl : '\n' ∉ contentStr.drop i)
    (hwrite : dr.Fs.readOnly = false)
    (hnew : importBuilder dr contentStr (GoMap.rangeOver rank (importCheck dr)) ≠ []) :
    (PrependDynamicImports dr rank pklFile).1 = none ∧
    Afero.lookup (PrependDynamicImports dr rank pklFile).2 pklFile =
      some (Regexp.ReplaceAllString "@(".toList ")".toList
        (contentStr.take i ++
          importBuilder dr contentStr (GoMap.rangeOver rank (importCheck dr)) ++
          contentStr.drop i)) := by
  have hindex : Strings.Index contentStr amends = (i : Int) := index_of_indexOf _ _ _ hidx
  have hne : ((i : Int) ≠ -1) := by omega
  obtain ⟨fs1, hw, hlook⟩ := Afero.writeFile_ok dr.Fs pklFile
    (Regexp.ReplaceAllString "@(".toList ")".toList
      (contentStr.take i ++
        importBuilder dr contentStr (GoMap.rangeOver rank (importCheck dr)) ++
        contentStr.drop i)) hwrite
  unfold PrependDynamicImports
  rw [hread]
  simp only
  rw [if_neg hnew, hindex, if_pos hne,
    spliced_without_newline _ _ _ (Strings.indexOf_newline_none _ hnonl), hw]
  exact ⟨rfl, hlook⟩

end Imports

namespace Resolver

/-- What the version of resolver.go writes when no newline follows the keyword. -/
theorem collected_before_keyword (dr : DependencyResolver) (rank : Str → Nat)
    (res : ResourceNodeEntry) (content : Str) (i : Nat)
    (hread : Afero.ReadFile dr.Fs res.File = .ok content)
    (hidx : Strings.indexOf content Imports.amends = some i)
    (hnonl : '\n' ∉ content.drop i)
    (hwrite : dr.Fs.readOnly = false)
    (hnew : (collect dr.Fs content (GoMap.rangeOver rank (importCheck dr)) ([], [])).1 ≠ [] ∨
      (collect dr.Fs content (GoMap.rangeOver rank (importCheck dr)) ([], [])).2 ≠ []) :
    (PrependDynamicImports dr rank res).1 = none ∧
    Afero.lookup (PrependDynamicImports dr rank res).2 res.File =
      some (Regexp.ReplaceAllString "\x7b\x7b".toList "\x7d\x7d".toList
        (content.take i ++
          ((collect dr.Fs content (GoMap.rangeOver rank (importCheck dr)) ([], [])).1 ++
            (['\n'] ++
              (collect dr.Fs content (GoMap.rangeOver rank (importCheck dr)) ([], [])).2 ++
              ['\n'])) ++
          content.drop i)) := by
  have hindex : Strings.Index content Imports.amends = (i : Int) :=
    Imports.index_of_indexOf _ _ _ hidx
  have hne : ((i : Int) ≠ -1) := by omega
  obtain ⟨fs1, hw, hlook⟩ := Afero.writeFile_ok dr.Fs res.File
    (Regexp.ReplaceAllString "\x7b\x7b".toList "\x7d\x7d".toList
      (content.take i ++
        ((collect dr.Fs content (GoMap.rangeOver rank (importCheck dr)) ([], [])).1 ++
          (['\n'] ++
            (collect dr.Fs content (GoMap.rangeOver rank (importCheck dr)) ([], [])).2 ++
            ['\n'])) ++
        content.drop i)) hwrite
  rw [injected_by_collect dr rank res content hread, if_pos hnew, hindex, if_pos hne,
    spliced_braces_without_newline _ _ _ (Strings.indexOf_newline_none _ hnonl), hw]
  exact ⟨rfl, hlook⟩

end Resolver

end Kdeps

namespace Kdeps

/-- C26, amended: for a definition text in which the keyword `amends` is first
found at offset `i` and no newline follows that offset, on a file system that
accepts the write, both versions of PrependDynamicImports return nil and write
the text before the offset, the batch of new import lines and the text from the
offset on (which starts with the keyword), in this order, passed through the
placeholder rewrite; the written text differs from that concatenation at most
in placeholders, and it is that concatenation when the text and the batch hold
no `@` (imports.go) or no opening brace (resolver.go). -/
theorem C26_batch_before_unterminated_header (dr : DependencyResolver) (rank : Str → Nat)
    (res : ResourceNodeEntry) (contentStr : Str) (i : Nat)
    (hread : Afero.ReadFile dr.Fs res.File = .ok contentStr)
    (hidx : Strings.indexOf contentStr Imports.amends = some i)
    (hnonl : '\n' ∉ contentStr.drop i)
    (hwrite : dr.Fs.readOnly = false) :
    Imports.amends <+: contentStr.drop i ∧
    (Imports.importBuilder dr contentStr
        (GoMap.rangeOver rank (Imports.importCheck dr)) ≠ [] →
      (Imports.PrependDynamicImports dr rank res.File).1 = none ∧
      Afero.lookup (Imports.PrependDynamicImports dr rank res.File).2 res.File =
        some (Regexp.ReplaceAllString "@(".toList ")".toList
          (contentStr.take i ++
            Imports.importBuilder dr contentStr
              (GoMap.rangeOver rank (Imports.importCheck dr)) ++
            contentStr.drop i)) ∧
      Regexp.Rewrites
        (contentStr.take i ++
          Imports.importBuilder dr contentStr
            (GoMap.rangeOver rank (Imports.importCheck dr)) ++
          contentStr.drop i)
        (Regexp.ReplaceAllString "@(".toList ")".toList
          (contentStr.take i ++
            Imports.importBuilder dr contentStr
              (GoMap.rangeOver rank (Imports.importCheck dr)) ++
            contentStr.drop i)) ∧
      ('@' ∉ contentStr →
        '@' ∉ Imports.importBuilder dr contentStr
          (GoMap.rangeOver rank (Imports.importCheck dr)) →
        Afero.lookup (Imports.PrependDynamicImports dr rank res.File).2 res.File =
          some (contentStr.take i ++
            Imports.importBuilder dr contentStr
              (GoMap.rangeOver rank (Imports.importCheck dr)) ++
            contentStr.drop i))) ∧
    (((Resolver.collect dr.Fs contentStr
          (GoMap.rangeOver rank (Resolver.importCheck dr)) ([], [])).1 ≠ [] ∨
        (Resolver.collect dr.Fs contentStr
          (GoMap.rangeOver rank (Resolver.importCheck dr)) ([], [])).2 ≠ []) →
      (Resolver.PrependDynamicImports dr rank res).1 = none ∧
      Afero.lookup (Resolver.PrependDynamicImports dr rank res).2 res.File =
        some (Regexp.ReplaceAllString "\x7b\x7b".toList "\x7d\x7d".toList
          (contentStr.take i ++
            ((Resolver.collect dr.Fs contentStr
                (GoMap.rangeOver rank (Resolver.importCheck dr)) ([], [])).1 ++
              (['\n'] ++
                (Resolver.collect dr.Fs contentStr
                  (GoMap.rangeOver rank (Resolver.importCheck dr)) ([], [])).2 ++
                ['\n'])) ++
            contentStr.drop i)) ∧
      ('\x7b' ∉ contentStr →
        '\x7b' ∉ (Resolver.collect dr.Fs contentStr
            (GoMap.rangeOver rank (Resolver.importCheck dr)) ([], [])).1 ++
          (['\n'] ++
            (Resolver.collect dr.Fs contentStr
              (GoMap.rangeOver rank (Resolver.importCheck dr)) ([], [])).2 ++
            ['\n']) →
        Afero.lookup (Resolver.PrependDynamicImports dr rank res).2 res.File =
          some (contentStr.take i ++
            ((Resolver.collect dr.Fs contentStr
                (GoMap.rangeOver rank (Resolver.importCheck dr)) ([], [])).1 ++
              (['\n'] ++
                (Resolver.collect dr.Fs contentStr
                  (GoMap.rangeOver rank (Resolver.importCheck dr)) ([], [])).2 ++
                ['\n'])) ++
            contentStr.drop i))) := by
  have hmem : ∀ (c : Char) (batch : Str), c ∉ contentStr → c ∉ batch →
      c ∉ contentStr.take i ++ batch ++ contentStr.drop i := by
    intro c batch hc hb h
    rcases List.mem_append.1 h with h1 | h1
    · rcases List.mem_append.1 h1 with h2 | h2
      · exact hc (List.mem_of_mem_take h2)
      · exact hb h2
    · exact hc (List.mem_of_mem_drop h1)
  refine ⟨(Strings.indexOf_some _ _ _ hidx).1, ?_, ?_⟩
  · intro hnew
    obtain ⟨hnil, hlook⟩ := Imports.injected_before_keyword dr rank res.File contentStr i
      hread hidx hnonl hwrite hnew
    refine ⟨hnil, hlook, Regexp.rewrites_replaceAux _ _, ?_⟩
    intro hc hb
    exact hlook.trans (congrArg some
      (Regexp.replaceAll_of_no_opener '@' ['('] ")".toList _ (hmem '@' _ hc hb)))
  · intro hnew
    obtain ⟨hnil, hlook⟩ := Resolver.collected_before_keyword dr rank res contentStr i
      hread hidx hnonl hwrite hnew
    refine ⟨hnil, hlook, ?_⟩
    intro hc hb
    exact hlook.trans (congrArg some
      (Regexp.replaceAll_of_no_opener '\x7b' ['\x7b'] "\x7d\x7d".toList _
        (hmem '\x7b' _ hc hb)))

end Kdeps

namespace Kdeps

set_option maxRecDepth 1000000 in
/-- C26 for the text `amends "x"` that no newline ends, with the request
descriptor present: both versions return nil and write the batch followed by
the original text. -/
theorem C26_batch_before_unterminated_header_witness :
    (Imports.PrependDynamicImports (Sample.resolver (Sample.fsWithRequest Sample.unterminated))
      Sample.anyRank Sample.defFile).1 = none ∧
    Afero.lookup (Resolver.PrependDynamicImports
        (Sample.resolver (Sample.fsWithRequest Sample.unterminated)) Sample.anyRank
        ⟨"a".toList, Sample.defFile⟩).2 Sample.defFile =
      some ([] ++ ("import \"/agent/actions/api/request.pkl\"\n".toList ++
        (['\n'] ++ [] ++ ['\n'])) ++ Sample.unterminated) :=
  ⟨((C26_batch_before_unterminated_header
      (Sample.resolver (Sample.fsWithRequest Sample.unterminated)) Sample.anyRank
      ⟨"a".toList, Sample.defFile⟩ Sample.unterminated 0 rfl (by decide) (by decide)
      rfl).2.1 (by decide)).1,
   ((C26_batch_before_unterminated_header
      (Sample.resolver (Sample.fsWithRequest Sample.unterminated)) Sample.anyRank
      ⟨"a".toList, Sample.defFile⟩ Sample.unterminated 0 rfl (by decide) (by decide)
      rfl).2.2 (by decide)).2.2 (by decide) (by decide)⟩

set_option maxRecDepth 1000000 in
/-- C26 as stated fails: for header lines that no newline ends and that hold a
placeholder, the text written behind the batch is not the original text: the
placeholder has been rewritten. -/
theorem C26_text_behind_batch_is_rewritten :
    Afero.lookup (Imports.PrependDynamicImports
        (Sample.resolver (Sample.fsWithRequest Sample.unterminatedAt)) Sample.anyRank
        Sample.defFile).2 Sample.defFile =
      some (Imports.importBuilder (Sample.resolver (Sample.fsWithRequest Sample.unterminatedAt))
        Sample.unterminatedAt (GoMap.rangeOver Sample.anyRank
          (Imports.importCheck (Sample.resolver (Sample.fsWithRequest Sample.unterminatedAt))))
        ++ "amends \"\\(x)\"".toList) ∧
    Afero.lookup (Resolver.PrependDynamicImports
        (Sample.resolver (Sample.fsWithRequest Sample.unterminatedBraces)) Sample.anyRank
        ⟨"a".toList, Sample.defFile⟩).2 Sample.defFile =
      some ("import \"/agent/actions/api/request.pkl\"\n\n\n".toList ++
        "amends \"\\(x)\"".toList) ∧
    Sample.unterminatedAt ≠ "amends \"\\(x)\"".toList ∧
    Sample.unterminatedBraces ≠ "amends \"\\(x)\"".toList ∧
    Strings.indexOf Sample.unterminatedAt Imports.amends = some 0 ∧
    Strings.indexOf Sample.unterminatedBraces Imports.amends = some 0 ∧
    '\n' ∉ Sample.unterminatedAt ∧ '\n' ∉ Sample.unterminatedBraces := by
  decide

end Kdeps

/-! ## The output path of a kind, computed twice -/

namespace Kdeps

namespace Filepath

/-- One step of splitSlash. -/
theorem splitSlash_cons (c : Char) (cs : Str) :
    splitSlash (c :: cs) =
      if c = '/' then [] :: splitSlash cs
      else
        match splitSlash cs with
        | [] => [[c]]
        | h :: t => (c :: h) :: t :=
  rfl

/-- The elements of a path around one of its separators. -/
theorem splitSlash_at_separator (a b : Str) :
    splitSlash (a ++ '/' :: b) = splitSlash a ++ splitSlash b := by
  induction a with
  | nil => rfl
  | cons c cs ih =>
    rw [List.cons_append, splitSlash_cons c (cs ++ '/' :: b), splitSlash_cons c cs, ih]
    by_cases hc : c = '/'
    · rw [if_pos hc, if_pos hc]
      rfl
    · rw [if_neg hc, if_neg hc]
      cases hs : splitSlash cs with
      | nil => exact absurd hs (splitSlash_ne_nil cs)
      | cons h t => rfl

/-- An empty element does not change what Clean keeps. -/
theorem foldl_cleanPush_empty (rooted : Bool) (xs ys : List Str) (kept : List Str) :
    (xs ++ [] :: ys).foldl (cleanPush rooted) kept = (xs ++ ys).foldl (cleanPush rooted) kept := by
  rw [List.foldl_append, List.foldl_append, List.foldl_cons]
  have h : cleanPush rooted (List.foldl (cleanPush rooted) kept xs) [] =
      List.foldl (cleanPush rooted) kept xs := by
    unfold cleanPush
    simp
  rw [h]

/-- A doubled separator behind a directory that is not empty does not change
the cleaned path. -/
theorem clean_double_separator (a b : Str) (ha : a ≠ []) :
    Clean (a ++ '/' :: '/' :: b) = Clean (a ++ '/' :: b) := by
  have h1 : a ++ '/' :: '/' :: b ≠ [] := by simp
  have h2 : a ++ '/' :: b ≠ [] := by simp
  have hhead : (a ++ '/' :: '/' :: b).head? = (a ++ '/' :: b).head? := by
    cases a with
    | nil => exact absurd rfl ha
    | cons c cs => rfl
  unfold Clean
  rw [if_neg h1, if_neg h2]
  simp only [hhead]
  rw [splitSlash_at_separator a ('/' :: b), splitSlash_at_separator a b]
  have hs : splitSlash ('/' :: b) = [] :: splitSlash b := rfl
  rw [hs, foldl_cleanPush_empty]

/-- Behind a directory that is not empty, joining `kind` and `file` as two
elements and joining the one element `/kind/file` give the same path. -/
theorem join_three_eq_join_two (dir kind file : Str) (hdir : dir ≠ []) (hkind : kind ≠ [])
    (hfile : file ≠ []) :
    Join [dir, kind, file] = Join [dir, '/' :: (kind ++ '/' :: file)] := by
  have h3 : [dir, kind, file].filter (fun e => e ≠ []) = [dir, kind, file] := by
    simp [List.filter, hdir, hkind, hfile]
  have h2 : [dir, '/' :: (kind ++ '/' :: file)].filter (fun e => e ≠ []) =
      [dir, '/' :: (kind ++ '/' :: file)] := by
    simp [List.filter, hdir]
  unfold Join
  simp only [h3, h2]
  have e3 : List.intercalate ['/'] [dir, kind, file] = dir ++ '/' :: (kind ++ '/' :: file) := by
    simp [List.intercalate]
  have e2 : List.intercalate ['/'] [dir, '/' :: (kind ++ '/' :: file)] =
      dir ++ '/' :: '/' :: (kind ++ '/' :: file) := by
    simp [List.intercalate]
  rw [e3, e2, clean_double_separator dir _ hdir]
  simp

end Filepath

end Kdeps

namespace Kdeps

namespace Timestamps

/-- With an action directory that is not empty, the path of a kind in
getResourceFilePath is the path of that kind in the import table. -/
theorem paths_agree (dr : DependencyResolver) (kind : Str) (hdir : dr.ActionDir ≠ [])
    (hkind : kind ∈ ["llm".toList, "client".toList, "exec".toList]) :
    getResourceFilePath dr kind = .ok (Imports.outputFile dr kind) := by
  have hjoin : ∀ k tail : Str, k ≠ [] → tail ≠ [] →
      Filepath.Join [dr.ActionDir, k, dr.RequestId ++ tail] =
        Filepath.Join [dr.ActionDir, "/".toList ++ k ++ "/".toList ++ dr.RequestId ++ tail] := by
    intro k tail hk htail
    have hfile : dr.RequestId ++ tail ≠ [] := by
      intro h
      exact htail (List.append_eq_nil.1 h).2
    rw [Filepath.join_three_eq_join_two dr.ActionDir k (dr.RequestId ++ tail) hdir hk hfile]
    congr 2
    simp
  simp only [List.mem_cons, List.mem_singleton, List.not_mem_nil, or_false] at hkind
  unfold getResourceFilePath
  rw [mapGet_files]
  rcases hkind with h | h | h <;> subst h
  · have h1 : ¬ "exec".toList = "llm".toList := by decide
    have h2 : ¬ "client".toList = "llm".toList := by decide
    rw [if_neg h1, if_neg h2, if_pos rfl]
    simp only
    rw [hjoin "llm".toList "__llm_output.pkl".toList (by decide) (by decide)]
    unfold Imports.outputFile
    simp
  · have h1 : ¬ "exec".toList = "client".toList := by decide
    rw [if_neg h1, if_pos rfl]
    simp only
    rw [hjoin "client".toList "__client_output.pkl".toList (by decide) (by decide)]
    unfold Imports.outputFile
    simp
  · rw [if_pos rfl]
    simp only
    rw [hjoin "exec".toList "__exec_output.pkl".toList (by decide) (by decide)]
    unfold Imports.outputFile
    simp

end Timestamps

set_option maxRecDepth 1000000 in
/-- C27 at its failing input: for a resolver with the empty action directory
and the request `r1`, getResourceFilePath gives the relative paths
`<kind>/r1__<kind>_output.pkl` for llm, client and exec, and the import table
(and PrepareImportFiles, which spells the paths the same way) gives the rooted
paths `/<kind>/r1__<kind>_output.pkl`. -/
theorem C27_paths_differ_for_empty_action_dir :
    Timestamps.getResourceFilePath Sample.outsideDocker "llm".toList =
      .ok "llm/r1__llm_output.pkl".toList ∧
    Imports.outputFile Sample.outsideDocker "llm".toList = "/llm/r1__llm_output.pkl".toList ∧
    Timestamps.getResourceFilePath Sample.outsideDocker "client".toList =
      .ok "client/r1__client_output.pkl".toList ∧
    Imports.outputFile Sample.outsideDocker "client".toList =
      "/client/r1__client_output.pkl".toList ∧
    Timestamps.getResourceFilePath Sample.outsideDocker "exec".toList =
      .ok "exec/r1__exec_output.pkl".toList ∧
    Imports.outputFile Sample.outsideDocker "exec".toList = "/exec/r1__exec_output.pkl".toList :=
  ⟨rfl, by decide, rfl, by decide, rfl, by decide⟩

end Kdeps

/-! ## Several placeholders on one line -/

namespace Kdeps

set_option maxRecDepth 1000000 in
/-- C28 at its failing input: on the line `cmd = "@(a) and @(b)"` the rewrite
replaces the first placeholder only, and the file that PrependDynamicImports
writes for a text with this line (header found, request descriptor present, so
that an import line is new) holds the line with the second placeholder as it
was. -/
theorem C28_second_placeholder_is_kept :
    Regexp.ReplaceAllString "@(".toList ")".toList "cmd = \"@(a) and @(b)\"\n".toList =
      "cmd = \"\\(a) and @(b)\"\n".toList ∧
    (Imports.PrependDynamicImports (Sample.resolver (Sample.fsWithRequest Sample.twoPlaceholders))
      Sample.anyRank Sample.defFile).1 = none ∧
    Afero.lookup (Imports.PrependDynamicImports
        (Sample.resolver (Sample.fsWithRequest Sample.twoPlaceholders)) Sample.anyRank
        Sample.defFile).2 Sample.defFile =
      some ("amends \"x\"\n".toList ++
        Imports.importBuilder (Sample.resolver (Sample.fsWithRequest Sample.twoPlaceholders))
          Sample.twoPlaceholders (GoMap.rangeOver Sample.anyRank
            (Imports.importCheck (Sample.resolver (Sample.fsWithRequest Sample.twoPlaceholders))))
        ++ "cmd = \"\\(a) and @(b)\"\n".toList) ∧
    Imports.importBuilder (Sample.resolver (Sample.fsWithRequest Sample.twoPlaceholders))
        Sample.twoPlaceholders (GoMap.rangeOver Sample.anyRank
          (Imports.importCheck (Sample.resolver (Sample.fsWithRequest Sample.twoPlaceholders))))
      ≠ [] := by
  decide

end Kdeps

/-! ## The file name against the module of the header line -/

namespace Kdeps

namespace Enforcer

/-- The text after the first occurrence of a separator is what stands behind
the index that strings.Index finds. -/
theorem afterFirst_iff (line sep back : Str) :
    AfterFirst line sep back ↔
      ∃ i, Strings.indexOf line sep = some i ∧ back = line.drop (i + sep.length) := by
  constructor
  · rintro ⟨front, hline, hmin⟩
    have hin : sep <:+: line := ⟨front, back, hline.symm⟩
    cases hi : Strings.indexOf line sep with
    | none => exact absurd hin ((Strings.indexOf_none_iff line sep).1 hi)
    | some i =>
      obtain ⟨hpre, hle, hfirst⟩ := Strings.indexOf_some line sep i hi
      have hdropfront : line.drop front.length = sep ++ back := by
        rw [hline, List.append_assoc, List.drop_left]
      have h1 : i ≤ front.length := by
        by_contra hlt
        have := hfirst front.length (by omega)
        rw [hdropfront] at this
        exact this (List.prefix_append _ _)
      obtain ⟨rest, hrest⟩ := hpre
      have h2 : front.length ≤ i := by
        have hsplit : line = line.take i ++ sep ++ rest := by
          rw [List.append_assoc, hrest, List.take_append_drop]
        have := hmin (line.take i) rest hsplit
        rw [List.length_take] at this
        omega
      have hfi : front.length = i := by omega
      refine ⟨i, rfl, ?_⟩
      rw [← hfi, hline, List.append_assoc, ← List.drop_drop, List.drop_left, List.drop_left]
  · rintro ⟨i, hi, hback⟩
    obtain ⟨hpre, hle, hfirst⟩ := Strings.indexOf_some line sep i hi
    obtain ⟨rest, hrest⟩ := hpre
    have hrest2 : rest = back := by
      rw [hback, ← List.drop_drop, ← hrest, List.drop_left]
    refine ⟨line.take i, ?_, ?_⟩
    · rw [List.append_assoc, ← hrest2, hrest, List.take_append_drop]
    · intro front2 back2 h2
      rw [List.length_take]
      by_contra hlt
      have hlt2 : front2.length < i := by omega
      have := hfirst front2.length hlt2
      have hd : line.drop front2.length = sep ++ back2 := by
        rw [h2, List.append_assoc, List.drop_left]
      rw [hd] at this
      exact this (List.prefix_append _ _)

end Enforcer

end Kdeps

namespace Kdeps

namespace Enforcer

/-- The chain of tests of EnforcePklFilename, over arbitrary names. -/
theorem verdict_chain (K W R kd wf pkl name e1 e2 e3 t1 t2 : Str) (hKW : K ≠ W) (hKR : K ≠ R)
    (hWR : W ≠ R) :
    (if pkl = R ∧ (name = kd ∨ name = wf) then some e1
      else if ¬(pkl = K ∨ pkl = W ∨ pkl = R) then some e2
      else if (if pkl = K then (kd, t1) else if pkl = W then (wf, t2) else ([], [])).1 ≠ name ∧
          pkl ≠ R then
        some (e3 ++ (if pkl = K then (kd, t1) else if pkl = W then (wf, t2) else ([], [])).2)
      else none) = none ↔
      ((pkl = K ∧ name = kd) ∨ (pkl = W ∧ name = wf) ∨ (pkl = R ∧ name ≠ kd ∧ name ≠ wf)) := by
  by_cases hR : pkl = R
  · subst hR
    have h1 : ¬ pkl = K := fun h => hKR h.symm
    have h2 : ¬ pkl = W := fun h => hWR h.symm
    by_cases hn : name = kd ∨ name = wf
    · rw [if_pos ⟨rfl, hn⟩]
      constructor
      · intro h
        cases h
      · rintro (⟨h, _⟩ | ⟨h, _⟩ | ⟨_, h3, h4⟩)
        · exact absurd h h1
        · exact absurd h h2
        · rcases hn with h | h
          · exact absurd h h3
          · exact absurd h h4
    · have hc : ¬ (pkl = pkl ∧ (name = kd ∨ name = wf)) := fun h => hn h.2
      have hv : ¬ ¬ (pkl = K ∨ pkl = W ∨ pkl = pkl) := fun h => h (Or.inr (Or.inr rfl))
      have hx : ¬ ((if pkl = K then (kd, t1) else if pkl = W then (wf, t2) else ([], [])).1 ≠
          name ∧ pkl ≠ pkl) := fun h => h.2 rfl
      rw [if_neg hc, if_neg hv, if_neg hx]
      constructor
      · intro _
        exact Or.inr (Or.inr ⟨rfl, fun h => hn (Or.inl h), fun h => hn (Or.inr h)⟩)
      · intro _
        rfl
  · have hc : ¬ (pkl = R ∧ (name = kd ∨ name = wf)) := fun h => hR h.1
    rw [if_neg hc]
    by_cases hK : pkl = K
    · subst hK
      have hv : ¬ ¬ (pkl = pkl ∨ pkl = W ∨ pkl = R) := fun h => h (Or.inl rfl)
      rw [if_neg hv]
      simp only [if_true]
      by_cases hn : kd = name
      · have hx : ¬ (kd ≠ name ∧ pkl ≠ R) := fun h => h.1 hn
        rw [if_neg hx]
        constructor
        · intro _
          exact Or.inl ⟨trivial, hn.symm⟩
        · intro _
          rfl
      · rw [if_pos ⟨hn, hR⟩]
        constructor
        · intro h
          cases h
        · rintro (⟨_, h⟩ | ⟨h, _⟩ | ⟨h, _⟩)
          · exact absurd h.symm hn
          · exact absurd h hKW
          · exact absurd h hR
    · by_cases hW : pkl = W
      · subst hW
        have hv : ¬ ¬ (pkl = K ∨ pkl = pkl ∨ pkl = R) := fun h => h (Or.inr (Or.inl rfl))
        rw [if_neg hv]
        simp only [if_neg hK, if_true]
        by_cases hn : wf = name
        · have hx : ¬ (wf ≠ name ∧ pkl ≠ R) := fun h => h.1 hn
          rw [if_neg hx]
          constructor
          · intro _
            exact Or.inr (Or.inl ⟨trivial, hn.symm⟩)
          · intro _
            rfl
        · rw [if_pos ⟨hn, hR⟩]
          constructor
          · intro h
            cases h
          · rintro (⟨h, _⟩ | ⟨_, h⟩ | ⟨h, _⟩)
            · exact absurd h hK
            · exact absurd h.symm hn
            · exact absurd h hR
      · have hv : ¬ (pkl = K ∨ pkl = W ∨ pkl = R) := by
          rintro (h | h | h)
          · exact hK h
          · exact hW h
          · exact hR h
        rw [if_pos hv]
        constructor
        · intro h
          cases h
        · rintro (⟨h, _⟩ | ⟨h, _⟩ | ⟨h, _⟩)
          · exact absurd h hK
          · exact absurd h hW
          · exact absurd h hR

/-- The verdict of EnforcePklFilename on a line in which `#/` is found. -/
theorem filename_verdict (caseTable : Char → Char) (line filePath : Str) (i : Nat)
    (hi : Strings.indexOf line "#/".toList = some i) :
    EnforcePklFilename caseTable line filePath = none ↔
      ((Strings.Trim (line.drop (i + 2)) "\"".toList = "Kdeps.pkl".toList ∧
          Strings.ToLower caseTable (Filepath.Base filePath) = ".kdeps.pkl".toList) ∨
        (Strings.Trim (line.drop (i + 2)) "\"".toList = "Workflow.pkl".toList ∧
          Strings.ToLower caseTable (Filepath.Base filePath) = "workflow.pkl".toList) ∨
        (Strings.Trim (line.drop (i + 2)) "\"".toList = "Resource.pkl".toList ∧
          Strings.ToLower caseTable (Filepath.Base filePath) ≠ ".kdeps.pkl".toList ∧
          Strings.ToLower caseTable (Filepath.Base filePath) ≠ "workflow.pkl".toList)) := by
  have hindex : Strings.Index line "#/".toList = (i : Int) := by
    unfold Strings.Index
    rw [hi]
  have hstart : ¬ ((i : Int) = -1) := by omega
  have hnat : ((i : Int) + 2).toNat = i + 2 := by omega
  have hrun : EnforcePklFilename caseTable line filePath =
      (if Strings.Trim (line.drop (i + 2)) "\"".toList = "Resource.pkl".toList ∧
          (Strings.ToLower caseTable (Filepath.Base filePath) = ".kdeps.pkl".toList ∨
            Strings.ToLower caseTable (Filepath.Base filePath) = "workflow.pkl".toList) then
        some "invalid filename for Resource.pkl".toList
      else if ¬(Strings.Trim (line.drop (i + 2)) "\"".toList = "Kdeps.pkl".toList ∨
          Strings.Trim (line.drop (i + 2)) "\"".toList = "Workflow.pkl".toList ∨
          Strings.Trim (line.drop (i + 2)) "\"".toList = "Resource.pkl".toList) then
        some "invalid .pkl file in amends line".toList
      else if (if Strings.Trim (line.drop (i + 2)) "\"".toList = "Kdeps.pkl".toList then
            (".kdeps.pkl".toList, "configuration file".toList)
          else if Strings.Trim (line.drop (i + 2)) "\"".toList = "Workflow.pkl".toList then
            ("workflow.pkl".toList, "workflow file".toList)
          else ([], [])).1 ≠ Strings.ToLower caseTable (Filepath.Base filePath) ∧
          Strings.Trim (line.drop (i + 2)) "\"".toList ≠ "Resource.pkl".toList then
        some ("invalid .pkl filename for a ".toList ++
          (if Strings.Trim (line.drop (i + 2)) "\"".toList = "Kdeps.pkl".toList then
            (".kdeps.pkl".toList, "configuration file".toList)
          else if Strings.Trim (line.drop (i + 2)) "\"".toList = "Workflow.pkl".toList then
            ("workflow.pkl".toList, "workflow file".toList)
          else ([], [])).2)
      else none) := by
    unfold EnforcePklFilename
    rw [hindex, if_neg hstart, hnat]
  rw [hrun]
  exact verdict_chain _ _ _ _ _ _ _ _ _ _ _ _ (by decide) (by decide) (by decide)

end Enforcer

/-- C29: EnforcePklFilename returns nil exactly when the line contains `#/`
and the text after its first occurrence, trimmed of double quotes, is
`Kdeps.pkl` with the lower-cased base name of the path `.kdeps.pkl`, or
`Workflow.pkl` with the base name `workflow.pkl`, or `Resource.pkl` with a base
name that is neither of the two; otherwise it returns an error. -/
theorem C29_filename_rule (caseTable : Char → Char) (line filePath : Str) :
    (Enforcer.EnforcePklFilename caseTable line filePath = none ↔
      ∃ back, Enforcer.AfterFirst line "#/".toList back ∧
        ((Strings.Trim back "\"".toList = "Kdeps.pkl".toList ∧
            Strings.ToLower caseTable (Filepath.Base filePath) = ".kdeps.pkl".toList) ∨
          (Strings.Trim back "\"".toList = "Workflow.pkl".toList ∧
            Strings.ToLower caseTable (Filepath.Base filePath) = "workflow.pkl".toList) ∨
          (Strings.Trim back "\"".toList = "Resource.pkl".toList ∧
            Strings.ToLower caseTable (Filepath.Base filePath) ≠ ".kdeps.pkl".toList ∧
            Strings.ToLower caseTable (Filepath.Base filePath) ≠ "workflow.pkl".toList))) ∧
    (Enforcer.EnforcePklFilename caseTable line filePath ≠ none ↔
      ∃ err, Enforcer.EnforcePklFilename caseTable line filePath = some err) := by
  constructor
  · cases hi : Strings.indexOf line "#/".toList with
    | none =>
      have hindex : Strings.Index line "#/".toList = -1 := by
        unfold Strings.Index
        rw [hi]
      have hres : Enforcer.EnforcePklFilename caseTable line filePath =
          some "invalid format: could not extract .pkl filename".toList := by
        unfold Enforcer.EnforcePklFilename
        simp only [hindex, if_true]
      rw [hres]
      constructor
      · intro h
        cases h
      · rintro ⟨back, hafter, _⟩
        obtain ⟨i, hi2, _⟩ := (Enforcer.afterFirst_iff line _ back).1 hafter
        rw [hi] at hi2
        cases hi2
    | some i =>
      rw [Enforcer.filename_verdict caseTable line filePath i hi]
      constructor
      · intro h
        exact ⟨line.drop (i + 2), (Enforcer.afterFirst_iff line _ _).2 ⟨i, hi, rfl⟩, h⟩
      · rintro ⟨back, hafter, h⟩
        obtain ⟨j, hj, hback⟩ := (Enforcer.afterFirst_iff line _ back).1 hafter
        rw [hi] at hj
        cases hj
        have h2 : "#/".toList.length = 2 := rfl
        rw [h2] at hback
        rw [← hback]
        exact h
  · cases Enforcer.EnforcePklFilename caseTable line filePath with
    | none => simp
    | some err => simp

end Kdeps

/-! ## The rendering of the response descriptor -/

namespace Kdeps

namespace Afero

/-- After RemoveAll the file is gone. -/
theorem lookup_after_remove (fs fs1 : Fs) (path : Str) (h : RemoveAll fs path = .ok fs1) :
    lookup fs1 path = none := by
  unfold RemoveAll at h
  by_cases hro : fs.readOnly = true
  · rw [if_pos hro] at h
    cases h
  · rw [if_neg hro] at h
    injection h with h
    rw [← h]
    unfold lookup
    simp only [Option.map_eq_none', List.find?_eq_none, List.mem_filter]
    intro e he
    simpa using he.2

end Afero

namespace Fmt

/-- A format without `%` is printed as it is. -/
theorem sprintf0_plain (indexed : Str → Str) (format : Str) (h : '%' ∉ format) :
    Sprintf0 indexed format = format := by
  unfold Sprintf0
  rw [if_pos h]

end Fmt

namespace Resolver

/-- A response descriptor without the extension `.pkl` is refused before
anything else is done: no text is returned, the file system is as before and
the renderer is not run; the error is the message with the path, passed
through `fmt` as a format, which is the message itself when the path holds no
`%`. -/
theorem eval_refuses_other_extension (indexed : Str → Str) (r : Renderer)
    (dr : DependencyResolver) (hext : Filepath.Ext dr.ResponsePklFile ≠ ".pkl".toList) :
    (EvalPklFormattedResponseFile indexed r dr).1.1 = [] ∧
    (EvalPklFormattedResponseFile indexed r dr).1.2 =
      some (Fmt.Sprintf0 indexed
        ("file '".toList ++ dr.ResponsePklFile ++ "' must have a .pkl extension".toList)) ∧
    ('%' ∉ dr.ResponsePklFile →
      (EvalPklFormattedResponseFile indexed r dr).1.2 =
        some ("file '".toList ++ dr.ResponsePklFile ++
          "' must have a .pkl extension".toList)) ∧
    (EvalPklFormattedResponseFile indexed r dr).2.1 = dr.Fs ∧
    (EvalPklFormattedResponseFile indexed r dr).2.2 = [] := by
  have hrun : EvalPklFormattedResponseFile indexed r dr =
      (([], some (Fmt.Sprintf0 indexed
        ("file '".toList ++ dr.ResponsePklFile ++ "' must have a .pkl extension".toList))),
        dr.Fs, []) := by
    unfold EvalPklFormattedResponseFile
    rw [if_pos hext]
  rw [hrun]
  refine ⟨rfl, rfl, ?_, rfl, rfl⟩
  intro hp
  have hfree : '%' ∉ "file '".toList ++ dr.ResponsePklFile ++
      "' must have a .pkl extension".toList := by
    intro h
    rcases List.mem_append.1 h with h1 | h1
    · rcases List.mem_append.1 h1 with h2 | h2
      · exact absurd h2 (by decide)
      · exact hp h2
    · exact absurd h1 (by decide)
  simp only
  rw [Fmt.sprintf0_plain indexed _ hfree]

/-- With the extension `.pkl`, the renderer is run at most once, with the
arguments of the `pkl` command, and on a file system in which a response
target file that was there before is removed. -/
theorem eval_removes_before_render (indexed : Str → Str) (r : Renderer)
    (dr : DependencyResolver) (hext : Filepath.Ext dr.ResponsePklFile = ".pkl".toList) :
    ∀ run ∈ (EvalPklFormattedResponseFile indexed r dr).2.2,
      run.2 = renderArgs dr ∧
      (Afero.StatOk dr.Fs dr.ResponseTargetFile = true →
        Afero.lookup run.1 dr.ResponseTargetFile = none) ∧
      (Afero.StatOk dr.Fs dr.ResponseTargetFile = false → run.1 = dr.Fs) := by
  have hnot : ¬ Filepath.Ext dr.ResponsePklFile ≠ ".pkl".toList := not_not.2 hext
  have hremoved : ∀ fs1, removeTarget dr = .ok fs1 →
      (Afero.StatOk dr.Fs dr.ResponseTargetFile = true →
        Afero.lookup fs1 dr.ResponseTargetFile = none) ∧
      (Afero.StatOk dr.Fs dr.ResponseTargetFile = false → fs1 = dr.Fs) := by
    intro fs1 h
    unfold removeTarget at h
    cases hs : Afero.StatOk dr.Fs dr.ResponseTargetFile with
    | true =>
      rw [hs, if_pos rfl] at h
      exact ⟨fun _ => Afero.lookup_after_remove _ _ _ h, fun h2 => (by cases h2)⟩
    | false =>
      rw [hs] at h
      simp only [Bool.false_eq_true, if_false] at h
      injection h with h
      exact ⟨fun h2 => (by cases h2), fun _ => h.symm⟩
  unfold EvalPklFormattedResponseFile
  rw [if_neg hnot]
  cases hrm : removeTarget dr with
  | error err =>
    intro run hrun
    simp at hrun
  | ok fs1 =>
    simp only
    cases hbin : r.EnsurePklBinaryExists with
    | some err =>
      intro run hrun
      simp at hrun
    | none =>
      simp only
      cases hex : r.Execute fs1 (renderArgs dr) with
      | mk res fs2 =>
        cases res with
        | error err =>
          intro run hrun
          simp only [List.mem_singleton] at hrun
          rw [hrun]
          exact ⟨rfl, hremoved fs1 hrm⟩
        | ok result =>
          simp only
          by_cases hcode : result.ExitCode ≠ 0
          · rw [if_pos hcode]
            intro run hrun
            simp only [List.mem_singleton] at hrun
            rw [hrun]
            exact ⟨rfl, hremoved fs1 hrm⟩
          · rw [if_neg hcode]
            intro run hrun
            simp only [List.mem_singleton] at hrun
            rw [hrun]
            exact ⟨rfl, hremoved fs1 hrm⟩

end Resolver

set_option maxRecDepth 1000000 in
/-- C30 at its failing input: for the response descriptor
`/agent/actions/api/response%20file.txt`, whose extension is `.txt`, the error
that EvalPklFormattedResponseFile returns is not the message with the path: the
message has gone through `fmt` as a format, which has turned `%20f` into
`%!f(MISSING)`. The file system is unchanged and the renderer is not run. -/
theorem C30_percent_in_path_changes_message :
    Filepath.Ext Sample.encodedResolver.ResponsePklFile = ".txt".toList ∧
    (∀ indexed, (Resolver.EvalPklFormattedResponseFile indexed Sample.renderer
        Sample.encodedResolver).1 =
      ([], some ("file '/agent/actions/api/response%!f(MISSING)ile.txt' must have a .pkl " ++
        "extension").toList)) ∧
    ("file '/agent/actions/api/response%!f(MISSING)ile.txt' must have a .pkl " ++
        "extension").toList ≠
      "file '".toList ++ Sample.encodedResolver.ResponsePklFile ++
        "' must have a .pkl extension".toList ∧
    (∀ indexed, (Resolver.EvalPklFormattedResponseFile indexed Sample.renderer
        Sample.encodedResolver).2 = (Sample.encodedResolver.Fs, [])) :=
  ⟨by decide, fun _ => rfl, by decide, fun _ => rfl⟩

end Kdeps
